import Mathlib

/-!
Verification of `falcon.string_literal`.

A shallow embedding of `falcon/container/string_literal.hpp`,
`falcon/string_id.hpp`, `falcon/functional/fnv.hpp` and
`falcon/iostreams/ostream_insert.hpp`, and a verification of their documented
behaviour.

Conventions of the embedding

* A character type `Ch` is any type with a linear order (the `eq` / `lt` of
  the standard character traits) and a zero (the terminator).
* `std::size_t` is the 64-bit unsigned type, `std::ptrdiff_t` the 64-bit
  signed type and `int` the 32-bit signed type; sizes are natural numbers
  and wrap-around is written out where the source can wrap.
* A `Ch const *` is a `Ptr`: the array object pointed into and an element
  index.  Reading outside of the array object is undefined behaviour and
  is reported as `Result.undefined`.
* The build with exceptions is modelled: `throw_out_of_range_` ends the
  operation with `Result.out_of_range`.
* Objects of the standard library (`std::basic_string`, `std::memcpy`,
  `std::basic_ostream` and its stream buffer) are modelled by their contract.
* The hash functions work on an unsigned type of `w` bits; the integer value
  of a character is given by a function `code`.
-/

namespace falcon

/-! ## Outcomes, machine integers and pointers -/

/-- Outcome of an operation: a value, the out-of-range condition raised by
`throw_out_of_range_`, or undefined behaviour (an access outside of an array
object). -/
inductive Result (α : Type) where
  | ok (value : α) : Result α
  | out_of_range : Result α
  | undefined : Result α
deriving DecidableEq, Repr

/-- Sequencing of outcomes: the first failure ends the computation. -/
def Result.bind {α β : Type} (r : Result α) (f : α → Result β) : Result β :=
  match r with
  | .ok a => f a
  | .out_of_range => .out_of_range
  | .undefined => .undefined

/-- Number of values of `std::size_t`. -/
def SIZE_MOD : Nat := 18446744073709551616

/-- Value of `npos = size_type(-1)`. -/
def npos : Nat := 18446744073709551615

/-- Largest value of `std::ptrdiff_t`. -/
def PTRDIFF_MAX : Nat := 9223372036854775807

/-- Value of `std::numeric_limits<int>::max()`. -/
def INT_MAX : Int := 2147483647

/-- Value of `std::numeric_limits<int>::min()`. -/
def INT_MIN : Int := -2147483648

/-- Subtraction of two `std::size_t` values (modulo `2^64`). -/
def size_sub (a b : Nat) : Nat := (a % SIZE_MOD + (SIZE_MOD - b % SIZE_MOD)) % SIZE_MOD

/-- Conversion `static_cast<difference_type>` of a `std::size_t` value. -/
def to_difference_type (u : Nat) : Int :=
  if u % SIZE_MOD ≤ PTRDIFF_MAX then (u % SIZE_MOD : Nat) else ((u % SIZE_MOD : Nat) : Int) - SIZE_MOD

/-- A `Ch const *`: the array object pointed into and the element index. -/
structure Ptr (Ch : Type) where
  arr : List Ch
  idx : Nat
deriving DecidableEq, Repr

namespace Ptr

variable {Ch : Type}

/-- Pointer arithmetic `p + k`. -/
def add (p : Ptr Ch) (k : Nat) : Ptr Ch := ⟨p.arr, p.idx + k⟩

/-- Read `*p`; `none` outside of the array object. -/
def deref (p : Ptr Ch) : Option Ch := p.arr[p.idx]?

/-- The elements readable from `p` up to the end of its array object. -/
def mem (p : Ptr Ch) : List Ch := p.arr.drop p.idx

end Ptr

/-! ## The fixed string value -/

/-- The class `basic_string_literal<Ch, N, Traits>`: its only member is
`Ch data_[N+1]`. -/
structure basic_string_literal (Ch : Type) (N : Nat) where
  data_ : List Ch
  data_len : data_.length = N + 1
deriving DecidableEq

namespace basic_string_literal

variable {Ch : Type} {N : Nat}

/-- Member `size()`. -/
def size (_x : basic_string_literal Ch N) : Nat := N

/-- Member `length()`. -/
def length (x : basic_string_literal Ch N) : Nat := x.size

/-- Member `empty()`. -/
def empty (x : basic_string_literal Ch N) : Bool := x.size == 0

/-- Members `data()` and `c_str()`. -/
def data (x : basic_string_literal Ch N) : Ptr Ch := ⟨x.data_, 0⟩

/-- Member `operator[]`: `data_[pos]`, no bounds check. -/
def index (x : basic_string_literal Ch N) (pos : Nat) : Result Ch :=
  match x.data_[pos]? with
  | some c => .ok c
  | none => .undefined

/-- The `N` content characters of the value. -/
def content (x : basic_string_literal Ch N) : List Ch := x.data_.take N

/-- The member initialiser `Ch data_[N+1] {}`. -/
def zero_init (Ch : Type) [Zero Ch] (N : Nat) : basic_string_literal Ch N :=
  ⟨List.replicate (N + 1) 0, by simp⟩

/-- The assignment `data_[p] = c` for `p` inside of the buffer. -/
def store (x : basic_string_literal Ch N) (p : Nat) (c : Ch) : basic_string_literal Ch N :=
  ⟨x.data_.set p c, by simp [x.data_len]⟩

end basic_string_literal

namespace detail_

variable {Ch : Type} {N : Nat}

/-- The function `detail_::acpy(p, arr, n)`, `p` pointing at `data_[p]` of the
value under construction: returns the buffer written and the final `p`. -/
def acpy (x : basic_string_literal Ch N) (p : Nat) (arr : Ptr Ch) :
    Nat → Result (basic_string_literal Ch N × Nat)
  | 0 => .ok (x, p)
  | n + 1 =>
    match arr.deref with
    | some c => if p < N + 1 then acpy (x.store p c) (p + 1) (arr.add 1) n else .undefined
    | none => .undefined

end detail_

namespace basic_string_literal

variable {Ch : Type} [Zero Ch]

/-- Constructor `basic_string_literal(private_ctor_str_lit, Ch const * arr, n)`. -/
def ctor_arr (N : Nat) (arr : Ptr Ch) (n : Nat) : Result (basic_string_literal Ch N) :=
  (detail_.acpy (zero_init Ch N) 0 arr n).bind fun r => .ok r.1

/-- Constructor `basic_string_literal(private_ctor_str_lit, n, c)`: the loop
`while (p != e) *p++ = c`. -/
def fill_loop {N : Nat} (x : basic_string_literal Ch N) (p : Nat) (c : Ch) :
    Nat → Result (basic_string_literal Ch N)
  | 0 => .ok x
  | n + 1 => if p < N + 1 then fill_loop (x.store p c) (p + 1) c n else .undefined

/-- Constructor `basic_string_literal(private_ctor_str_lit, n, c)`. -/
def ctor_fill (N : Nat) (n : Nat) (c : Ch) : Result (basic_string_literal Ch N) :=
  fill_loop (zero_init Ch N) 0 c n

/-- Constructor `basic_string_literal(private_ctor_str_lit, arr1, n1, arr2, n2)`:
delegates to the `(arr1, n1)` constructor, then runs
`acpy(acpy(data_, arr1, n1), arr2, n2)`. -/
def ctor_cat (N : Nat) (arr1 : Ptr Ch) (n1 : Nat) (arr2 : Ptr Ch) (n2 : Nat) :
    Result (basic_string_literal Ch N) :=
  (ctor_arr N arr1 n1).bind fun this =>
  (detail_.acpy this 0 arr1 n1).bind fun r1 =>
  (detail_.acpy r1.1 r1.2 arr2 n2).bind fun r2 => .ok r2.1

end basic_string_literal

namespace detail_.core_access

variable {Ch : Type} [Zero Ch]

/-- The factory `core_access::mk_lit<N>(n, c)`. -/
def mk_lit_fill (N : Nat) (n : Nat) (c : Ch) : Result (basic_string_literal Ch N) :=
  basic_string_literal.ctor_fill N n c

/-- The factory `core_access::mk_lit<N>(arr, n)`. -/
def mk_lit (N : Nat) (arr : Ptr Ch) (n : Nat) : Result (basic_string_literal Ch N) :=
  basic_string_literal.ctor_arr N arr n

/-- The factory `core_access::mk_lit<N>(arr1, n1, arr2, n2)`. -/
def mk_lit_cat (N : Nat) (arr1 : Ptr Ch) (n1 : Nat) (arr2 : Ptr Ch) (n2 : Nat) :
    Result (basic_string_literal Ch N) :=
  basic_string_literal.ctor_cat N arr1 n1 arr2 n2

end detail_.core_access

section factories

variable {Ch : Type} [Zero Ch]

/-- The functions `make_string_literal(arr)` and `lit(arr)` for an array
`Ch const (&arr)[N]`, here the list of its `N` elements. -/
def make_string_literal (arr : List Ch) : Result (basic_string_literal Ch (arr.length - 1)) :=
  detail_.core_access.mk_lit (arr.length - 1) ⟨arr, 0⟩ (arr.length - 1)

/-- The functions `make_string_literal<N>(c)` and `lit<N>(c)`. -/
def make_string_literal_fill (N : Nat) (c : Ch) : Result (basic_string_literal Ch N) :=
  detail_.core_access.mk_lit_fill N N c

/-- The `operator+` of two values. -/
def operator_plus {n1 n2 : Nat} (x : basic_string_literal Ch n1)
    (y : basic_string_literal Ch n2) : Result (basic_string_literal Ch (n1 + n2)) :=
  detail_.core_access.mk_lit_cat (n1 + n2) x.data x.size y.data y.size

/-- The `operator+` of an array `CharT const (&x)[n1]` and a value; the
length `n1-1+n2` of the result is written `x.length - 1 + n2`. -/
def operator_plus_array_value {n2 : Nat} (x : List Ch)
    (y : basic_string_literal Ch n2) : Result (basic_string_literal Ch (x.length - 1 + n2)) :=
  detail_.core_access.mk_lit_cat (x.length - 1 + n2) ⟨x, 0⟩ (x.length - 1) y.data y.size

/-- The `operator+` of a value and an array `CharT const (&y)[n2]`; the
length `n1+n2-1` of the result is computed on `std::size_t`, where the
declared `n1-1+n2` is the same number. -/
def operator_plus_value_array {n1 : Nat} (x : basic_string_literal Ch n1)
    (y : List Ch) : Result (basic_string_literal Ch (n1 + y.length - 1)) :=
  detail_.core_access.mk_lit_cat (n1 + y.length - 1) x.data x.size ⟨y, 0⟩ (y.length - 1)

/-- The `operator+` of a character and a value: the character is read
through `&x`, an array object of one element. -/
def operator_plus_char_value {n : Nat} (x : Ch)
    (y : basic_string_literal Ch n) : Result (basic_string_literal Ch (n + 1)) :=
  detail_.core_access.mk_lit_cat (n + 1) ⟨[x], 0⟩ 1 y.data y.size

/-- The `operator+` of a value and a character. -/
def operator_plus_value_char {n : Nat} (x : basic_string_literal Ch n)
    (y : Ch) : Result (basic_string_literal Ch (n + 1)) :=
  detail_.core_access.mk_lit_cat (n + 1) x.data x.size ⟨[y], 0⟩ 1

/-- Member `substr<pos, n>()`; `h` is its `static_assert(pos < N)`. -/
def basic_string_literal.substr {N : Nat} (x : basic_string_literal Ch N) (pos n : Nat)
    (_h : pos < N) : Result (basic_string_literal Ch (min n (N - pos))) :=
  detail_.core_access.mk_lit (min n (N - pos)) (x.data.add pos) (min n (N - pos))

end factories

/-! ## Character traits and views -/

namespace detail_

/-- The function `std::char_traits<Ch>::eq` of the standard character types. -/
def char_traits_eq {Ch : Type} [LinearOrder Ch] (a b : Ch) : Bool := decide (a = b)

/-- The function `std::char_traits<Ch>::lt` of the standard character types. -/
def char_traits_lt {Ch : Type} [LinearOrder Ch] (a b : Ch) : Bool := decide (a < b)

namespace constexpr_std_char_traits

variable {Ch : Type}

/-- The function `constexpr_std_char_traits<Ch>::compare(s1, s2, n)`. -/
def compare [LinearOrder Ch] (s1 s2 : Ptr Ch) : Nat → Result Int
  | 0 => .ok 0
  | n + 1 =>
    match s1.deref, s2.deref with
    | some a, some b =>
      if char_traits_eq a b then compare (s1.add 1) (s2.add 1) n
      else .ok (if char_traits_lt a b then -1 else 1)
    | _, _ => .undefined

/-- The loop of `constexpr_std_char_traits<Ch>::length` over the elements
from `p` on, `n` being its counter. -/
def length_loop [Zero Ch] [DecidableEq Ch] : List Ch → Nat → Result Nat
  | [], _ => .undefined
  | c :: rest, n => if c = 0 then .ok n else length_loop rest (n + 1)

/-- The function `constexpr_std_char_traits<Ch>::length(p)`. -/
def length [Zero Ch] [DecidableEq Ch] (p : Ptr Ch) : Result Nat := length_loop p.mem 0

end constexpr_std_char_traits

/-- The class `detail_::string_view<Ch, Tr>`. -/
structure string_view (Ch : Type) where
  s : Ptr Ch
  sz : Nat
deriving DecidableEq, Repr

namespace string_view

variable {Ch : Type}

/-- The default constructor: `s = nullptr`, `sz = 0`. -/
def null : string_view Ch := ⟨⟨[], 0⟩, 0⟩

/-- The constructor `string_view(str)` from a zero-terminated string. -/
def of_c_str [Zero Ch] [DecidableEq Ch] (str : Ptr Ch) : Result (string_view Ch) :=
  (constexpr_std_char_traits.length str).bind fun n => .ok ⟨str, n⟩

/-- Member `size()`. -/
def size (v : string_view Ch) : Nat := v.sz

/-- Member `data()`. -/
def data (v : string_view Ch) : Ptr Ch := v.s

/-- The characters of the range, when it lies inside of its array object. -/
def range (v : string_view Ch) : List Ch := v.s.mem.take v.sz

/-- The range lies inside of its array object. -/
def valid (v : string_view Ch) : Prop := v.s.idx + v.sz ≤ v.s.arr.length

instance (v : string_view Ch) : Decidable v.valid := by
  unfold valid
  infer_instance

end string_view

end detail_

namespace basic_string_literal

open detail_

variable {Ch : Type} {N : Nat}

/-- The call `throw_out_of_range_(func, pos)` of the build with exceptions. -/
def throw_out_of_range_ {α : Type} (_x : basic_string_literal Ch N) (_pos : Nat) : Result α :=
  .out_of_range

/-- The static `view_(str)`. -/
def view_of {M : Nat} (str : basic_string_literal Ch M) : string_view Ch :=
  ⟨str.data, str.size⟩

/-- Member `view_()`. -/
def view_ (x : basic_string_literal Ch N) : string_view Ch := ⟨x.data, x.size⟩

/-- Member `view_(str, func, pos, n)`. -/
def view_str {M : Nat} (x : basic_string_literal Ch N) (str : basic_string_literal Ch M)
    (pos n : Nat) : Result (string_view Ch) :=
  if pos ≤ x.size then .ok ⟨str.data.add pos, min n (size_sub str.size pos)⟩
  else x.throw_out_of_range_ pos

/-- Member `view_(func, pos, n)`. -/
def view_sub (x : basic_string_literal Ch N) (pos n : Nat) : Result (string_view Ch) :=
  if pos ≤ x.size then .ok ⟨x.data.add pos, min n (size_sub x.size pos)⟩
  else x.throw_out_of_range_ pos

variable [LinearOrder Ch]

/-- Member `compare_(str1, str2)`. -/
def compare_ (str1 str2 : string_view Ch) : Result Int :=
  (constexpr_std_char_traits.compare str1.data str2.data (min str1.size str2.size)).bind
    fun ret =>
      if ret = 0 then
        let diff := to_difference_type (size_sub str1.size str2.size)
        .ok (if diff > INT_MAX then INT_MAX else if diff < INT_MIN then INT_MIN else diff)
      else .ok ret

/-- Member `compare(str)`. -/
def compare {M : Nat} (x : basic_string_literal Ch N) (str : basic_string_literal Ch M) :
    Result Int :=
  compare_ x.view_ (view_of str)

/-- Member `compare(pos1, n1, str)`. -/
def compare_sub {M : Nat} (x : basic_string_literal Ch N) (pos1 n1 : Nat)
    (str : basic_string_literal Ch M) : Result Int :=
  (x.view_sub pos1 n1).bind fun v1 => compare_ v1 (view_of str)

/-- Member `compare(pos1, n1, str, pos2, n2)`. -/
def compare_sub_sub {M : Nat} (x : basic_string_literal Ch N) (pos1 n1 : Nat)
    (str : basic_string_literal Ch M) (pos2 n2 : Nat) : Result Int :=
  (x.view_sub pos1 n1).bind fun v1 =>
  (x.view_str str pos2 n2).bind fun v2 => compare_ v1 v2

variable [Zero Ch]

/-- Member `compare(s)` for a zero-terminated string. -/
def compare_c_str (x : basic_string_literal Ch N) (s : Ptr Ch) : Result Int :=
  (string_view.of_c_str s).bind fun v2 => compare_ x.view_ v2

/-- Member `compare(pos1, n1, s)` for a zero-terminated string. -/
def compare_sub_c_str (x : basic_string_literal Ch N) (pos1 n1 : Nat) (s : Ptr Ch) :
    Result Int :=
  (x.view_sub pos1 n1).bind fun v1 =>
  (string_view.of_c_str s).bind fun v2 => compare_ v1 v2

/-- Member `compare(pos1, n1, s, n2)` for a character array. -/
def compare_sub_buf (x : basic_string_literal Ch N) (pos1 n1 : Nat) (s : Ptr Ch) (n2 : Nat) :
    Result Int :=
  (x.view_sub pos1 n1).bind fun v1 => compare_ v1 ⟨s, n2⟩

end basic_string_literal

/-! ## Comparison operators -/

section operators

variable {Ch : Type} [LinearOrder Ch] {n1 n2 n : Nat}

/-- The `operator==` of two values. -/
def operator_eq (x : basic_string_literal Ch n1) (y : basic_string_literal Ch n2) :
    Result Bool :=
  if n1 = n2 then (x.compare y).bind fun c => .ok (decide (c = 0)) else .ok false

/-- The `operator!=` of two values. -/
def operator_ne (x : basic_string_literal Ch n1) (y : basic_string_literal Ch n2) :
    Result Bool :=
  (operator_eq x y).bind fun b => .ok (!b)

/-- The `operator<` of two values. -/
def operator_lt (x : basic_string_literal Ch n1) (y : basic_string_literal Ch n2) :
    Result Bool :=
  (x.compare y).bind fun c => .ok (decide (c < 0))

/-- The `operator>` of two values. -/
def operator_gt (x : basic_string_literal Ch n1) (y : basic_string_literal Ch n2) :
    Result Bool :=
  (x.compare y).bind fun c => .ok (decide (c > 0))

/-- The `operator<=` of two values. -/
def operator_le (x : basic_string_literal Ch n1) (y : basic_string_literal Ch n2) :
    Result Bool :=
  (x.compare y).bind fun c => .ok (decide (c ≤ 0))

/-- The `operator>=` of two values. -/
def operator_ge (x : basic_string_literal Ch n1) (y : basic_string_literal Ch n2) :
    Result Bool :=
  (x.compare y).bind fun c => .ok (decide (c ≥ 0))

variable [Zero Ch]

/-- The `operator==` of a value and a zero-terminated string. -/
def operator_eq_value_c_str (x : basic_string_literal Ch n) (y : Ptr Ch) : Result Bool :=
  (x.compare_c_str y).bind fun c => .ok (decide (c = 0))

/-- The `operator==` of a zero-terminated string and a value. -/
def operator_eq_c_str_value (x : Ptr Ch) (y : basic_string_literal Ch n) : Result Bool :=
  (y.compare_c_str x).bind fun c => .ok (decide (c = 0))

/-- The `operator<` of a value and a zero-terminated string. -/
def operator_lt_value_c_str (x : basic_string_literal Ch n) (y : Ptr Ch) : Result Bool :=
  (x.compare_c_str y).bind fun c => .ok (decide (c < 0))

/-- The `operator<` of a zero-terminated string and a value. -/
def operator_lt_c_str_value (x : Ptr Ch) (y : basic_string_literal Ch n) : Result Bool :=
  (y.compare_c_str x).bind fun c => .ok (decide (c ≥ 0))

/-- The `operator>` of a value and a zero-terminated string. -/
def operator_gt_value_c_str (x : basic_string_literal Ch n) (y : Ptr Ch) : Result Bool :=
  (x.compare_c_str y).bind fun c => .ok (decide (c > 0))

/-- The `operator>` of a zero-terminated string and a value. -/
def operator_gt_c_str_value (x : Ptr Ch) (y : basic_string_literal Ch n) : Result Bool :=
  (y.compare_c_str x).bind fun c => .ok (decide (c ≤ 0))

/-- The `operator<=` of a value and a zero-terminated string. -/
def operator_le_value_c_str (x : basic_string_literal Ch n) (y : Ptr Ch) : Result Bool :=
  (x.compare_c_str y).bind fun c => .ok (decide (c ≤ 0))

/-- The `operator<=` of a zero-terminated string and a value. -/
def operator_le_c_str_value (x : Ptr Ch) (y : basic_string_literal Ch n) : Result Bool :=
  (y.compare_c_str x).bind fun c => .ok (decide (c > 0))

/-- The `operator>=` of a value and a zero-terminated string. -/
def operator_ge_value_c_str (x : basic_string_literal Ch n) (y : Ptr Ch) : Result Bool :=
  (x.compare_c_str y).bind fun c => .ok (decide (c ≥ 0))

/-- The `operator>=` of a zero-terminated string and a value. -/
def operator_ge_c_str_value (x : Ptr Ch) (y : basic_string_literal Ch n) : Result Bool :=
  (y.compare_c_str x).bind fun c => .ok (decide (c < 0))

end operators

/-! ## Copy and search -/

/-- The call `std::memcpy(dst, src, n)` for a character type of one byte,
where the count of bytes is the count of characters: `n` characters are read
from `src` on and written from `dst` on.  Returns the destination array. -/
def memcpy {Ch : Type} (dst src : Ptr Ch) : Nat → Result (List Ch)
  | 0 => .ok dst.arr
  | n + 1 =>
    match src.deref with
    | some c =>
      if dst.idx < dst.arr.length then memcpy ⟨dst.arr.set dst.idx c, dst.idx + 1⟩ (src.add 1) n
      else .undefined
    | none => .undefined

namespace detail_.constexpr_std_char_traits

/-- The function `constexpr_std_char_traits<Ch>::find(p, n, ch)`; `none` is
the null pointer. -/
def find {Ch : Type} [LinearOrder Ch] (p : Ptr Ch) (ch : Ch) : Nat → Result (Option (Ptr Ch))
  | 0 => .ok none
  | n + 1 =>
    match p.deref with
    | some a => if char_traits_eq a ch then .ok (some p) else find (p.add 1) ch n
    | none => .undefined

end detail_.constexpr_std_char_traits

namespace basic_string_literal

open detail_

variable {Ch : Type} {N : Nat}

/-- Member `copy(s, n, pos)`: its view is `view_("copy", n, pos)`, a call of
`view_(func, pos, n)`.  Returns the destination array and the count. -/
def copy (x : basic_string_literal Ch N) (s : Ptr Ch) (n pos : Nat) : Result (List Ch × Nat) :=
  (x.view_sub n pos).bind fun v =>
  (memcpy s v.data v.size).bind fun buf => .ok (buf, v.size)

variable [LinearOrder Ch]

/-- Member `find(c, pos)`. -/
def find_char (x : basic_string_literal Ch N) (c : Ch) (pos : Nat) : Result Nat :=
  (if pos ≤ x.size then Result.ok npos else x.throw_out_of_range_ pos).bind fun ret =>
    if pos < x.size then
      (constexpr_std_char_traits.find (x.data.add pos) c (x.size - pos)).bind fun p =>
        match p with
        | some q => .ok (q.idx - x.data.idx)
        | none => .ok ret
    else .ok ret

/-- The loop of `find_`: `k` counts the positions `pos, ..., size() - str.size()`
that `pos <= size() - str.size()` still admits. -/
def find_loop (x : basic_string_literal Ch N) (str : string_view Ch) : Nat → Nat → Result Nat
  | _, 0 => .ok npos
  | pos, k + 1 =>
    match x.data_[pos]?, str.s.deref with
    | some a, some b =>
      if char_traits_eq a b then
        match constexpr_std_char_traits.compare (x.data.add (pos + 1)) (str.data.add 1)
            (str.size - 1) with
        | .ok r => if r = 0 then .ok pos else find_loop x str (pos + 1) k
        | .out_of_range => .out_of_range
        | .undefined => .undefined
      else find_loop x str (pos + 1) k
    | _, _ => .undefined

/-- Member `find_(str, pos)`. -/
def find_ (x : basic_string_literal Ch N) (str : string_view Ch) (pos : Nat) : Result Nat :=
  if str.size = 0 then .ok (if pos ≤ x.size then pos else npos)
  else if str.size ≤ x.size then find_loop x str pos (x.size - str.size + 1 - pos)
  else .ok npos

/-- Member `find(str, pos)` for a value. -/
def find {M : Nat} (x : basic_string_literal Ch N) (str : basic_string_literal Ch M)
    (pos : Nat) : Result Nat :=
  x.find_ (view_of str) pos

/-- Member `find(s, pos, n)` for a character array. -/
def find_buf (x : basic_string_literal Ch N) (s : Ptr Ch) (pos n : Nat) : Result Nat :=
  x.find_ ⟨s, n⟩ pos

/-- Member `find(s, pos)` for a zero-terminated string. -/
def find_c_str [Zero Ch] (x : basic_string_literal Ch N) (s : Ptr Ch) (pos : Nat) : Result Nat :=
  (string_view.of_c_str s).bind fun v => x.find_ v pos

/-- The loop `for (++sz; sz-- > 0; )` of `rfind(c, pos)`, by the value of
`sz` before the test. -/
def rfind_char_loop (x : basic_string_literal Ch N) (c : Ch) : Nat → Result Nat
  | 0 => .ok npos
  | sz + 1 =>
    match x.data_[sz]? with
    | some a => if char_traits_eq a c then .ok sz else rfind_char_loop x c sz
    | none => .undefined

/-- Member `rfind(c, pos)`. -/
def rfind_char (x : basic_string_literal Ch N) (c : Ch) (pos : Nat) : Result Nat :=
  if x.size > 0 then
    rfind_char_loop x c ((if x.size - 1 > pos then pos else x.size - 1) + 1)
  else .ok npos

/-- The loop `do ... while (pos-- > 0)` of `rfind_`. -/
def rfind_loop (x : basic_string_literal Ch N) (str : string_view Ch) : Nat → Result Nat
  | 0 =>
    match constexpr_std_char_traits.compare (x.data.add 0) str.data str.size with
    | .ok r => if r = 0 then .ok 0 else .ok npos
    | .out_of_range => .out_of_range
    | .undefined => .undefined
  | pos + 1 =>
    match constexpr_std_char_traits.compare (x.data.add (pos + 1)) str.data str.size with
    | .ok r => if r = 0 then .ok (pos + 1) else rfind_loop x str pos
    | .out_of_range => .out_of_range
    | .undefined => .undefined

/-- Member `rfind_(str, pos)`. -/
def rfind_ (x : basic_string_literal Ch N) (str : string_view Ch) (pos : Nat) : Result Nat :=
  if str.size ≤ x.size then rfind_loop x str (min (x.size - str.size) pos)
  else .ok npos

/-- Member `rfind(str, pos)` for a value. -/
def rfind {M : Nat} (x : basic_string_literal Ch N) (str : basic_string_literal Ch M)
    (pos : Nat) : Result Nat :=
  x.rfind_ (view_of str) pos

/-- Member `rfind(s, pos, n)` for a character array. -/
def rfind_buf (x : basic_string_literal Ch N) (s : Ptr Ch) (pos n : Nat) : Result Nat :=
  x.rfind_ ⟨s, n⟩ pos

/-- Member `rfind(s, pos)` for a zero-terminated string. -/
def rfind_c_str [Zero Ch] (x : basic_string_literal Ch N) (s : Ptr Ch) (pos : Nat) :
    Result Nat :=
  (string_view.of_c_str s).bind fun v => x.rfind_ v pos

/-- The inner loop `for (; p != e; ++p)` of the character-set searches:
whether one of the `n` characters from `p` on is equal to `c`. -/
def scan_set (p : Ptr Ch) (c : Ch) : Nat → Result Bool
  | 0 => .ok false
  | n + 1 =>
    match p.deref with
    | some a => if char_traits_eq a c then .ok true else scan_set (p.add 1) c n
    | none => .undefined

/-- The loop `for (; pos < size(); ++pos)` of `find_first_of_`: `k` counts
the positions `pos, ..., size() - 1`. -/
def find_first_of_loop (x : basic_string_literal Ch N) (str : string_view Ch) :
    Nat → Nat → Result Nat
  | _, 0 => .ok npos
  | pos, k + 1 =>
    match x.data_[pos]? with
    | some d =>
      match scan_set str.data d str.size with
      | .ok found => if found then .ok pos else find_first_of_loop x str (pos + 1) k
      | .out_of_range => .out_of_range
      | .undefined => .undefined
    | none => .undefined

/-- Member `find_first_of_(str, pos)`. -/
def find_first_of_ (x : basic_string_literal Ch N) (str : string_view Ch) (pos : Nat) :
    Result Nat :=
  if str.size ≠ 0 then find_first_of_loop x str pos (x.size - pos) else .ok npos

/-- Member `find_first_of(str, pos)` for a value. -/
def find_first_of {M : Nat} (x : basic_string_literal Ch N) (str : basic_string_literal Ch M)
    (pos : Nat) : Result Nat :=
  x.find_first_of_ (view_of str) pos

/-- Member `find_first_of(c, pos)`. -/
def find_first_of_char (x : basic_string_literal Ch N) (c : Ch) (pos : Nat) : Result Nat :=
  x.find_char c pos

/-- Member `find_first_of(s, pos, n)` for a character array. -/
def find_first_of_buf (x : basic_string_literal Ch N) (s : Ptr Ch) (pos n : Nat) : Result Nat :=
  x.find_first_of_ ⟨s, n⟩ pos

/-- Member `find_first_of(s, pos)` for a zero-terminated string. -/
def find_first_of_c_str [Zero Ch] (x : basic_string_literal Ch N) (s : Ptr Ch) (pos : Nat) :
    Result Nat :=
  (string_view.of_c_str s).bind fun v => x.find_first_of_ v pos

end basic_string_literal

/-! ## Backward set search, searches for characters not of a set, observers -/

namespace basic_string_literal

open detail_

variable {Ch : Type} {N : Nat} [LinearOrder Ch]

/-- The loop `do ... while (sz-- != 0)` of `find_last_of_`. -/
def find_last_of_loop (x : basic_string_literal Ch N) (str : string_view Ch) : Nat → Result Nat
  | 0 =>
    match x.data_[0]? with
    | some d =>
      match scan_set str.data d str.size with
      | .ok found => if found then .ok 0 else .ok npos
      | .out_of_range => .out_of_range
      | .undefined => .undefined
    | none => .undefined
  | sz + 1 =>
    match x.data_[sz + 1]? with
    | some d =>
      match scan_set str.data d str.size with
      | .ok found => if found then .ok (sz + 1) else find_last_of_loop x str sz
      | .out_of_range => .out_of_range
      | .undefined => .undefined
    | none => .undefined

/-- Member `find_last_of_(str, pos)`. -/
def find_last_of_ (x : basic_string_literal Ch N) (str : string_view Ch) (pos : Nat) :
    Result Nat :=
  if x.size ≠ 0 ∧ str.size ≠ 0 then
    x.find_last_of_loop str (if x.size - 1 > pos then pos else x.size - 1)
  else .ok npos

/-- Member `find_last_of(str, pos)` for a value. -/
def find_last_of {M : Nat} (x : basic_string_literal Ch N) (str : basic_string_literal Ch M)
    (pos : Nat) : Result Nat :=
  x.find_last_of_ (view_of str) pos

/-- Member `find_last_of(c, pos)`. -/
def find_last_of_char (x : basic_string_literal Ch N) (c : Ch) (pos : Nat) : Result Nat :=
  x.rfind_char c pos

/-- Member `find_last_of(s, pos, n)` for a character array. -/
def find_last_of_buf (x : basic_string_literal Ch N) (s : Ptr Ch) (pos n : Nat) : Result Nat :=
  x.find_last_of_ ⟨s, n⟩ pos

/-- Member `find_last_of(s, pos)` for a zero-terminated string. -/
def find_last_of_c_str [Zero Ch] (x : basic_string_literal Ch N) (s : Ptr Ch) (pos : Nat) :
    Result Nat :=
  (string_view.of_c_str s).bind fun v => x.find_last_of_ v pos

/-- The loop `for (; pos < size(); ++pos)` of `find_first_not_of(c, pos)`:
`k` counts the positions `pos, ..., size() - 1`. -/
def find_first_not_of_char_loop (x : basic_string_literal Ch N) (c : Ch) :
    Nat → Nat → Result Nat
  | _, 0 => .ok npos
  | pos, k + 1 =>
    match x.data_[pos]? with
    | some d => if !char_traits_eq c d then .ok pos else find_first_not_of_char_loop x c (pos + 1) k
    | none => .undefined

/-- Member `find_first_not_of(c, pos)`. -/
def find_first_not_of_char (x : basic_string_literal Ch N) (c : Ch) (pos : Nat) : Result Nat :=
  x.find_first_not_of_char_loop c pos (x.size - pos)

/-- The loop `for (; pos < size(); ++pos)` of `find_first_not_of_`; the
inner loop stops at the first character of the set equal to `data_[pos]`,
and `p == e` is its finding none. -/
def find_first_not_of_loop (x : basic_string_literal Ch N) (str : string_view Ch) :
    Nat → Nat → Result Nat
  | _, 0 => .ok npos
  | pos, k + 1 =>
    match x.data_[pos]? with
    | some d =>
      match scan_set str.data d str.size with
      | .ok found => if !found then .ok pos else find_first_not_of_loop x str (pos + 1) k
      | .out_of_range => .out_of_range
      | .undefined => .undefined
    | none => .undefined

/-- Member `find_first_not_of_(str, pos)`. -/
def find_first_not_of_ (x : basic_string_literal Ch N) (str : string_view Ch) (pos : Nat) :
    Result Nat :=
  x.find_first_not_of_loop str pos (x.size - pos)

/-- Member `find_first_not_of(str, pos)` for a value. -/
def find_first_not_of {M : Nat} (x : basic_string_literal Ch N)
    (str : basic_string_literal Ch M) (pos : Nat) : Result Nat :=
  x.find_first_not_of_ (view_of str) pos

/-- Member `find_first_not_of(s, pos, n)` for a character array. -/
def find_first_not_of_buf (x : basic_string_literal Ch N) (s : Ptr Ch) (pos n : Nat) :
    Result Nat :=
  x.find_first_not_of_ ⟨s, n⟩ pos

/-- Member `find_first_not_of(s, pos)` for a zero-terminated string. -/
def find_first_not_of_c_str [Zero Ch] (x : basic_string_literal Ch N) (s : Ptr Ch)
    (pos : Nat) : Result Nat :=
  (string_view.of_c_str s).bind fun v => x.find_first_not_of_ v pos

/-- The loop `do ... while (sz--)` of `find_last_not_of(c, pos)`. -/
def find_last_not_of_char_loop (x : basic_string_literal Ch N) (c : Ch) : Nat → Result Nat
  | 0 =>
    match x.data_[0]? with
    | some d => if !char_traits_eq c d then .ok 0 else .ok npos
    | none => .undefined
  | sz + 1 =>
    match x.data_[sz + 1]? with
    | some d => if !char_traits_eq c d then .ok (sz + 1) else find_last_not_of_char_loop x c sz
    | none => .undefined

/-- Member `find_last_not_of(c, pos)`. -/
def find_last_not_of_char (x : basic_string_literal Ch N) (c : Ch) (pos : Nat) : Result Nat :=
  if x.size ≠ 0 then
    x.find_last_not_of_char_loop c (if x.size - 1 > pos then pos else x.size - 1)
  else .ok npos

/-- The loop `do ... while (sz--)` of `find_last_not_of_`. -/
def find_last_not_of_loop (x : basic_string_literal Ch N) (str : string_view Ch) :
    Nat → Result Nat
  | 0 =>
    match x.data_[0]? with
    | some d =>
      match scan_set str.data d str.size with
      | .ok found => if !found then .ok 0 else .ok npos
      | .out_of_range => .out_of_range
      | .undefined => .undefined
    | none => .undefined
  | sz + 1 =>
    match x.data_[sz + 1]? with
    | some d =>
      match scan_set str.data d str.size with
      | .ok found => if !found then .ok (sz + 1) else find_last_not_of_loop x str sz
      | .out_of_range => .out_of_range
      | .undefined => .undefined
    | none => .undefined

/-- Member `find_last_not_of_(str, pos)`. -/
def find_last_not_of_ (x : basic_string_literal Ch N) (str : string_view Ch) (pos : Nat) :
    Result Nat :=
  if x.size ≠ 0 then
    x.find_last_not_of_loop str (if x.size - 1 > pos then pos else x.size - 1)
  else .ok npos

/-- Member `find_last_not_of(str, pos)` for a value. -/
def find_last_not_of {M : Nat} (x : basic_string_literal Ch N)
    (str : basic_string_literal Ch M) (pos : Nat) : Result Nat :=
  x.find_last_not_of_ (view_of str) pos

/-- Member `find_last_not_of(s, pos, n)` for a character array. -/
def find_last_not_of_buf (x : basic_string_literal Ch N) (s : Ptr Ch) (pos n : Nat) :
    Result Nat :=
  x.find_last_not_of_ ⟨s, n⟩ pos

/-- Member `find_last_not_of(s, pos)` for a zero-terminated string. -/
def find_last_not_of_c_str [Zero Ch] (x : basic_string_literal Ch N) (s : Ptr Ch)
    (pos : Nat) : Result Nat :=
  (string_view.of_c_str s).bind fun v => x.find_last_not_of_ v pos

omit [LinearOrder Ch]

/-- Member `front()`: `*data_`. -/
def front (x : basic_string_literal Ch N) : Result Ch := x.index 0

/-- Member `back()`: `data_[size()-1]`, the subtraction made on
`std::size_t`. -/
def back (x : basic_string_literal Ch N) : Result Ch := x.index (size_sub x.size 1)

end basic_string_literal

/-- The constructor `std::basic_string(s, n)` of the standard library, by
its contract: the string of the `n` characters from `s` on. -/
def basic_string_ctor {Ch : Type} (s : Ptr Ch) (n : Nat) : Result (List Ch) :=
  if s.idx + n ≤ s.arr.length then .ok (s.mem.take n) else .undefined

/-- Member `to_string()`. -/
def basic_string_literal.to_string {Ch : Type} {N : Nat} (x : basic_string_literal Ch N) :
    Result (List Ch) :=
  basic_string_ctor x.data x.size

/-! ## Conversion of an integer -/

namespace detail_

/-- The loop `do { ++n; } while (val /= T(10))` of `digits10_for`; a value
of a 64-bit type leaves it within 20 rounds, which `fuel` bounds. -/
def digits10_loop : Nat → Int → Nat → Nat
  | 0, _, n => n
  | fuel + 1, val, n =>
    if val.tdiv 10 ≠ 0 then digits10_loop fuel (val.tdiv 10) (n + 1) else n + 1

/-- The function `detail_::digits10_for(val)` for an integer type `T`. -/
def digits10_for (val : Int) : Nat :=
  digits10_loop 20 val (if val < 0 then 1 else 0)

end detail_

/-- The loop `do { *--p = char(val % 10 + '0'); } while (val /= T(10))` of
`to_basic_string_literal` on the buffer `buf`, for characters given by their
codes; `fuel` bounds the rounds as in `digits10_loop`. -/
def write_digits : Nat → Int → List Nat → Nat → Result (List Nat)
  | 0, _, buf, _ => .ok buf
  | fuel + 1, val, buf, p =>
    if 0 < p ∧ p - 1 < buf.length then
      if val.tdiv 10 ≠ 0 then
        write_digits fuel (val.tdiv 10) (buf.set (p - 1) (val.tmod 10 + 48).toNat) (p - 1)
      else .ok (buf.set (p - 1) (val.tmod 10 + 48).toNat)
    else .undefined

/-- The statement `if (val < 0) { buf[0] = '-'; *--p = char(-(val % 10) + '0');
val = -(val / T(10)); }` of `to_basic_string_literal`: the buffer, `p` and
`val` after it. -/
def write_sign (val : Int) (buf : List Nat) (p : Nat) : Result (List Nat × Nat × Int) :=
  if val < 0 then
    if 0 < buf.length ∧ 0 < p ∧ p - 1 < buf.length then
      .ok ((buf.set 0 45).set (p - 1) (-(val.tmod 10) + 48).toNat, p - 1, -(val.tdiv 10))
    else .undefined
  else .ok (buf, p, val)

/-- The function `to_basic_string_literal<Ch, T, val_>()` for `Ch = char`,
the characters given by their codes. -/
def to_basic_string_literal (val_ : Int) :
    Result (basic_string_literal Nat (detail_.digits10_for val_)) :=
  (write_sign val_ (List.replicate (detail_.digits10_for val_) 0)
      (detail_.digits10_for val_)).bind fun st =>
  (write_digits 20 st.2.2 st.1 st.2.1).bind fun buf =>
    detail_.core_access.mk_lit (detail_.digits10_for val_) ⟨buf, 0⟩ (detail_.digits10_for val_)

/-- The function `to_string_literal_i<val>()`, `val` a `long long`. -/
def to_string_literal_i (val : Int) :
    Result (basic_string_literal Nat (detail_.digits10_for val)) :=
  to_basic_string_literal val

/-- The function `to_string_literal_u<val>()`, `val` an `unsigned long long`. -/
def to_string_literal_u (val : Int) :
    Result (basic_string_literal Nat (detail_.digits10_for val)) :=
  to_basic_string_literal val

/-! ## Hashes: Fowler–Noll–Vo, and the identifier of a string -/

/-- Width of `int` and of `unsigned int`, in bits. -/
def INT_BITS : Nat := 32

/-- The conversion `T(v)` of an integer `v` to an unsigned type `T` of `w`
bits. -/
def to_unsigned (w : Nat) (v : Int) : Nat := (v % (2 : Int) ^ w).toNat

/-- The assignment `h *= prime` for an unsigned type `T` of `w` bits.  A `T`
narrower than `int` is promoted to `int`, and a product that `int` cannot
hold is undefined behaviour. -/
def mul_assign (w h prime : Nat) : Result Nat :=
  if w < INT_BITS ∧ INT_MAX < ((h * prime : Nat) : Int) then .undefined
  else .ok (h * prime % 2 ^ w)

/-- The loop of `fnv1_fn<T, offset_basis, prime>::operator()(first, senti)`
for an unsigned `T` of `w` bits over a range of pointers: `n` counts the
elements from `first` up to `senti`, `code` is the integer value of an
element, and `h` the hash so far. -/
def fnv1_loop {Ch : Type} (w prime : Nat) (code : Ch → Int) : Ptr Ch → Nat → Nat → Result Nat
  | _, h, 0 => .ok h
  | first, h, n + 1 =>
    match mul_assign w h prime with
    | .ok m =>
      match first.deref with
      | some e => fnv1_loop w prime code (first.add 1) (m ^^^ to_unsigned w (code e)) n
      | none => .undefined
    | .out_of_range => .out_of_range
    | .undefined => .undefined

/-- The function `fnv1_fn<T, offset_basis, prime>::operator()(first, senti)`. -/
def fnv1_fn {Ch : Type} (w offset_basis prime : Nat) (code : Ch → Int) (first : Ptr Ch)
    (n : Nat) : Result Nat :=
  fnv1_loop w prime code first offset_basis n

/-- The loop of `fnv1a_fn<T, offset_basis, prime>::operator()(first, senti)`,
with the conventions of `fnv1_loop`. -/
def fnv1a_loop {Ch : Type} (w prime : Nat) (code : Ch → Int) : Ptr Ch → Nat → Nat → Result Nat
  | _, h, 0 => .ok h
  | first, h, n + 1 =>
    match first.deref with
    | some e =>
      match mul_assign w (h ^^^ to_unsigned w (code e)) prime with
      | .ok m => fnv1a_loop w prime code (first.add 1) m n
      | .out_of_range => .out_of_range
      | .undefined => .undefined
    | none => .undefined

/-- The function `fnv1a_fn<T, offset_basis, prime>::operator()(first, senti)`. -/
def fnv1a_fn {Ch : Type} (w offset_basis prime : Nat) (code : Ch → Int) (first : Ptr Ch)
    (n : Nat) : Result Nat :=
  fnv1a_loop w prime code first offset_basis n

/-- The function `fnv_xor_folding_fn<FNV, Bits, T>::operator()(first, senti)`:
`FNV` is the hash function folded and `W` the width in bits of its result
type; `T` is `none` for `void`, where the type `R` of the result is the one of
`FNV`, and the width of `T` otherwise.  The shift `1u << Bits` is made on
`unsigned int`, and the value returned is converted to `std::size_t`. -/
def fnv_xor_folding_fn {Ch : Type} (FNV : Ptr Ch → Nat → Result Nat) (W Bits : Nat)
    (T : Option Nat) (first : Ptr Ch) (n : Nat) : Result Nat :=
  (FNV first n).bind fun h =>
    if Bits < INT_BITS then
      .ok (((h >>> Bits) ^^^ (h &&& ((1 <<< Bits) % 2 ^ INT_BITS - 1))) % 2 ^ (T.getD W) % SIZE_MOD)
    else .undefined

/-- The constant `fnv_32_offset_basis`. -/
def fnv_32_offset_basis : Nat := 0x811c9dc5

/-- The constant `fnv_32_prime`. -/
def fnv_32_prime : Nat := 0x1000193

/-- The constant `fnv_64_offset_basis`. -/
def fnv_64_offset_basis : Nat := 0xcbf29ce484222325

/-- The constant `fnv_64_prime`. -/
def fnv_64_prime : Nat := 0x100000001b3

/-- Value of `sizeof(std::size_t)`. -/
def SIZEOF_SIZE_T : Nat := 8

/-- The type `fnv1_32_fn`. -/
def fnv1_32_fn {Ch : Type} (code : Ch → Int) (first : Ptr Ch) (n : Nat) : Result Nat :=
  fnv1_fn 32 fnv_32_offset_basis fnv_32_prime code first n

/-- The type `fnv1_64_fn`. -/
def fnv1_64_fn {Ch : Type} (code : Ch → Int) (first : Ptr Ch) (n : Nat) : Result Nat :=
  fnv1_fn 64 fnv_64_offset_basis fnv_64_prime code first n

/-- The type `fnv1a_32_fn`. -/
def fnv1a_32_fn {Ch : Type} (code : Ch → Int) (first : Ptr Ch) (n : Nat) : Result Nat :=
  fnv1a_fn 32 fnv_32_offset_basis fnv_32_prime code first n

/-- The type `fnv1a_64_fn`. -/
def fnv1a_64_fn {Ch : Type} (code : Ch → Int) (first : Ptr Ch) (n : Nat) : Result Nat :=
  fnv1a_fn 64 fnv_64_offset_basis fnv_64_prime code first n

/-- The type `fnv1_hash_fn`: `fnv1_fn` on `std::size_t`, with the constants
its size selects. -/
def fnv1_hash_fn {Ch : Type} (code : Ch → Int) (first : Ptr Ch) (n : Nat) : Result Nat :=
  fnv1_fn (8 * SIZEOF_SIZE_T)
    (if SIZEOF_SIZE_T > 4 then fnv_64_offset_basis else fnv_32_offset_basis)
    (if SIZEOF_SIZE_T > 4 then fnv_64_prime else fnv_32_prime) code first n

/-- The type `fnv1a_hash_fn`: `fnv1a_fn` on `std::size_t`, with the constants
its size selects. -/
def fnv1a_hash_fn {Ch : Type} (code : Ch → Int) (first : Ptr Ch) (n : Nat) : Result Nat :=
  fnv1a_fn (8 * SIZEOF_SIZE_T)
    (if SIZEOF_SIZE_T > 4 then fnv_64_offset_basis else fnv_32_offset_basis)
    (if SIZEOF_SIZE_T > 4 then fnv_64_prime else fnv_32_prime) code first n

/-- The function `string_id(s, n)` for a character array. -/
def string_id_buf {Ch : Type} (code : Ch → Int) (s : Ptr Ch) (n : Nat) : Result Nat :=
  fnv1a_hash_fn code s n

/-- The function `string_id(str)` for a fixed string value: the hash of the
range from `str.data()` to `str.data() + str.size()`. -/
def string_id {Ch : Type} {N : Nat} (code : Ch → Int) (str : basic_string_literal Ch N) :
    Result Nat :=
  fnv1a_hash_fn code str.data str.size

/-! ## Output streams -/

/-- A `std::basic_ostream<CharT, Traits>` together with its stream buffer, by
the state the output functions use: the characters the buffer has accepted
(what `str()` returns for a string stream), the count of characters it still
accepts (`none` when it has no limit), `width()`, `fill()`, whether
`flags() & ios_base::left` is set, and the three state bits.  No stream is
tied, `unitbuf` is not set and `exceptions()` is `goodbit`. -/
structure basic_ostream (Ch : Type) where
  str : List Ch
  room : Option Nat
  width : Int
  fill : Ch
  left : Bool
  eofbit : Bool
  badbit : Bool
  failbit : Bool
deriving DecidableEq

namespace basic_ostream

variable {Ch : Type}

/-- Member `good()`. -/
def good (out : basic_ostream Ch) : Bool := !out.eofbit && !out.badbit && !out.failbit

/-- The call `setstate(ios_base::failbit)`. -/
def setstate_failbit (out : basic_ostream Ch) : basic_ostream Ch := { out with failbit := true }

/-- The call `setstate(ios_base::badbit)`. -/
def setstate_badbit (out : basic_ostream Ch) : basic_ostream Ch := { out with badbit := true }

/-- The call `width(0)`. -/
def width_zero (out : basic_ostream Ch) : basic_ostream Ch := { out with width := 0 }

/-- The constructor of `sentry` and its conversion to `bool`, by the
contract of the standard library: the sentry is true exactly when the stream
is good, and a stream that is not good gets `failbit`. -/
def sentry (out : basic_ostream Ch) : basic_ostream Ch × Bool :=
  if out.good then (out, true) else (out.setstate_failbit, false)

/-- The call `rdbuf()->sputc(c)`, by its contract: the buffer takes the
character unless it is full; the boolean is whether the value returned is
not `eof()`. -/
def sputc (out : basic_ostream Ch) (c : Ch) : basic_ostream Ch × Bool :=
  match out.room with
  | none => ({ out with str := out.str ++ [c] }, true)
  | some 0 => (out, false)
  | some (k + 1) => ({ out with str := out.str ++ [c], room := some k }, true)

/-- The call `rdbuf()->sputn(s, n)`, by its contract: the buffer takes the
characters of the range in order until it is full, and the count taken is
returned; a negative `n` takes none. -/
def sputn (out : basic_ostream Ch) (s : Ptr Ch) (n : Int) : Result (basic_ostream Ch × Int) :=
  if s.idx + n.toNat ≤ s.arr.length then
    match out.room with
    | none => .ok ({ out with str := out.str ++ s.mem.take n.toNat }, (n.toNat : Int))
    | some k =>
      .ok ({ out with str := out.str ++ s.mem.take (min n.toNat k),
                      room := some (k - min n.toNat k) }, (min n.toNat k : Nat))
  else .undefined

end basic_ostream

namespace iostreams

variable {Ch : Type}

/-- The function `detail_::ostream_fill(buf, n, fill)`: the loop
`for (i = 0; i < n; ++i)`, by the count of its rounds. -/
def detail_.ostream_fill (out : basic_ostream Ch) (fill : Ch) : Nat → basic_ostream Ch × Bool
  | 0 => (out, true)
  | n + 1 =>
    match out.sputc fill with
    | (out1, true) => detail_.ostream_fill out1 fill n
    | (out1, false) => (out1, false)

/-- The function `ostream_fill(out, n, fill)`. -/
def ostream_fill (out : basic_ostream Ch) (n : Int) (fill : Ch) : basic_ostream Ch :=
  match out.sentry with
  | (out1, true) =>
    match detail_.ostream_fill out1 fill n.toNat with
    | (out2, true) => out2
    | (out2, false) => out2.setstate_failbit
  | (out1, false) => out1

/-- The function `ostream_write(out, s, n)`. -/
def ostream_write (out : basic_ostream Ch) (s : Ptr Ch) (n : Int) :
    Result (basic_ostream Ch) :=
  match out.sentry with
  | (out1, true) =>
    (out1.sputn s n).bind fun r =>
      if r.2 ≠ n then .ok r.1.setstate_badbit else .ok r.1
  | (out1, false) => .ok out1

/-- The inserter `out << std::basic_string_view(s, n)` of the standard
library, by its contract: a formatted output function that inserts the
characters padded to `width()` by `fill()`, the padding after the characters
when `flags() & adjustfield` is `left` and before them otherwise, calls
`width(0)`, and sets `failbit` when the insertion fails. -/
def insert_string_view (out : basic_ostream Ch) (s : Ptr Ch) (n : Nat) :
    Result (basic_ostream Ch) :=
  match out.sentry with
  | (out1, true) =>
    if s.idx + n ≤ s.arr.length then
      let pad := List.replicate (out1.width - n).toNat out1.fill
      let seq := if out1.left then s.mem.take n ++ pad else pad ++ s.mem.take n
      (out1.sputn ⟨seq, 0⟩ seq.length).bind fun r =>
        if r.2 ≠ seq.length then .ok r.1.width_zero.setstate_failbit else .ok r.1.width_zero
    else .undefined
  | (out1, false) => .ok out1

/-- The function `ostream_insert(out, s, n)`.  The macro
`FALCON_STD_STRING_VIEW` comes from a header that is not part of the sources
at hand; `std_string_view` tells whether it is defined. -/
def ostream_insert (std_string_view : Bool) (out : basic_ostream Ch) (s : Ptr Ch) (n : Nat) :
    Result (basic_ostream Ch) :=
  if std_string_view then insert_string_view out s n
  else
    match out.sentry with
    | (out1, true) =>
      let w := out1.width
      let n_ := to_difference_type n
      (if w > n_ then
        let st1 := if !out1.left then detail_.ostream_fill out1 out1.fill (w - n_).toNat
          else (out1, true)
        (if st1.2 then (st1.1.sputn s n_).bind fun r => .ok (r.1, decide (r.2 = n_))
          else .ok st1).bind fun st2 =>
            .ok (if out1.left && st2.2 then detail_.ostream_fill st2.1 out1.fill (w - n_).toNat
              else st2)
      else (out1.sputn s n_).bind fun r => .ok (r.1, decide (r.2 = n_))).bind fun st =>
        .ok (if !st.2 then st.1.width_zero.setstate_failbit else st.1.width_zero)
    | (out1, false) => .ok out1

end iostreams

/-- The function `ostream_write(out, str)` for a fixed string value. -/
def ostream_write {Ch : Type} {N : Nat} (out : basic_ostream Ch)
    (str : basic_string_literal Ch N) : Result (basic_ostream Ch) :=
  iostreams.ostream_write out str.data str.size

/-- The function `ostream_insert(out, str)` for a fixed string value. -/
def ostream_insert {Ch : Type} {N : Nat} (std_string_view : Bool) (out : basic_ostream Ch)
    (str : basic_string_literal Ch N) : Result (basic_ostream Ch) :=
  iostreams.ostream_insert std_string_view out str.data str.size

/-- The `operator<<` of a stream and a fixed string value. -/
def operator_shl {Ch : Type} {N : Nat} (std_string_view : Bool) (out : basic_ostream Ch)
    (str : basic_string_literal Ch N) : Result (basic_ostream Ch) :=
  ostream_insert std_string_view out str

/-! ## The searches with their reads recorded

The searches once more, each returning with its value the list of the
elements it has read, the latest first: the control flow is the one of the
definitions above, and every read of an element adds its index to the list. -/

/-- A read of an element: `hay i` is `data_[i]` of the value searched,
`needle j` the element of index `j` of the array the needle lies in. -/
inductive Access where
  | hay (i : Nat) : Access
  | needle (j : Nat) : Access
deriving DecidableEq, Repr

namespace traced

open detail_

variable {Ch : Type} {N : Nat} [LinearOrder Ch]

/-- The function `constexpr_std_char_traits<Ch>::compare(s1, s2, n)` as the
searches call it, `s1` pointing into the value and `s2` into the needle. -/
def compare (s1 s2 : Ptr Ch) : Nat → List Access → Result (Int × List Access)
  | 0, log => .ok (0, log)
  | n + 1, log =>
    match s1.deref, s2.deref with
    | some a, some b =>
      if char_traits_eq a b then
        compare (s1.add 1) (s2.add 1) n (.needle s2.idx :: .hay s1.idx :: log)
      else .ok (if char_traits_lt a b then -1 else 1, .needle s2.idx :: .hay s1.idx :: log)
    | _, _ => .undefined

/-- The function `constexpr_std_char_traits<Ch>::find(p, n, ch)` as
`find(c, pos)` calls it, `p` pointing into the value. -/
def traits_find (p : Ptr Ch) (ch : Ch) : Nat → List Access → Result (Option (Ptr Ch) × List Access)
  | 0, log => .ok (none, log)
  | n + 1, log =>
    match p.deref with
    | some a =>
      if char_traits_eq a ch then .ok (some p, .hay p.idx :: log)
      else traits_find (p.add 1) ch n (.hay p.idx :: log)
    | none => .undefined

/-- The inner loop `for (; p != e; ++p)` of the character-set searches, `p`
pointing into the set. -/
def scan_set (p : Ptr Ch) (c : Ch) : Nat → List Access → Result (Bool × List Access)
  | 0, log => .ok (false, log)
  | n + 1, log =>
    match p.deref with
    | some a =>
      if char_traits_eq a c then .ok (true, .needle p.idx :: log)
      else scan_set (p.add 1) c n (.needle p.idx :: log)
    | none => .undefined

/-- Member `find(c, pos)`. -/
def find_char (x : basic_string_literal Ch N) (c : Ch) (pos : Nat) : Result (Nat × List Access) :=
  (if pos ≤ x.size then Result.ok npos else x.throw_out_of_range_ pos).bind fun ret =>
    if pos < x.size then
      (traits_find (x.data.add pos) c (x.size - pos) []).bind fun p =>
        match p.1 with
        | some q => .ok (q.idx - x.data.idx, p.2)
        | none => .ok (ret, p.2)
    else .ok (ret, [])

/-- The loop of `find_`. -/
def find_loop (x : basic_string_literal Ch N) (str : string_view Ch) :
    Nat → Nat → List Access → Result (Nat × List Access)
  | _, 0, log => .ok (npos, log)
  | pos, k + 1, log =>
    match x.data_[pos]?, str.s.deref with
    | some a, some b =>
      if char_traits_eq a b then
        match compare (x.data.add (pos + 1)) (str.data.add 1) (str.size - 1)
            (.needle str.s.idx :: .hay pos :: log) with
        | .ok r => if r.1 = 0 then .ok (pos, r.2) else find_loop x str (pos + 1) k r.2
        | .out_of_range => .out_of_range
        | .undefined => .undefined
      else find_loop x str (pos + 1) k (.needle str.s.idx :: .hay pos :: log)
    | _, _ => .undefined

/-- Member `find_(str, pos)`. -/
def find_ (x : basic_string_literal Ch N) (str : string_view Ch) (pos : Nat) :
    Result (Nat × List Access) :=
  if str.size = 0 then .ok (if pos ≤ x.size then pos else npos, [])
  else if str.size ≤ x.size then find_loop x str pos (x.size - str.size + 1 - pos) []
  else .ok (npos, [])

/-- The loop of `rfind(c, pos)`. -/
def rfind_char_loop (x : basic_string_literal Ch N) (c : Ch) :
    Nat → List Access → Result (Nat × List Access)
  | 0, log => .ok (npos, log)
  | sz + 1, log =>
    match x.data_[sz]? with
    | some a =>
      if char_traits_eq a c then .ok (sz, .hay sz :: log)
      else rfind_char_loop x c sz (.hay sz :: log)
    | none => .undefined

/-- Member `rfind(c, pos)`. -/
def rfind_char (x : basic_string_literal Ch N) (c : Ch) (pos : Nat) :
    Result (Nat × List Access) :=
  if x.size > 0 then
    rfind_char_loop x c ((if x.size - 1 > pos then pos else x.size - 1) + 1) []
  else .ok (npos, [])

/-- The loop of `rfind_`. -/
def rfind_loop (x : basic_string_literal Ch N) (str : string_view Ch) :
    Nat → List Access → Result (Nat × List Access)
  | 0, log =>
    match compare (x.data.add 0) str.data str.size log with
    | .ok r => if r.1 = 0 then .ok (0, r.2) else .ok (npos, r.2)
    | .out_of_range => .out_of_range
    | .undefined => .undefined
  | pos + 1, log =>
    match compare (x.data.add (pos + 1)) str.data str.size log with
    | .ok r => if r.1 = 0 then .ok (pos + 1, r.2) else rfind_loop x str pos r.2
    | .out_of_range => .out_of_range
    | .undefined => .undefined

/-- Member `rfind_(str, pos)`. -/
def rfind_ (x : basic_string_literal Ch N) (str : string_view Ch) (pos : Nat) :
    Result (Nat × List Access) :=
  if str.size ≤ x.size then rfind_loop x str (min (x.size - str.size) pos) []
  else .ok (npos, [])

/-- The loop of `find_first_of_`. -/
def find_first_of_loop (x : basic_string_literal Ch N) (str : string_view Ch) :
    Nat → Nat → List Access → Result (Nat × List Access)
  | _, 0, log => .ok (npos, log)
  | pos, k + 1, log =>
    match x.data_[pos]? with
    | some d =>
      match scan_set str.data d str.size (.hay pos :: log) with
      | .ok r => if r.1 then .ok (pos, r.2) else find_first_of_loop x str (pos + 1) k r.2
      | .out_of_range => .out_of_range
      | .undefined => .undefined
    | none => .undefined

/-- Member `find_first_of_(str, pos)`. -/
def find_first_of_ (x : basic_string_literal Ch N) (str : string_view Ch) (pos : Nat) :
    Result (Nat × List Access) :=
  if str.size ≠ 0 then find_first_of_loop x str pos (x.size - pos) [] else .ok (npos, [])

/-- The loop of `find_last_of_`. -/
def find_last_of_loop (x : basic_string_literal Ch N) (str : string_view Ch) :
    Nat → List Access → Result (Nat × List Access)
  | 0, log =>
    match x.data_[0]? with
    | some d =>
      match scan_set str.data d str.size (.hay 0 :: log) with
      | .ok r => if r.1 then .ok (0, r.2) else .ok (npos, r.2)
      | .out_of_range => .out_of_range
      | .undefined => .undefined
    | none => .undefined
  | sz + 1, log =>
    match x.data_[sz + 1]? with
    | some d =>
      match scan_set str.data d str.size (.hay (sz + 1) :: log) with
      | .ok r => if r.1 then .ok (sz + 1, r.2) else find_last_of_loop x str sz r.2
      | .out_of_range => .out_of_range
      | .undefined => .undefined
    | none => .undefined

/-- Member `find_last_of_(str, pos)`. -/
def find_last_of_ (x : basic_string_literal Ch N) (str : string_view Ch) (pos : Nat) :
    Result (Nat × List Access) :=
  if x.size ≠ 0 ∧ str.size ≠ 0 then
    find_last_of_loop x str (if x.size - 1 > pos then pos else x.size - 1) []
  else .ok (npos, [])

/-- The loop of `find_first_not_of(c, pos)`. -/
def find_first_not_of_char_loop (x : basic_string_literal Ch N) (c : Ch) :
    Nat → Nat → List Access → Result (Nat × List Access)
  | _, 0, log => .ok (npos, log)
  | pos, k + 1, log =>
    match x.data_[pos]? with
    | some d =>
      if !char_traits_eq c d then .ok (pos, .hay pos :: log)
      else find_first_not_of_char_loop x c (pos + 1) k (.hay pos :: log)
    | none => .undefined

/-- Member `find_first_not_of(c, pos)`. -/
def find_first_not_of_char (x : basic_string_literal Ch N) (c : Ch) (pos : Nat) :
    Result (Nat × List Access) :=
  find_first_not_of_char_loop x c pos (x.size - pos) []

/-- The loop of `find_first_not_of_`. -/
def find_first_not_of_loop (x : basic_string_literal Ch N) (str : string_view Ch) :
    Nat → Nat → List Access → Result (Nat × List Access)
  | _, 0, log => .ok (npos, log)
  | pos, k + 1, log =>
    match x.data_[pos]? with
    | some d =>
      match scan_set str.data d str.size (.hay pos :: log) with
      | .ok r => if !r.1 then .ok (pos, r.2) else find_first_not_of_loop x str (pos + 1) k r.2
      | .out_of_range => .out_of_range
      | .undefined => .undefined
    | none => .undefined

/-- Member `find_first_not_of_(str, pos)`. -/
def find_first_not_of_ (x : basic_string_literal Ch N) (str : string_view Ch) (pos : Nat) :
    Result (Nat × List Access) :=
  find_first_not_of_loop x str pos (x.size - pos) []

/-- The loop of `find_last_not_of(c, pos)`. -/
def find_last_not_of_char_loop (x : basic_string_literal Ch N) (c : Ch) :
    Nat → List Access → Result (Nat × List Access)
  | 0, log =>
    match x.data_[0]? with
    | some d => if !char_traits_eq c d then .ok (0, .hay 0 :: log) else .ok (npos, .hay 0 :: log)
    | none => .undefined
  | sz + 1, log =>
    match x.data_[sz + 1]? with
    | some d =>
      if !char_traits_eq c d then .ok (sz + 1, .hay (sz + 1) :: log)
      else find_last_not_of_char_loop x c sz (.hay (sz + 1) :: log)
    | none => .undefined

/-- Member `find_last_not_of(c, pos)`. -/
def find_last_not_of_char (x : basic_string_literal Ch N) (c : Ch) (pos : Nat) :
    Result (Nat × List Access) :=
  if x.size ≠ 0 then
    find_last_not_of_char_loop x c (if x.size - 1 > pos then pos else x.size - 1) []
  else .ok (npos, [])

/-- The loop of `find_last_not_of_`. -/
def find_last_not_of_loop (x : basic_string_literal Ch N) (str : string_view Ch) :
    Nat → List Access → Result (Nat × List Access)
  | 0, log =>
    match x.data_[0]? with
    | some d =>
      match scan_set str.data d str.size (.hay 0 :: log) with
      | .ok r => if !r.1 then .ok (0, r.2) else .ok (npos, r.2)
      | .out_of_range => .out_of_range
      | .undefined => .undefined
    | none => .undefined
  | sz + 1, log =>
    match x.data_[sz + 1]? with
    | some d =>
      match scan_set str.data d str.size (.hay (sz + 1) :: log) with
      | .ok r => if !r.1 then .ok (sz + 1, r.2) else find_last_not_of_loop x str sz r.2
      | .out_of_range => .out_of_range
      | .undefined => .undefined
    | none => .undefined

/-- Member `find_last_not_of_(str, pos)`. -/
def find_last_not_of_ (x : basic_string_literal Ch N) (str : string_view Ch) (pos : Nat) :
    Result (Nat × List Access) :=
  if x.size ≠ 0 then
    find_last_not_of_loop x str (if x.size - 1 > pos then pos else x.size - 1) []
  else .ok (npos, [])

end traced

/-- The value of an operation that records its reads. -/
def Result.value {α β : Type} (r : Result (α × β)) : Result α := r.bind fun p => .ok p.1

/-! ## Reference notions used by the statements -/

/-- Three-way comparison of two lists at their first differing position,
up to the end of the shorter one: `-1`, `0` or `1`. -/
def lex3 {Ch : Type} [LinearOrder Ch] : List Ch → List Ch → Int
  | a :: l1, b :: l2 => if a = b then lex3 l1 l2 else if a < b then -1 else 1
  | _, _ => 0

/-- Clamping of an integer to the range of `int`. -/
def clamp_int (d : Int) : Int := max INT_MIN (min INT_MAX d)

/-- What the comparison algorithm yields for two ranges given by their
characters: the three-way comparison if it is not zero, else the clamped
length difference. -/
def compare_ranges {Ch : Type} [LinearOrder Ch] (l1 l2 : List Ch) : Int :=
  if lex3 l1 l2 = 0 then clamp_int ((l1.length : Int) - l2.length) else lex3 l1 l2

/-- The characters `x[pos .. pos + min(n, size() - pos))` of a value. -/
def basic_string_literal.sub_range {Ch : Type} {N : Nat} (x : basic_string_literal Ch N)
    (pos n : Nat) : List Ch :=
  (x.content.drop pos).take n

/-- The string at `s` is zero-terminated inside of its array object. -/
def Ptr.terminated {Ch : Type} [Zero Ch] (s : Ptr Ch) : Prop := (0 : Ch) ∈ s.mem

/-- The characters of the zero-terminated string at `s`, without the
terminator. -/
def Ptr.c_str_chars {Ch : Type} [Zero Ch] [DecidableEq Ch] (s : Ptr Ch) : List Ch :=
  s.mem.takeWhile fun c => decide (c ≠ 0)

/-- One of the two ranges is a leading part of the other. -/
def one_leads {Ch : Type} (l1 l2 : List Ch) : Prop :=
  (∃ t, l2 = l1 ++ t) ∨ (∃ t, l1 = l2 ++ t)

/-- The terminator slot `data_[N]` holds the zero character. -/
def basic_string_literal.zero_terminated {Ch : Type} [Zero Ch] {N : Nat}
    (x : basic_string_literal Ch N) : Prop :=
  x.data_[N]? = some 0

/-- The index `r` is the smallest index from `lo` on that satisfies `P`, or
`npos` when no index from `lo` on satisfies `P`. -/
def smallest_or_npos (P : Nat → Prop) (lo r : Nat) : Prop :=
  (r = npos ∧ ∀ i, lo ≤ i → ¬ P i) ∨
    (r ≠ npos ∧ lo ≤ r ∧ P r ∧ ∀ i, lo ≤ i → i < r → ¬ P i)

/-- The index `r` is the greatest index up to `hi` that satisfies `P`, or
`npos` when no index up to `hi` satisfies `P`. -/
def greatest_or_npos (P : Nat → Prop) (hi r : Nat) : Prop :=
  (r = npos ∧ ∀ i, i ≤ hi → ¬ P i) ∨
    (r ≠ npos ∧ r ≤ hi ∧ P r ∧ ∀ i, r < i → i ≤ hi → ¬ P i)

/-- The needle `t` occurs in `s` at index `i`: `i + m <= N` and
`s[i .. i+m) == t`. -/
def occurs_at {Ch : Type} (s t : List Ch) (i : Nat) : Prop :=
  i + t.length ≤ s.length ∧ (s.drop i).take t.length = t

instance {Ch : Type} [DecidableEq Ch] (s t : List Ch) (i : Nat) : Decidable (occurs_at s t i) := by
  unfold occurs_at
  infer_instance

/-- The character of `s` at index `i` exists and belongs to the set `t`. -/
def member_at {Ch : Type} (s t : List Ch) (i : Nat) : Prop :=
  ∃ c, s[i]? = some c ∧ c ∈ t

/-- The character of `s` at index `i` exists and does not belong to the
set `t`. -/
def not_member_at {Ch : Type} (s t : List Ch) (i : Nat) : Prop :=
  ∃ c, s[i]? = some c ∧ c ∉ t

/-- The number of decimal digits of `m`, 1 for `m = 0`. -/
def decimal_digits (m : Nat) : Nat :=
  if m = 0 then 1 else (Nat.digits 10 m).length

/-- The invariant of a fixed string value of length `N`: its buffer holds
`N + 1` elements, `size() == N`, and the element at index `N` is the zero
character. -/
def basic_string_literal.invariant {Ch : Type} [Zero Ch] {N : Nat}
    (x : basic_string_literal Ch N) : Prop :=
  x.data_.length = N + 1 ∧ x.size = N ∧ x.index N = .ok 0

/-- The operation returns a value, and the value satisfies the invariant. -/
def returns_with_invariant {Ch : Type} [Zero Ch] {N : Nat}
    (r : Result (basic_string_literal Ch N)) : Prop :=
  ∃ v, r = .ok v ∧ v.invariant

/-- One step of the FNV-1 fold of the documentation on `w` bits: multiply,
then exclusive-or with the element. -/
def fnv1_step (w prime h e : Nat) : Nat := ((h * prime) % 2 ^ w) ^^^ e

/-- One step of the FNV-1a fold of the documentation on `w` bits:
exclusive-or with the element, then multiply. -/
def fnv1a_step (w prime h e : Nat) : Nat := ((h ^^^ e) * prime) % 2 ^ w

/-- The FNV-1 fold of the documentation: `h0 = offset`, then one step for each
element in order. -/
def fnv1_fold (w offset prime : Nat) (es : List Nat) : Nat := es.foldl (fnv1_step w prime) offset

/-- The FNV-1a fold of the documentation: `h0 = offset`, then one step for
each element in order. -/
def fnv1a_fold (w offset prime : Nat) (es : List Nat) : Nat :=
  es.foldl (fnv1a_step w prime) offset

/-- The elements of a range as the hash functions take them: each
converted to the unsigned type of `w` bits. -/
def hash_elements {Ch : Type} (w : Nat) (code : Ch → Int) (l : List Ch) : List Nat :=
  l.map fun c => to_unsigned w (code c)

/-- The stream buffer accepts `m` more characters. -/
def basic_ostream.accepts {Ch : Type} (out : basic_ostream Ch) (m : Nat) : Prop :=
  match out.room with
  | none => True
  | some k => m ≤ k

/-- The stream after its buffer has accepted the characters `l`: they are
appended, and nothing else of the stream changes. -/
def basic_ostream.put {Ch : Type} (out : basic_ostream Ch) (l : List Ch) : basic_ostream Ch :=
  { out with str := out.str ++ l, room := out.room.map fun k => k - l.length }

/-- The read `a` is in bounds for a value of length `N` and a needle that
is the `m` elements from index `lo` on of its array: a read of the value is
at an index below `N`, a read of the needle at an index from `lo` to
`lo + m - 1`. -/
def Access.in_bounds (N lo m : Nat) : Access → Prop
  | .hay i => i < N
  | .needle j => lo ≤ j ∧ j < lo + m

/-- Every read of the list is in bounds. -/
def reads_in_bounds (N lo m : Nat) (log : List Access) : Prop :=
  ∀ a, a ∈ log → a.in_bounds N lo m

/-- The operation returns a value, the same value as the operation `f` that
does not record its reads, and all of its reads are in bounds. -/
def safe_search (N lo m : Nat) (t : Result (Nat × List Access)) (f : Result Nat) : Prop :=
  ∃ r log, t = .ok (r, log) ∧ f = .ok r ∧ reads_in_bounds N lo m log

/-! ## Test values -/

/-- Code units of a narrow string literal with its terminator, as `char[N]`. -/
def chars (s : String) : List Nat := s.toList.map Char.toNat ++ [0]

/-- The value holding the characters `l`, built directly. -/
def of_list {Ch : Type} [Zero Ch] (l : List Ch) : basic_string_literal Ch l.length :=
  ⟨l ++ [0], by simp⟩

/-- The value `lit(s)` of a narrow string literal, built directly. -/
def lit (s : String) : basic_string_literal Nat (s.toList.map Char.toNat).length :=
  of_list (s.toList.map Char.toNat)

/-- The value of `N` characters `c`, built directly. -/
def filled {Ch : Type} [Zero Ch] (N : Nat) (c : Ch) : basic_string_literal Ch N :=
  ⟨List.replicate N c ++ [0], by simp⟩

example : make_string_literal (chars "abcdef") = .ok (lit "abcdef") := by decide
example : (lit "abcdef").compare (lit "abcdef") = .ok 0 := by decide
example : (lit "abcdef").compare (lit "abcdefabc") = .ok (-3) := by decide
example : (lit "abcdef").compare (lit "a") = .ok 5 := by decide
example : (lit "abcdef").compare_sub 1 5 (lit "abcdef") = .ok 1 := by decide
example : (lit "abcdef").compare_sub_sub 0 6 (lit "abcdefabc") 0 9 = .ok (-3) := by decide
example : (lit "abcdef").compare_c_str ⟨chars "abcdefabc", 0⟩ = .ok (-3) := by decide
example : (lit "abcdef").compare_sub_c_str 0 6 ⟨chars "a", 0⟩ = .ok 5 := by decide
example : (lit "abcdef").compare_sub_buf 0 6 ⟨chars "a", 0⟩ 1 = .ok 5 := by decide
example : operator_eq (lit "42") (lit "42\x00") = .ok false := by decide
example : (lit "defabcdef").substr 2 5 (by decide) = .ok (lit "fabcd") := by decide
example : (lit "defabcdef").substr 2 50 (by decide) = .ok (lit "fabcdef") := by decide
example : ((operator_plus (lit "abc") (lit "def")).bind fun s => s.substr 2 50 (by decide))
    = .ok (lit "cdef") := by decide

example : (lit "abcdefabc").find_char 97 0 = .ok 0 := by decide
example : (lit "abcdefabc").find_char 97 1 = .ok 6 := by decide
example : (lit "abcdefabc").find_char 97 7 = .ok npos := by decide
example : (lit "abcdefabc").find_char 120 0 = .ok npos := by decide
example : (lit "abcdefabc").find (lit "abc") 0 = .ok 0 := by decide
example : (lit "abcdefabc").find (lit "abc") 1 = .ok 6 := by decide
example : (lit "abcdefabc").find (lit "abc") 7 = .ok npos := by decide
example : (lit "abcdefabc").find_c_str ⟨chars "abc", 0⟩ 1 = .ok 6 := by decide
example : (lit "abcdefabc").find_buf ⟨chars "ax", 0⟩ 1 1 = .ok 6 := by decide
example : (lit "abcdefabc").find_buf ⟨chars "ax", 0⟩ 7 1 = .ok npos := by decide
example : (lit "abcdefabc").rfind_char 97 npos = .ok 6 := by decide
example : (lit "abcdefabc").rfind_char 97 7 = .ok 6 := by decide
example : (lit "abcdefabc").rfind_char 97 5 = .ok 0 := by decide
example : (lit "abcdefabc").rfind_char 120 npos = .ok npos := by decide
example : (lit "abcdefabc").rfind (lit "abc") npos = .ok 6 := by decide
example : (lit "abcdefabc").rfind (lit "abc") 3 = .ok 0 := by decide
example : (lit "abcdefabc").rfind (lit "abc") 8 = .ok 6 := by decide
example : (lit "abcdefabc").rfind_c_str ⟨chars "abc", 0⟩ 1 = .ok 0 := by decide
example : (lit "abcdefabc").rfind_buf ⟨chars "ax", 0⟩ 7 1 = .ok 6 := by decide
example : (lit "abcdefabc").find_first_of_char 97 0 = .ok 0 := by decide
example : (lit "abcdefabc").find_first_of_c_str ⟨chars "cd", 0⟩ 0 = .ok 2 := by decide
example : (lit "abcdefabc").find_first_of_c_str ⟨chars "xyz", 0⟩ 0 = .ok npos := by decide
example : (lit "abcdefabc").find_first_of_buf ⟨chars "cd", 0⟩ 3 2 = .ok 3 := by decide
example : (lit "abcdef").copy ⟨[0, 0, 0, 0, 0, 0], 0⟩ 4 0 = .ok ([0, 0, 0, 0, 0, 0], 0) := by
  decide
example : (lit "abcdef").copy ⟨[0, 0, 0, 0, 0, 0], 0⟩ 4 1 = .ok ([101, 0, 0, 0, 0, 0], 1) := by
  decide

example : (lit "abcdefabc").find_last_of_char 97 npos = .ok 6 := by decide
example : (lit "abcdefabc").find_last_of_c_str ⟨chars "cd", 0⟩ npos = .ok 8 := by decide
example : (lit "abcdefabc").find_last_of_c_str ⟨chars "xyz", 0⟩ npos = .ok npos := by decide
example : (lit "abcdefabc").find_last_of_buf ⟨chars "cd", 0⟩ 3 2 = .ok 3 := by decide
example : (lit "abcdefabc").find_first_not_of_char 97 0 = .ok 1 := by decide
example : (lit "abcdefabc").find_first_not_of_c_str ⟨chars "cd", 0⟩ 0 = .ok 0 := by decide
example : (lit "abcdefabc").find_first_not_of_c_str ⟨chars "xyz", 0⟩ 0 = .ok 0 := by decide
example : (lit "abcdefabc").find_first_not_of_buf ⟨chars "abcd", 0⟩ 3 4 = .ok 4 := by decide
example : (lit "abcdefabc").find_last_not_of_char 97 npos = .ok 8 := by decide
example : (lit "abcdefabc").find_last_not_of_c_str ⟨chars "cd", 0⟩ npos = .ok 7 := by decide
example : (lit "abcdefabc").find_last_not_of_c_str ⟨chars "xyz", 0⟩ npos = .ok 8 := by decide
example : (lit "abcdefabc").find_last_not_of_c_str ⟨chars "abcd", 0⟩ 7 = .ok 5 := by decide
example : (lit "abcdefabc").find_last_not_of_buf ⟨chars "abcd", 0⟩ 3 4 = .ok npos := by decide
example : (lit "abcdefabc").to_string = .ok (chars "abcdefabc").dropLast := by decide
example : (lit "42\x00").to_string = .ok [52, 50, 0] := by decide
example : to_string_literal_i 42 = .ok (lit "42") := by decide
example : to_string_literal_i (-42) = .ok (lit "-42") := by decide
example : to_string_literal_i 0 = .ok (lit "0") := by decide
example : to_string_literal_i (-10) = .ok (lit "-10") := by decide
example : to_string_literal_i (-9223372036854775808) = .ok (lit "-9223372036854775808") := by
  decide
example : to_string_literal_u 18446744073709551615 = .ok (lit "18446744073709551615") := by
  decide
example : detail_.digits10_for (-9223372036854775808) = 20 := by decide
example : detail_.digits10_for 18446744073709551615 = 20 := by decide
example : (lit "abcdef").front = .ok 97 := by decide
example : (lit "abcdef").back = .ok 102 := by decide
example : (lit "").empty = true := by decide
example : (lit "abcdef").index 6 = .ok 0 := by decide
example : make_string_literal_fill 3 (97 : Nat) = .ok (lit "aaa") := by decide
example : make_string_literal (chars "42\x00") = .ok (lit "42\x00") := by decide
example : (lit "42\x00").size = 3 := by decide
example : (lit "a").size = 1 := by decide
example : (lit "").index 0 = .ok 0 := by decide
example : (lit "abcdefabc").index 9 = .ok 0 := by decide
example : (make_string_literal (chars "abcdef")).bind (fun r => r.index 6) = .ok 0 := by decide
example : (operator_plus (lit "abcdef") (lit "abc")).bind (fun r => r.index 9) = .ok 0 := by
  decide
example : (make_string_literal (chars "")).bind (fun r => r.index 0) = .ok 0 := by decide
example : (to_string_literal_i (-5)).bind (fun r => r.index 2) = .ok 0 := by decide

example : string_id Int.ofNat (lit "abcdef") = .ok 15567776504244095498 := by decide
example : string_id Int.ofNat (lit "abcdefabc") = .ok 16785409650144737470 := by decide
example : string_id Int.ofNat (lit "") = .ok 14695981039346656037 := by decide
example : fnv1a_32_fn Int.ofNat ⟨chars "a", 0⟩ 1 = .ok 0xe40c292c := by decide
example : fnv1_32_fn Int.ofNat ⟨chars "a", 0⟩ 1 = .ok 0x050c5d7e := by decide
example : fnv1_fn 16 1 65535 Int.ofNat ⟨[0, 0], 0⟩ 2 = .undefined := by decide

example : fnv1a_32_fn Int.ofNat ⟨chars "abc", 0⟩ 3 = .ok 0x1a47e90b := by decide
example : fnv_xor_folding_fn (fnv1a_32_fn Int.ofNat) 32 16 none ⟨chars "abc", 0⟩ 3 = .ok 62284 := by
  decide
example : fnv_xor_folding_fn (fnv1a_32_fn Int.ofNat) 32 32 none ⟨chars "abc", 0⟩ 3
    = .undefined := by
  decide

/-- A string stream after `str("")`, with the width, the fill character and
the alignment given. -/
def oss (width : Int) (fill : Nat) (left : Bool) : basic_ostream Nat :=
  ⟨[], none, width, fill, left, false, false, false⟩

example : (operator_shl false (oss 5 42 true) (lit "abc")).bind (fun o => .ok (o.str, o.width))
    = .ok ((chars "abc**").dropLast, 0) := by decide
example : (operator_shl false (oss 5 42 false) (lit "abc")).bind (fun o => .ok (o.str, o.width))
    = .ok ((chars "**abc").dropLast, 0) := by decide
example : (operator_shl false (oss 0 32 false) (lit "abc")).bind (fun o => .ok o.str)
    = .ok (chars "abc").dropLast := by decide
example : (operator_shl true (oss 5 42 true) (lit "abc")).bind (fun o => .ok (o.str, o.width))
    = .ok ((chars "abc**").dropLast, 0) := by decide
example : (operator_shl true (oss 5 42 false) (lit "abc")).bind (fun o => .ok (o.str, o.width))
    = .ok ((chars "**abc").dropLast, 0) := by decide
example : (operator_shl false (oss 0 32 false).setstate_failbit (lit "abc")).bind
    (fun o => .ok o.str) = .ok [] := by decide
example : (operator_shl false { oss 5 42 false with room := some 3 } (lit "abc")).bind
    (fun o => .ok (o.str, o.failbit, o.width)) = .ok ([42, 42, 97], true, 0) := by decide

example : ((operator_plus (lit "abcdef") (lit "abc")).bind fun r =>
    (r.substr 0 6 (by decide)).bind fun s => operator_eq s (lit "abcdef")) = .ok true := by
  decide

example : (lit "abcdefabc").find_buf ⟨chars "ax", 0⟩ 0 1 = (lit "abcdefabc").find_char 97 0 := by
  decide
example : (lit "abcdefabc").find_buf ⟨chars "ax", 0⟩ 7 1 = .ok npos := by decide
example : (lit "abcdefabc").rfind_buf ⟨chars "ax", 0⟩ 7 1 = (lit "abcdefabc").rfind_char 97 7 := by
  decide
example : (lit "").rfind_buf ⟨chars "ax", 0⟩ 7 1 = (lit "").rfind_char 97 7 := by decide

example : traced.find_ (lit "abcdefabc") ⟨⟨chars "abd", 0⟩, 3⟩ 0
    = .ok (npos, [.needle 2, .hay 8, .needle 1, .hay 7, .needle 0, .hay 6, .needle 0, .hay 5,
        .needle 0, .hay 4, .needle 0, .hay 3, .needle 0, .hay 2, .needle 0, .hay 1,
        .needle 2, .hay 2, .needle 1, .hay 1, .needle 0, .hay 0]) := by decide
example : traced.rfind_char (lit "abc") 97 npos = .ok (0, [.hay 0, .hay 1, .hay 2]) := by decide
example : traced.find_last_not_of_ (lit "ab") ⟨⟨chars "ab", 0⟩, 2⟩ npos
    = .ok (npos, [.needle 0, .hay 0, .needle 1, .needle 0, .hay 1]) := by decide

example : (operator_plus (lit "") (lit "abc")).bind (fun r => r.index 3) = .ok 0 := by decide
example : (operator_plus_value_char (lit "") 97).bind (fun r => r.index 1) = .ok 0 := by decide
example : (lit "a").compare_sub_sub 0 1 (lit "xxxa") 3 1 = .out_of_range := by decide
example : (lit "abcdefabc").find_first_of_buf ⟨[99, 100], 0⟩ 0 2 = .ok 2 := by decide
example : (lit "42\x00").compare_sub_buf 0 3 (lit "42\x00").data 3 = .ok 0 := by decide
example : (lit "42\x00").compare_c_str (lit "42\x00").data = .ok 1 := by decide

/-! ## Construction: copies into the buffer -/

section construction

variable {Ch : Type} {N : Nat}

theorem Result.bind_ok {α β : Type} (a : α) (f : α → Result β) :
    (Result.ok a).bind f = f a := rfl

theorem Ptr.deref_of_lt (p : Ptr Ch) (h : p.idx < p.arr.length) :
    p.deref = some (p.arr.get ⟨p.idx, h⟩) := by
  simp [Ptr.deref, List.getElem?_eq_getElem h]

/-- What `acpy` writes: the `n` elements read from `arr` land at `p`, the
other elements of the buffer are kept, and the pointer returned is `p + n`. -/
theorem detail_.acpy_spec (n : Nat) : ∀ (x : basic_string_literal Ch N) (p : Nat) (arr : Ptr Ch),
    arr.idx + n ≤ arr.arr.length → p + n ≤ N + 1 →
    ∃ r, detail_.acpy x p arr n = .ok (r, p + n) ∧
      ∀ i, r.data_[i]? =
        if p ≤ i ∧ i < p + n then arr.arr[arr.idx + (i - p)]? else x.data_[i]? := by
  induction n with
  | zero =>
    intro x p arr _ _
    refine ⟨x, rfl, fun i => ?_⟩
    have : ¬ (p ≤ i ∧ i < p + 0) := by omega
    rw [if_neg this]
  | succ n ih =>
    intro x p arr ha hp
    have hlt : arr.idx < arr.arr.length := by omega
    have hp1 : p < N + 1 := by omega
    obtain ⟨r, hr, hget⟩ := ih (x.store p (arr.arr.get ⟨arr.idx, hlt⟩)) (p + 1) (arr.add 1)
      (by simp only [Ptr.add]; omega) (by omega)
    refine ⟨r, ?_, fun i => ?_⟩
    · simp only [detail_.acpy, Ptr.deref_of_lt arr hlt, hp1, if_true]
      rw [hr]
      congr 2
      omega
    · rw [hget i]
      by_cases h1 : p + 1 ≤ i ∧ i < p + 1 + n
      · have h2 : p ≤ i ∧ i < p + (n + 1) := by omega
        rw [if_pos h1, if_pos h2]
        simp only [Ptr.add]
        congr 1
        omega
      · rw [if_neg h1]
        by_cases h3 : i = p
        · subst h3
          have h2 : i ≤ i ∧ i < i + (n + 1) := by omega
          have hlen : i < x.data_.length := by rw [x.data_len]; exact hp1
          rw [if_pos h2]
          simp [basic_string_literal.store, List.getElem?_set, hlen,
            List.getElem?_eq_getElem hlt]
        · have h2 : ¬ (p ≤ i ∧ i < p + (n + 1)) := by omega
          rw [if_neg h2]
          simp [basic_string_literal.store, List.getElem?_set, Ne.symm h3]

theorem basic_string_literal.zero_init_getElem? [Zero Ch] (i : Nat) :
    (basic_string_literal.zero_init Ch N).data_[i]? = if i < N + 1 then some 0 else none := by
  simp [basic_string_literal.zero_init, List.getElem?_replicate]

/-- Elements of the range of `n` elements at `p`, by index. -/
theorem Ptr.getElem?_take_mem (p : Ptr Ch) (n i : Nat) :
    (p.mem.take n)[i]? = if i < n then p.arr[p.idx + i]? else none := by
  simp only [Ptr.mem, List.getElem?_take, List.getElem?_drop]

theorem Ptr.length_take_mem (p : Ptr Ch) (n : Nat) (h : p.idx + n ≤ p.arr.length) :
    (p.mem.take n).length = n := by
  simp only [Ptr.mem, List.length_take, List.length_drop]
  omega

/-- The array constructor copies `n` elements of `arr` in front of a
zero-initialised buffer. -/
theorem basic_string_literal.ctor_arr_spec [Zero Ch] (arr : Ptr Ch) (n : Nat)
    (ha : arr.idx + n ≤ arr.arr.length) (hn : n ≤ N) :
    ∃ r, basic_string_literal.ctor_arr N arr n = .ok r ∧
      r.data_ = arr.mem.take n ++ List.replicate (N + 1 - n) 0 := by
  obtain ⟨r, hr, hget⟩ := detail_.acpy_spec n (basic_string_literal.zero_init Ch N) 0 arr ha
    (by omega)
  refine ⟨r, ?_, ?_⟩
  · simp only [basic_string_literal.ctor_arr, hr, Result.bind_ok]
  · apply List.ext_getElem?
    intro i
    rw [hget i, List.getElem?_append, Ptr.length_take_mem arr n ha, Ptr.getElem?_take_mem,
      basic_string_literal.zero_init_getElem?, List.getElem?_replicate]
    by_cases h : i < n
    · have h2 : 0 ≤ i ∧ i < 0 + n := by omega
      simp [h, h2]
    · have h2 : ¬ (0 ≤ i ∧ i < 0 + n) := by omega
      simp only [h, h2, if_false]
      by_cases h3 : i < N + 1
      · have h4 : i - n < N + 1 - n := by omega
        simp [h3, h4]
      · have h4 : ¬ (i - n < N + 1 - n) := by omega
        simp [h3, h4]

/-- The concatenating constructor: `n1` elements of `arr1`, then `n2`
elements of `arr2`, then zeros up to the end of the buffer. -/
theorem basic_string_literal.ctor_cat_spec [Zero Ch] (arr1 arr2 : Ptr Ch) (n1 n2 : Nat)
    (h1 : arr1.idx + n1 ≤ arr1.arr.length) (h2 : arr2.idx + n2 ≤ arr2.arr.length)
    (hn : n1 + n2 ≤ N) :
    ∃ r, basic_string_literal.ctor_cat N arr1 n1 arr2 n2 = .ok r ∧
      r.data_ = arr1.mem.take n1 ++ arr2.mem.take n2 ++ List.replicate (N + 1 - (n1 + n2)) 0 := by
  obtain ⟨r0, hr0, hd0⟩ := basic_string_literal.ctor_arr_spec (N := N) arr1 n1 h1 (by omega)
  obtain ⟨r1, hr1, hg1⟩ := detail_.acpy_spec n1 r0 0 arr1 h1 (by omega)
  obtain ⟨r2, hr2, hg2⟩ := detail_.acpy_spec n2 r1 (0 + n1) arr2 h2 (by omega)
  refine ⟨r2, ?_, ?_⟩
  · simp only [basic_string_literal.ctor_cat, hr0, hr1, hr2, Result.bind_ok]
  · apply List.ext_getElem?
    intro i
    rw [hg2 i, hg1 i, hd0]
    simp only [List.getElem?_append, List.length_append, Ptr.length_take_mem arr1 n1 h1,
      Ptr.length_take_mem arr2 n2 h2, Ptr.getElem?_take_mem, List.getElem?_replicate]
    by_cases ha : i < n1
    · have hb : ¬ (0 + n1 ≤ i ∧ i < 0 + n1 + n2) := by omega
      have hc : 0 ≤ i ∧ i < 0 + n1 := by omega
      have hd : i < n1 + n2 := by omega
      simp [ha, hb, hc, hd]
    · by_cases hb : i < n1 + n2
      · have hc : 0 + n1 ≤ i ∧ i < 0 + n1 + n2 := by omega
        have hd : i - n1 < n2 := by omega
        have he : i - (0 + n1) = i - n1 := by omega
        simp [ha, hb, hc, hd, he]
      · have hc : ¬ (0 + n1 ≤ i ∧ i < 0 + n1 + n2) := by omega
        have hd : ¬ (0 ≤ i ∧ i < 0 + n1) := by omega
        simp only [ha, hb, hc, hd, if_false]
        by_cases hf : i < N + 1
        · have hg : i - n1 < N + 1 - n1 := by omega
          have hh : i - (n1 + n2) < N + 1 - (n1 + n2) := by omega
          simp [hg, hh]
        · have hg : ¬ (i - n1 < N + 1 - n1) := by omega
          have hh : ¬ (i - (n1 + n2) < N + 1 - (n1 + n2)) := by omega
          simp [hg, hh]

theorem basic_string_literal.mem_data (x : basic_string_literal Ch N) :
    x.data.mem = x.data_ := by
  simp [basic_string_literal.data, Ptr.mem]

theorem basic_string_literal.content_length (x : basic_string_literal Ch N) :
    x.content.length = N := by
  simp [basic_string_literal.content, x.data_len]

/-- The content of a buffer that is `l` followed by zeros. -/
theorem basic_string_literal.content_of_data (x : basic_string_literal Ch N) [Zero Ch]
    (l : List Ch) (k : Nat) (hl : l.length = N) (h : x.data_ = l ++ List.replicate k 0) :
    x.content = l := by
  rw [basic_string_literal.content, h, ← hl, List.take_left]

/-- The character `operator[]` returns inside of the content is the one
of the content list. -/
theorem basic_string_literal.index_eq_content (x : basic_string_literal Ch N) (i : Nat)
    (h : i < N) : ∃ c, x.index i = .ok c ∧ x.content[i]? = some c := by
  have hl : i < x.data_.length := by rw [x.data_len]; omega
  refine ⟨x.data_.get ⟨i, hl⟩, ?_, ?_⟩
  · simp [basic_string_literal.index, List.getElem?_eq_getElem hl]
  · simp [basic_string_literal.content, List.getElem?_take, h, List.getElem?_eq_getElem hl]

theorem basic_string_literal.take_mem_data (x : basic_string_literal Ch N) :
    x.data.mem.take x.size = x.content := by
  simp [basic_string_literal.mem_data, basic_string_literal.size, basic_string_literal.content]

theorem Ptr.mem_eq_cons (p : Ptr Ch) (h : p.idx < p.arr.length) :
    p.mem = p.arr.get ⟨p.idx, h⟩ :: (p.add 1).mem := by
  simp only [Ptr.mem, Ptr.add]
  exact List.drop_eq_getElem_cons h

end construction

/-! ## Concatenation and substrings -/

section concatenation

variable {Ch : Type} [Zero Ch] {N n1 n2 : Nat}

/-- The general form of every `operator+`: two ranges that lie inside of
their arrays are copied one after the other. -/
theorem detail_.core_access.mk_lit_cat_content (arr1 arr2 : Ptr Ch) (k1 k2 : Nat)
    (h1 : arr1.idx + k1 ≤ arr1.arr.length) (h2 : arr2.idx + k2 ≤ arr2.arr.length)
    (hN : k1 + k2 = N) :
    ∃ r, detail_.core_access.mk_lit_cat N arr1 k1 arr2 k2 = .ok r ∧
      r.content = arr1.mem.take k1 ++ arr2.mem.take k2 := by
  obtain ⟨r, hr, hd⟩ := basic_string_literal.ctor_cat_spec (N := N) arr1 arr2 k1 k2 h1 h2
    (by omega)
  refine ⟨r, hr, ?_⟩
  apply basic_string_literal.content_of_data r _ _ _ hd
  rw [List.length_append, Ptr.length_take_mem arr1 k1 h1, Ptr.length_take_mem arr2 k2 h2, hN]

/-- C1: every form of `operator+` (value + value, value + array, array +
value, value + character, character + value) returns a value whose size is
the sum of the operand lengths and whose characters are those of the left
operand, in order, followed by those of the right operand, in order.  An
array operand `a` has at least one element and contributes all of its elements
but the last. -/
theorem operator_plus_concatenates (x : basic_string_literal Ch n1)
    (y : basic_string_literal Ch n2) (a : List Ch) (c : Ch) (ha : a ≠ []) :
    (∃ r, operator_plus x y = .ok r ∧ r.size = x.size + y.size ∧
      r.content = x.content ++ y.content) ∧
    (∃ r, operator_plus_value_array x a = .ok r ∧ r.size = x.size + (a.length - 1) ∧
      r.content = x.content ++ a.dropLast) ∧
    (∃ r, operator_plus_array_value a y = .ok r ∧ r.size = (a.length - 1) + y.size ∧
      r.content = a.dropLast ++ y.content) ∧
    (∃ r, operator_plus_value_char x c = .ok r ∧ r.size = x.size + 1 ∧
      r.content = x.content ++ [c]) ∧
    (∃ r, operator_plus_char_value c y = .ok r ∧ r.size = 1 + y.size ∧
      r.content = c :: y.content) := by
  have hx : x.data.idx + x.size ≤ x.data.arr.length := by
    simp [basic_string_literal.data, basic_string_literal.size, x.data_len]
  have hy : y.data.idx + y.size ≤ y.data.arr.length := by
    simp [basic_string_literal.data, basic_string_literal.size, y.data_len]
  have hpos : 0 < a.length := List.length_pos.mpr ha
  have hA : (⟨a, 0⟩ : Ptr Ch).idx + (a.length - 1) ≤ (⟨a, 0⟩ : Ptr Ch).arr.length := by
    simp
  have hAm : (⟨a, 0⟩ : Ptr Ch).mem.take (a.length - 1) = a.dropLast := by
    simp [Ptr.mem, List.dropLast_eq_take]
  have hC : (⟨[c], 0⟩ : Ptr Ch).idx + 1 ≤ (⟨[c], 0⟩ : Ptr Ch).arr.length := by simp
  have hCm : (⟨[c], 0⟩ : Ptr Ch).mem.take 1 = [c] := by simp [Ptr.mem]
  refine ⟨?_, ?_, ?_, ?_, ?_⟩
  · obtain ⟨r, hr, hc⟩ := detail_.core_access.mk_lit_cat_content (N := n1 + n2)
      x.data y.data x.size y.size hx hy rfl
    exact ⟨r, hr, rfl, by rw [hc, x.take_mem_data, y.take_mem_data]⟩
  · obtain ⟨r, hr, hc⟩ := detail_.core_access.mk_lit_cat_content (N := n1 + a.length - 1)
      x.data ⟨a, 0⟩ x.size (a.length - 1) hx hA
      (by simp only [basic_string_literal.size]; omega)
    exact ⟨r, hr, by simp only [basic_string_literal.size]; omega,
      by rw [hc, x.take_mem_data, hAm]⟩
  · obtain ⟨r, hr, hc⟩ := detail_.core_access.mk_lit_cat_content (N := a.length - 1 + n2)
      ⟨a, 0⟩ y.data (a.length - 1) y.size hA hy rfl
    exact ⟨r, hr, rfl, by rw [hc, y.take_mem_data, hAm]⟩
  · obtain ⟨r, hr, hc⟩ := detail_.core_access.mk_lit_cat_content (N := n1 + 1)
      x.data ⟨[c], 0⟩ x.size 1 hx hC rfl
    exact ⟨r, hr, rfl, by rw [hc, x.take_mem_data, hCm]⟩
  · obtain ⟨r, hr, hc⟩ := detail_.core_access.mk_lit_cat_content (N := n2 + 1)
      ⟨[c], 0⟩ y.data 1 y.size hC hy (by simp only [basic_string_literal.size]; omega)
    exact ⟨r, hr, by simp only [basic_string_literal.size]; omega,
      by rw [hc, y.take_mem_data, hCm]; rfl⟩

theorem operator_plus_concatenates_witness :
    chars "abc" ≠ [] ∧
    ((∃ r, operator_plus (lit "abc") (lit "def") = .ok r ∧
        r.size = (lit "abc").size + (lit "def").size ∧
        r.content = (lit "abc").content ++ (lit "def").content) ∧
      (∃ r, operator_plus_value_array (lit "abc") (chars "abc") = .ok r ∧
        r.size = (lit "abc").size + ((chars "abc").length - 1) ∧
        r.content = (lit "abc").content ++ (chars "abc").dropLast) ∧
      (∃ r, operator_plus_array_value (chars "abc") (lit "def") = .ok r ∧
        r.size = ((chars "abc").length - 1) + (lit "def").size ∧
        r.content = (chars "abc").dropLast ++ (lit "def").content) ∧
      (∃ r, operator_plus_value_char (lit "abc") 100 = .ok r ∧
        r.size = (lit "abc").size + 1 ∧ r.content = (lit "abc").content ++ [100]) ∧
      (∃ r, operator_plus_char_value 100 (lit "def") = .ok r ∧
        r.size = 1 + (lit "def").size ∧ r.content = 100 :: (lit "def").content)) :=
  ⟨by decide, operator_plus_concatenates (lit "abc") (lit "def") (chars "abc") 100 (by decide)⟩

/-- C2: for `pos < N`, `substr<pos, n>()` returns a value of length
`min(n, N - pos)` whose `i`-th character is `s[pos + i]` for every `i` below
that length. -/
theorem substr_characters (x : basic_string_literal Ch N) (pos n : Nat) (h : pos < N) :
    ∃ r, x.substr pos n h = .ok r ∧ r.size = min n (N - pos) ∧
      ∀ i, i < min n (N - pos) → ∃ c, r.index i = .ok c ∧ x.index (pos + i) = .ok c := by
  have ha : (x.data.add pos).idx + min n (N - pos) ≤ (x.data.add pos).arr.length := by
    simp only [basic_string_literal.data, Ptr.add, x.data_len]
    omega
  obtain ⟨r, hr, hd⟩ := basic_string_literal.ctor_arr_spec (N := min n (N - pos))
    (x.data.add pos) (min n (N - pos)) ha (le_refl _)
  refine ⟨r, hr, rfl, fun i hi => ?_⟩
  have hl : pos + i < x.data_.length := by rw [x.data_len]; omega
  have hri : r.data_[i]? = x.data_[pos + i]? := by
    rw [hd, List.getElem?_append_left (by rw [Ptr.length_take_mem _ _ ha]; exact hi),
      Ptr.getElem?_take_mem, if_pos hi]
    simp [basic_string_literal.data, Ptr.add]
  refine ⟨x.data_.get ⟨pos + i, hl⟩, ?_, ?_⟩
  · simp [basic_string_literal.index, hri, List.getElem?_eq_getElem hl]
  · simp [basic_string_literal.index, List.getElem?_eq_getElem hl]

theorem substr_characters_witness :
    ∃ r, (lit "defabcdef").substr 2 50 (by decide) = .ok r ∧ r.size = min 50 (9 - 2) ∧
      ∀ i, i < min 50 (9 - 2) →
        ∃ c, r.index i = .ok c ∧ (lit "defabcdef").index (2 + i) = .ok c :=
  substr_characters (lit "defabcdef") 2 50 (by decide)

end concatenation

/-! ## Comparison -/

section comparison

open detail_

variable {Ch : Type} [LinearOrder Ch] {N M : Nat}

/-- The traits comparison of two ranges that lie inside of their arrays
returns a value, the three-way comparison of the two ranges. -/
theorem detail_.constexpr_std_char_traits.compare_eq_lex3 (n : Nat) :
    ∀ s1 s2 : Ptr Ch, s1.idx + n ≤ s1.arr.length → s2.idx + n ≤ s2.arr.length →
      constexpr_std_char_traits.compare s1 s2 n = .ok (lex3 (s1.mem.take n) (s2.mem.take n)) := by
  induction n with
  | zero => intro s1 s2 _ _; simp [constexpr_std_char_traits.compare, lex3]
  | succ n ih =>
    intro s1 s2 h1 h2
    have hl1 : s1.idx < s1.arr.length := by omega
    have hl2 : s2.idx < s2.arr.length := by omega
    rw [constexpr_std_char_traits.compare, Ptr.deref_of_lt s1 hl1, Ptr.deref_of_lt s2 hl2,
      Ptr.mem_eq_cons s1 hl1, Ptr.mem_eq_cons s2 hl2]
    simp only [List.take_succ_cons, lex3, char_traits_eq, char_traits_lt, decide_eq_true_eq]
    rw [ih (s1.add 1) (s2.add 1) (by simp only [Ptr.add]; omega) (by simp only [Ptr.add]; omega)]
    split_ifs <;> rfl

theorem lex3_antisymm (l1 l2 : List Ch) : lex3 l1 l2 = -lex3 l2 l1 := by
  induction l1 generalizing l2 with
  | nil => cases l2 <;> simp [lex3]
  | cons a l1 ih =>
    cases l2 with
    | nil => simp [lex3]
    | cons b l2 =>
      simp only [lex3]
      rcases lt_trichotomy a b with h | h | h
      · have h1 : a ≠ b := ne_of_lt h
        have h2 : b ≠ a := Ne.symm h1
        have h3 : ¬ b < a := not_lt_of_lt h
        simp [h, h1, h2, h3]
      · subst h
        simpa using ih l2
      · have h1 : a ≠ b := ne_of_gt h
        have h2 : b ≠ a := Ne.symm h1
        have h3 : ¬ a < b := not_lt_of_lt h
        simp [h, h1, h2, h3]

theorem lex3_self (l : List Ch) : lex3 l l = 0 := by
  induction l with
  | nil => simp [lex3]
  | cons a l ih => simpa [lex3] using ih

/-- The comparison stops at the end of the shorter list. -/
theorem lex3_take_min (l1 l2 : List Ch) :
    lex3 (l1.take (min l1.length l2.length)) (l2.take (min l1.length l2.length)) = lex3 l1 l2 := by
  induction l1 generalizing l2 with
  | nil => simp [lex3]
  | cons a l1 ih =>
    cases l2 with
    | nil => simp [lex3]
    | cons b l2 =>
      have hm : min (a :: l1).length (b :: l2).length = min l1.length l2.length + 1 := by
        simp only [List.length_cons]; omega
      rw [hm]
      simp only [List.take_succ_cons, lex3]
      rw [ih l2]

/-- The comparison is zero exactly when the lists agree up to the end of
the shorter one. -/
theorem lex3_eq_zero_iff (l1 l2 : List Ch) :
    lex3 l1 l2 = 0 ↔
      l1.take (min l1.length l2.length) = l2.take (min l1.length l2.length) := by
  induction l1 generalizing l2 with
  | nil => simp [lex3]
  | cons a l1 ih =>
    cases l2 with
    | nil => simp [lex3]
    | cons b l2 =>
      have hm : min (a :: l1).length (b :: l2).length = min l1.length l2.length + 1 := by
        simp only [List.length_cons]; omega
      rw [hm]
      simp only [List.take_succ_cons, lex3, List.cons.injEq]
      by_cases h : a = b
      · simp [h, ih l2]
      · by_cases h2 : a < b <;> simp [h, h2]

/-- The three-way comparison and the length decide the lexicographic order. -/
theorem lex3_lt_iff_lex (l1 l2 : List Ch) :
    (lex3 l1 l2 < 0 ∨ (lex3 l1 l2 = 0 ∧ l1.length < l2.length)) ↔
      List.Lex (· < ·) l1 l2 := by
  induction l1 generalizing l2 with
  | nil =>
    cases l2 with
    | nil => simp [lex3]
    | cons b l2 => simp [lex3, List.Lex.nil]
  | cons a l1 ih =>
    cases l2 with
    | nil => simp [lex3]
    | cons b l2 =>
      simp only [lex3, List.length_cons, Nat.add_lt_add_iff_right]
      rcases lt_trichotomy a b with h | h | h
      · have h1 : a ≠ b := ne_of_lt h
        simp [h, h1, List.Lex.rel h]
      · subst h
        simp only [if_true]
        rw [ih l2]
        exact (List.Lex.cons_iff).symm
      · have h1 : a ≠ b := ne_of_gt h
        have h3 : ¬ a < b := not_lt_of_lt h
        simp only [h1, h3, if_false]
        constructor
        · intro hh
          rcases hh with hh | hh
          · omega
          · omega
        · intro hh
          cases hh with
          | cons _ => exact absurd rfl h1
          | rel hr => exact absurd hr h3

/-- The subtraction of two sizes on `std::size_t`, converted to
`difference_type`, is the signed difference. -/
theorem to_difference_type_size_sub (a b : Nat) (ha : a ≤ PTRDIFF_MAX) (hb : b ≤ PTRDIFF_MAX) :
    to_difference_type (size_sub a b) = (a : Int) - b := by
  simp only [to_difference_type, size_sub, SIZE_MOD, PTRDIFF_MAX] at *
  split_ifs <;> omega

theorem clamp_int_eq (d : Int) :
    (if d > INT_MAX then INT_MAX else if d < INT_MIN then INT_MIN else d) = clamp_int d := by
  simp only [clamp_int, INT_MAX, INT_MIN]
  split_ifs <;> omega

theorem clamp_int_sign (d : Int) : Int.sign (clamp_int d) = Int.sign d := by
  simp only [clamp_int, INT_MAX, INT_MIN]
  rcases lt_trichotomy d 0 with h | h | h
  · rw [Int.sign_eq_neg_one_of_neg h, Int.sign_eq_neg_one_of_neg (by omega)]
  · subst h; rfl
  · rw [Int.sign_eq_one_of_pos h, Int.sign_eq_one_of_pos (by omega)]

/-- The result of `compare_` on two ranges inside of their arrays, in terms
of the three-way comparison of the ranges. -/
theorem basic_string_literal.compare__eq (str1 str2 : string_view Ch) (h1 : str1.valid)
    (h2 : str2.valid) (hs1 : str1.size ≤ PTRDIFF_MAX) (hs2 : str2.size ≤ PTRDIFF_MAX) :
    basic_string_literal.compare_ str1 str2 =
      .ok (if lex3 str1.range str2.range = 0 then clamp_int ((str1.size : Int) - str2.size)
        else lex3 str1.range str2.range) := by
  have hc := constexpr_std_char_traits.compare_eq_lex3 (min str1.size str2.size)
    str1.data str2.data
    (by simp only [string_view.valid, string_view.size, string_view.data] at *; omega)
    (by simp only [string_view.valid, string_view.size, string_view.data] at *; omega)
  have hl1 : str1.range.length = str1.size := by
    simp only [string_view.range, string_view.size, string_view.valid, Ptr.mem,
      List.length_take, List.length_drop] at *
    omega
  have hl2 : str2.range.length = str2.size := by
    simp only [string_view.range, string_view.size, string_view.valid, Ptr.mem,
      List.length_take, List.length_drop] at *
    omega
  have hr : lex3 (str1.data.mem.take (min str1.size str2.size))
      (str2.data.mem.take (min str1.size str2.size)) = lex3 str1.range str2.range := by
    rw [← lex3_take_min str1.range str2.range, hl1, hl2]
    simp only [string_view.range, string_view.size, string_view.data, List.take_take]
    have e1 : min (min str1.sz str2.sz) str1.sz = min str1.sz str2.sz := by omega
    have e2 : min (min str1.sz str2.sz) str2.sz = min str1.sz str2.sz := by omega
    rw [e1, e2]
  rw [basic_string_literal.compare_, hc, Result.bind_ok, hr]
  simp only [to_difference_type_size_sub _ _ hs1 hs2, clamp_int_eq]
  split_ifs <;> rfl

/-- C3 (amended): for two character ranges inside of their arrays, with
`rlen = min(len(lhs), len(rhs))` and `c = traits::compare(lhs, rhs, rlen)`,
`compare_` returns `c` if `c != 0`, and otherwise the length difference
`len(lhs) - len(rhs)` clamped to the range of `int`, a value that has the
sign of the difference. -/
theorem compare__algorithm (str1 str2 : string_view Ch) (h1 : str1.valid) (h2 : str2.valid)
    (hs1 : str1.size ≤ PTRDIFF_MAX) (hs2 : str2.size ≤ PTRDIFF_MAX) :
    ∃ c, constexpr_std_char_traits.compare str1.data str2.data (min str1.size str2.size)
        = .ok c ∧
      basic_string_literal.compare_ str1 str2 =
        .ok (if c ≠ 0 then c else clamp_int ((str1.size : Int) - str2.size)) ∧
      Int.sign (clamp_int ((str1.size : Int) - str2.size))
        = Int.sign ((str1.size : Int) - str2.size) := by
  have hc := constexpr_std_char_traits.compare_eq_lex3 (min str1.size str2.size)
    str1.data str2.data
    (by simp only [string_view.valid, string_view.size, string_view.data] at *; omega)
    (by simp only [string_view.valid, string_view.size, string_view.data] at *; omega)
  refine ⟨_, hc, ?_, clamp_int_sign _⟩
  rw [basic_string_literal.compare_, hc, Result.bind_ok]
  simp only [to_difference_type_size_sub _ _ hs1 hs2, clamp_int_eq]
  split_ifs <;> first | rfl | contradiction

theorem compare__algorithm_witness :
    (lit "abcdef").view_.valid ∧ (basic_string_literal.view_of (lit "a")).valid ∧
    (lit "abcdef").view_.size ≤ PTRDIFF_MAX ∧
    (basic_string_literal.view_of (lit "a")).size ≤ PTRDIFF_MAX ∧
    ∃ c, constexpr_std_char_traits.compare (lit "abcdef").view_.data
          (basic_string_literal.view_of (lit "a")).data
          (min (lit "abcdef").view_.size (basic_string_literal.view_of (lit "a")).size)
        = .ok c ∧
      basic_string_literal.compare_ (lit "abcdef").view_ (basic_string_literal.view_of (lit "a")) =
        .ok (if c ≠ 0 then c else clamp_int
          (((lit "abcdef").view_.size : Int) - (basic_string_literal.view_of (lit "a")).size)) ∧
      Int.sign (clamp_int
          (((lit "abcdef").view_.size : Int) - (basic_string_literal.view_of (lit "a")).size))
        = Int.sign
          (((lit "abcdef").view_.size : Int) - (basic_string_literal.view_of (lit "a")).size) :=
  ⟨by decide, by decide, by decide, by decide,
    compare__algorithm (lit "abcdef").view_ (basic_string_literal.view_of (lit "a"))
      (by decide) (by decide) (by decide) (by decide)⟩

/-- C3, as stated, fails: `"abcdef"` against `"a"` has a zero traits
comparison over the common length 1, and `compare_` returns 5, not the
sign 1 of the length difference. -/
theorem compare__sign_counterexample :
    ¬ ∃ c, constexpr_std_char_traits.compare (lit "abcdef").view_.data
          (basic_string_literal.view_of (lit "a")).data (min 6 1) = .ok c ∧
      basic_string_literal.compare_ (lit "abcdef").view_ (basic_string_literal.view_of (lit "a"))
        = .ok (if c ≠ 0 then c else Int.sign ((6 : Int) - 1)) := by
  rintro ⟨c, hc, h⟩
  have h0 : constexpr_std_char_traits.compare (lit "abcdef").view_.data
      (basic_string_literal.view_of (lit "a")).data (min 6 1) = .ok 0 := by decide
  have h5 : basic_string_literal.compare_ (lit "abcdef").view_
      (basic_string_literal.view_of (lit "a")) = .ok 5 := by decide
  rw [h0] at hc
  injection hc with hc
  subst hc
  rw [h5] at h
  revert h
  decide

/-! ### The views the overloads build -/

theorem size_sub_of_le (a b : Nat) (h : b ≤ a) (ha : a ≤ PTRDIFF_MAX) : size_sub a b = a - b := by
  simp only [size_sub, SIZE_MOD, PTRDIFF_MAX] at *
  omega

omit [LinearOrder Ch] in
theorem basic_string_literal.view__props (x : basic_string_literal Ch N) :
    x.view_.valid ∧ x.view_.range = x.content ∧ x.view_.size = N := by
  simp [basic_string_literal.view_, string_view.valid, string_view.range, string_view.size,
    basic_string_literal.data, basic_string_literal.size, basic_string_literal.content,
    Ptr.mem, x.data_len]

omit [LinearOrder Ch] in
theorem basic_string_literal.view_of_props (x : basic_string_literal Ch N) :
    (basic_string_literal.view_of x).valid ∧
      (basic_string_literal.view_of x).range = x.content ∧
      (basic_string_literal.view_of x).size = N :=
  x.view__props

omit [LinearOrder Ch] in
/-- The view of `str[pos ..)` with at most `n` characters, for `pos` inside of `str`. -/
theorem string_view.sub_props (str : basic_string_literal Ch M) (pos n : Nat) (h : pos ≤ M)
    (hM : M ≤ PTRDIFF_MAX) :
    (⟨str.data.add pos, min n (size_sub str.size pos)⟩ : string_view Ch).valid ∧
      (⟨str.data.add pos, min n (size_sub str.size pos)⟩ : string_view Ch).range
        = str.sub_range pos n ∧
      (⟨str.data.add pos, min n (size_sub str.size pos)⟩ : string_view Ch).size
        = (str.sub_range pos n).length := by
  have hs : size_sub str.size pos = M - pos := size_sub_of_le M pos h hM
  rw [hs]
  refine ⟨?_, ?_, ?_⟩
  · simp only [string_view.valid, basic_string_literal.data, Ptr.add, str.data_len]
    omega
  · simp only [string_view.range, basic_string_literal.sub_range, basic_string_literal.content,
      basic_string_literal.data, Ptr.add, Ptr.mem, Nat.zero_add, List.take_take]
    apply List.ext_getElem?
    intro i
    simp only [List.getElem?_take, List.getElem?_drop]
    by_cases h1 : i < n
    · by_cases h2 : i < M - pos
      · have h3 : i < min n (M - pos) := by omega
        have h4 : pos + i < M := by omega
        simp [h1, h3, h4]
      · have h3 : ¬ i < min n (M - pos) := by omega
        have h4 : ¬ pos + i < M := by omega
        simp [h1, h3, h4]
    · have h3 : ¬ i < min n (M - pos) := by omega
      simp [h1, h3]
  · simp only [string_view.size, basic_string_literal.sub_range, List.length_take,
      List.length_drop, basic_string_literal.content_length]

omit [LinearOrder Ch] in
theorem basic_string_literal.view_sub_eq (x : basic_string_literal Ch N) (pos n : Nat)
    (h : pos ≤ N) :
    x.view_sub pos n = .ok ⟨x.data.add pos, min n (size_sub x.size pos)⟩ := by
  simp [basic_string_literal.view_sub, basic_string_literal.size, h]

omit [LinearOrder Ch] in
theorem basic_string_literal.view_str_eq (x : basic_string_literal Ch N)
    (str : basic_string_literal Ch M) (pos n : Nat) (h : pos ≤ N) :
    x.view_str str pos n = .ok ⟨str.data.add pos, min n (size_sub str.size pos)⟩ := by
  simp [basic_string_literal.view_str, basic_string_literal.size, h]

theorem detail_.constexpr_std_char_traits.length_loop_eq [Zero Ch] (l : List Ch) :
    ∀ k, (0 : Ch) ∈ l →
      constexpr_std_char_traits.length_loop l k
        = .ok (k + (l.takeWhile fun c => decide (c ≠ 0)).length) := by
  induction l with
  | nil => intro k h; simp at h
  | cons a l ih =>
    intro k h
    by_cases ha : a = 0
    · simp [constexpr_std_char_traits.length_loop, ha]
    · have hl : (0 : Ch) ∈ l := by
        rcases List.mem_cons.mp h with h0 | h0
        · exact absurd h0.symm ha
        · exact h0
      simp only [constexpr_std_char_traits.length_loop, ha, if_false, ih (k + 1) hl]
      simp [List.takeWhile_cons, ha]
      omega

theorem List.take_length_takeWhile {α : Type} (p : α → Bool) (l : List α) :
    l.take (l.takeWhile p).length = l.takeWhile p := by
  induction l with
  | nil => simp
  | cons a l ih =>
    by_cases h : p a
    · simp [List.takeWhile_cons, h, ih]
    · simp [List.takeWhile_cons, h]

theorem List.length_takeWhile_le_length {α : Type} (p : α → Bool) (l : List α) :
    (l.takeWhile p).length ≤ l.length := by
  induction l with
  | nil => simp
  | cons a l ih =>
    by_cases h : p a
    · simp [List.takeWhile_cons, h, ih]
    · simp [List.takeWhile_cons, h]

/-- The view of a zero-terminated string: its characters up to the
terminator. -/
theorem detail_.string_view.of_c_str_props [Zero Ch] (s : Ptr Ch) (h : s.terminated) :
    ∃ v, string_view.of_c_str s = .ok v ∧ v.valid ∧ v.range = s.c_str_chars ∧
      v.size = s.c_str_chars.length := by
  have hl := constexpr_std_char_traits.length_loop_eq s.mem 0 h
  refine ⟨⟨s, s.c_str_chars.length⟩, ?_, ?_, ?_, rfl⟩
  · simp only [string_view.of_c_str, constexpr_std_char_traits.length, hl, Result.bind_ok,
      Ptr.c_str_chars, Nat.zero_add]
  · have h1 : s.c_str_chars.length ≤ s.mem.length := List.length_takeWhile_le_length _ _
    have h2 : s.mem ≠ [] := List.ne_nil_of_mem h
    have h3 : s.idx < s.arr.length := by
      by_contra hc
      exact h2 (List.drop_eq_nil_of_le (not_lt.mp hc))
    simp only [string_view.valid]
    simp only [Ptr.mem, List.length_drop] at h1
    omega
  · simp only [string_view.range, Ptr.c_str_chars]
    exact List.take_length_takeWhile _ _

theorem lex3_of_one_leads (l1 l2 : List Ch) (h : one_leads l1 l2) : lex3 l1 l2 = 0 := by
  rw [lex3_eq_zero_iff]
  rcases h with ⟨t, ht⟩ | ⟨t, ht⟩
  · subst ht
    simp [List.take_append_eq_append_take]
  · subst ht
    simp [List.take_append_eq_append_take]

omit [LinearOrder Ch] in
theorem detail_.string_view.length_range (v : string_view Ch) (h : v.valid) :
    v.range.length = v.size := by
  simp only [string_view.range, string_view.size, string_view.valid, Ptr.mem,
    List.length_take, List.length_drop] at *
  omega

/-- The result of `compare_` on two ranges inside of their arrays. -/
theorem basic_string_literal.compare__ranges (v1 v2 : string_view Ch) (h1 : v1.valid)
    (h2 : v2.valid) (hs1 : v1.size ≤ PTRDIFF_MAX) (hs2 : v2.size ≤ PTRDIFF_MAX) :
    basic_string_literal.compare_ v1 v2 = .ok (compare_ranges v1.range v2.range) := by
  rw [basic_string_literal.compare__eq v1 v2 h1 h2 hs1 hs2, compare_ranges,
    string_view.length_range v1 h1, string_view.length_range v2 h2]

omit [LinearOrder Ch] in
theorem basic_string_literal.length_sub_range_le (x : basic_string_literal Ch N) (pos n : Nat) :
    (x.sub_range pos n).length ≤ N := by
  simp only [basic_string_literal.sub_range, List.length_take, List.length_drop,
    basic_string_literal.content_length]
  omega

/-! ### The six overloads of `compare` -/

theorem basic_string_literal.compare_eq (x : basic_string_literal Ch N)
    (str : basic_string_literal Ch M) (hN : N ≤ PTRDIFF_MAX) (hM : M ≤ PTRDIFF_MAX) :
    x.compare str = .ok (compare_ranges x.content str.content) := by
  obtain ⟨a1, a2, a3⟩ := x.view__props
  obtain ⟨b1, b2, b3⟩ := str.view_of_props
  rw [basic_string_literal.compare, basic_string_literal.compare__ranges _ _ a1 b1
    (by rw [a3]; exact hN) (by rw [b3]; exact hM), a2, b2]

theorem basic_string_literal.compare_sub_eq (x : basic_string_literal Ch N) (pos1 n1 : Nat)
    (str : basic_string_literal Ch M) (hN : N ≤ PTRDIFF_MAX) (hM : M ≤ PTRDIFF_MAX)
    (h1 : pos1 ≤ N) :
    x.compare_sub pos1 n1 str = .ok (compare_ranges (x.sub_range pos1 n1) str.content) := by
  obtain ⟨a1, a2, a3⟩ := string_view.sub_props x pos1 n1 h1 hN
  obtain ⟨b1, b2, b3⟩ := str.view_of_props
  have hl := x.length_sub_range_le pos1 n1
  rw [basic_string_literal.compare_sub, x.view_sub_eq pos1 n1 h1, Result.bind_ok,
    basic_string_literal.compare__ranges _ _ a1 b1 (by rw [a3]; omega) (by rw [b3]; exact hM),
    a2, b2]

theorem basic_string_literal.compare_sub_sub_eq (x : basic_string_literal Ch N) (pos1 n1 : Nat)
    (str : basic_string_literal Ch M) (pos2 n2 : Nat) (hN : N ≤ PTRDIFF_MAX)
    (hM : M ≤ PTRDIFF_MAX) (h1 : pos1 ≤ N) (h2 : pos2 ≤ N) (h2M : pos2 ≤ M) :
    x.compare_sub_sub pos1 n1 str pos2 n2
      = .ok (compare_ranges (x.sub_range pos1 n1) (str.sub_range pos2 n2)) := by
  obtain ⟨a1, a2, a3⟩ := string_view.sub_props x pos1 n1 h1 hN
  obtain ⟨b1, b2, b3⟩ := string_view.sub_props str pos2 n2 h2M hM
  have hl := x.length_sub_range_le pos1 n1
  have hl2 := str.length_sub_range_le pos2 n2
  rw [basic_string_literal.compare_sub_sub, x.view_sub_eq pos1 n1 h1, Result.bind_ok,
    x.view_str_eq str pos2 n2 h2, Result.bind_ok,
    basic_string_literal.compare__ranges _ _ a1 b1 (by rw [a3]; omega) (by rw [b3]; omega),
    a2, b2]

omit [LinearOrder Ch] in
theorem Ptr.length_c_str_chars_le [Zero Ch] [DecidableEq Ch] (s : Ptr Ch) :
    s.c_str_chars.length ≤ s.arr.length := by
  have h1 : s.c_str_chars.length ≤ s.mem.length := List.length_takeWhile_le_length _ _
  simp only [Ptr.mem, List.length_drop] at h1
  omega

theorem basic_string_literal.compare_c_str_eq [Zero Ch] (x : basic_string_literal Ch N)
    (s : Ptr Ch) (hN : N ≤ PTRDIFF_MAX) (hs : s.terminated)
    (hl : s.arr.length ≤ PTRDIFF_MAX) :
    x.compare_c_str s = .ok (compare_ranges x.content s.c_str_chars) := by
  obtain ⟨a1, a2, a3⟩ := x.view__props
  obtain ⟨v, hv, b1, b2, b3⟩ := string_view.of_c_str_props s hs
  have hc := s.length_c_str_chars_le
  rw [basic_string_literal.compare_c_str, hv, Result.bind_ok,
    basic_string_literal.compare__ranges _ _ a1 b1 (by rw [a3]; exact hN) (by rw [b3]; omega),
    a2, b2]

theorem basic_string_literal.compare_sub_c_str_eq [Zero Ch] (x : basic_string_literal Ch N)
    (pos1 n1 : Nat) (s : Ptr Ch) (hN : N ≤ PTRDIFF_MAX) (h1 : pos1 ≤ N) (hs : s.terminated)
    (hl : s.arr.length ≤ PTRDIFF_MAX) :
    x.compare_sub_c_str pos1 n1 s
      = .ok (compare_ranges (x.sub_range pos1 n1) s.c_str_chars) := by
  obtain ⟨a1, a2, a3⟩ := string_view.sub_props x pos1 n1 h1 hN
  obtain ⟨v, hv, b1, b2, b3⟩ := string_view.of_c_str_props s hs
  have hc := s.length_c_str_chars_le
  have hx := x.length_sub_range_le pos1 n1
  rw [basic_string_literal.compare_sub_c_str, x.view_sub_eq pos1 n1 h1, Result.bind_ok, hv,
    Result.bind_ok,
    basic_string_literal.compare__ranges _ _ a1 b1 (by rw [a3]; omega) (by rw [b3]; omega),
    a2, b2]

theorem basic_string_literal.compare_sub_buf_eq (x : basic_string_literal Ch N)
    (pos1 n1 : Nat) (s : Ptr Ch) (n2 : Nat) (hN : N ≤ PTRDIFF_MAX) (h1 : pos1 ≤ N)
    (hs : s.idx + n2 ≤ s.arr.length) (hl : n2 ≤ PTRDIFF_MAX) :
    x.compare_sub_buf pos1 n1 s n2
      = .ok (compare_ranges (x.sub_range pos1 n1) (s.mem.take n2)) := by
  obtain ⟨a1, a2, a3⟩ := string_view.sub_props x pos1 n1 h1 hN
  have hx := x.length_sub_range_le pos1 n1
  have b1 : (⟨s, n2⟩ : string_view Ch).valid := hs
  rw [basic_string_literal.compare_sub_buf, x.view_sub_eq pos1 n1 h1, Result.bind_ok,
    basic_string_literal.compare__ranges _ _ a1 b1 (by rw [a3]; omega) hl, a2]
  rfl

theorem compare_ranges_of_one_leads (l1 l2 : List Ch) (h : one_leads l1 l2) :
    compare_ranges l1 l2 = clamp_int ((l1.length : Int) - l2.length) := by
  simp [compare_ranges, lex3_of_one_leads l1 l2 h]

/-- Whenever one of the two compared ranges is a leading part of the
other, an overload of `compare` whose position checks pass returns the length
difference `len(lhs) - len(rhs)` clamped to the range of `int`.  For the
five-argument overload the check is the one the code makes, of `pos2` against
the size of the left operand. -/
theorem basic_string_literal.compare_of_one_leads [Zero Ch] (x : basic_string_literal Ch N)
    (str : basic_string_literal Ch M) (pos1 n1 pos2 n2 : Nat) (s z : Ptr Ch)
    (hN : N ≤ PTRDIFF_MAX) (hM : M ≤ PTRDIFF_MAX) (h1 : pos1 ≤ N) :
    (one_leads x.content str.content →
      x.compare str = .ok (clamp_int ((N : Int) - M))) ∧
    (one_leads (x.sub_range pos1 n1) str.content →
      x.compare_sub pos1 n1 str
        = .ok (clamp_int (((x.sub_range pos1 n1).length : Int) - M))) ∧
    (pos2 ≤ N → pos2 ≤ M → one_leads (x.sub_range pos1 n1) (str.sub_range pos2 n2) →
      x.compare_sub_sub pos1 n1 str pos2 n2
        = .ok (clamp_int (((x.sub_range pos1 n1).length : Int)
            - (str.sub_range pos2 n2).length))) ∧
    (z.terminated → z.arr.length ≤ PTRDIFF_MAX → one_leads x.content z.c_str_chars →
      x.compare_c_str z = .ok (clamp_int ((N : Int) - z.c_str_chars.length))) ∧
    (z.terminated → z.arr.length ≤ PTRDIFF_MAX →
      one_leads (x.sub_range pos1 n1) z.c_str_chars →
      x.compare_sub_c_str pos1 n1 z
        = .ok (clamp_int (((x.sub_range pos1 n1).length : Int) - z.c_str_chars.length))) ∧
    (s.idx + n2 ≤ s.arr.length → n2 ≤ PTRDIFF_MAX →
      one_leads (x.sub_range pos1 n1) (s.mem.take n2) →
      x.compare_sub_buf pos1 n1 s n2
        = .ok (clamp_int (((x.sub_range pos1 n1).length : Int) - n2))) := by
  refine ⟨fun h => ?_, fun h => ?_, fun h2 h2M h => ?_, fun hz hl h => ?_, fun hz hl h => ?_,
    fun hn2 hn h => ?_⟩
  · rw [x.compare_eq str hN hM, compare_ranges_of_one_leads _ _ h, x.content_length,
      str.content_length]
  · rw [x.compare_sub_eq pos1 n1 str hN hM h1, compare_ranges_of_one_leads _ _ h,
      str.content_length]
  · rw [x.compare_sub_sub_eq pos1 n1 str pos2 n2 hN hM h1 h2 h2M,
      compare_ranges_of_one_leads _ _ h]
  · rw [x.compare_c_str_eq z hN hz hl, compare_ranges_of_one_leads _ _ h, x.content_length]
  · rw [x.compare_sub_c_str_eq pos1 n1 z hN h1 hz hl, compare_ranges_of_one_leads _ _ h]
  · rw [x.compare_sub_buf_eq pos1 n1 s n2 hN h1 hn2 hn,
      compare_ranges_of_one_leads _ _ h, s.length_take_mem n2 hn2]

/-- C4, at the five-argument overload with `pos2` beyond the size of the
left operand: for `x = "a"` and `str = "xxxa"`, the two ranges of
`x.compare(0, 1, str, 3, 1)` are both `"a"`, so that the result the
documentation gives is the clamped length difference 0; the code raises the
out-of-range condition.  The same two ranges compare to 0 through the
overload for a buffer, and with the operands exchanged. -/
theorem compare_sub_sub_length_difference_raises :
    (lit "a").compare_sub_sub 0 1 (lit "xxxa") 3 1 = .out_of_range ∧
    (lit "a").sub_range 0 1 = (lit "xxxa").sub_range 3 1 ∧
    clamp_int ((((lit "a").sub_range 0 1).length : Int)
      - ((lit "xxxa").sub_range 3 1).length) = 0 ∧
    (lit "a").compare_sub_buf 0 1 ⟨chars "xxxa", 3⟩ 1 = .ok 0 ∧
    (lit "xxxa").compare_sub_sub 3 1 (lit "a") 0 1 = .ok 0 ∧
    (lit "abcdef").compare (lit "abcdefabc") = .ok (-3) ∧
    (lit "abcdef").compare (lit "a") = .ok 5 := by
  decide

/-! ### Equality and order -/

theorem clamp_int_zero : clamp_int 0 = 0 := by
  simp [clamp_int, INT_MAX, INT_MIN]

theorem clamp_int_neg_iff (d : Int) : clamp_int d < 0 ↔ d < 0 := by
  simp only [clamp_int, INT_MAX, INT_MIN]
  omega

theorem clamp_int_eq_zero_iff (d : Int) : clamp_int d = 0 ↔ d = 0 := by
  simp only [clamp_int, INT_MAX, INT_MIN]
  omega

theorem compare_ranges_self (l : List Ch) : compare_ranges l l = 0 := by
  simp [compare_ranges, lex3_self, clamp_int_zero]

theorem compare_ranges_eq_zero_iff (l1 l2 : List Ch) : compare_ranges l1 l2 = 0 ↔ l1 = l2 := by
  constructor
  · intro h
    simp only [compare_ranges] at h
    by_cases h0 : lex3 l1 l2 = 0
    · rw [if_pos h0, clamp_int_eq_zero_iff] at h
      have hlen : l1.length = l2.length := by omega
      have ht := (lex3_eq_zero_iff l1 l2).mp h0
      rw [hlen, Nat.min_self] at ht
      have e1 : l1.take l2.length = l1 := by rw [← hlen]; exact List.take_length l1
      rw [e1, List.take_length] at ht
      exact ht
    · rw [if_neg h0] at h
      exact absurd h h0
  · intro h
    subst h
    exact compare_ranges_self l1

theorem compare_ranges_neg_iff (l1 l2 : List Ch) :
    compare_ranges l1 l2 < 0 ↔ List.Lex (· < ·) l1 l2 := by
  rw [← lex3_lt_iff_lex]
  simp only [compare_ranges]
  by_cases h0 : lex3 l1 l2 = 0
  · rw [if_pos h0, clamp_int_neg_iff, h0]
    constructor
    · intro h; right; exact ⟨rfl, by omega⟩
    · rintro (h | ⟨_, h⟩)
      · omega
      · omega
  · rw [if_neg h0]
    constructor
    · intro h; left; exact h
    · rintro (h | ⟨h, _⟩)
      · exact h
      · exact absurd h h0

omit [LinearOrder Ch] in
theorem basic_string_literal.content_eq_iff (x y : basic_string_literal Ch N) :
    x.content = y.content ↔ ∀ i, i < N → x.index i = y.index i := by
  constructor
  · intro h i hi
    obtain ⟨c, hc, hc2⟩ := x.index_eq_content i hi
    obtain ⟨d, hd, hd2⟩ := y.index_eq_content i hi
    rw [h, hd2] at hc2
    injection hc2 with hcd
    rw [hc, hd, hcd]
  · intro h
    apply List.ext_getElem?
    intro i
    by_cases hi : i < N
    · obtain ⟨c, hc, hc2⟩ := x.index_eq_content i hi
      obtain ⟨d, hd, hd2⟩ := y.index_eq_content i hi
      have := h i hi
      rw [hc, hd] at this
      injection this with hcd
      rw [hc2, hd2, hcd]
    · rw [List.getElem?_eq_none (by rw [x.content_length]; omega),
        List.getElem?_eq_none (by rw [y.content_length]; omega)]

/-- The comparison of two values of one length needs no bound on the length. -/
theorem basic_string_literal.compare_same_size (x y : basic_string_literal Ch N) :
    x.compare y = .ok (lex3 x.content y.content) := by
  obtain ⟨a1, a2, a3⟩ := x.view__props
  obtain ⟨b1, b2, b3⟩ := y.view_of_props
  have hc := constexpr_std_char_traits.compare_eq_lex3
    (min x.view_.size (basic_string_literal.view_of y).size) x.view_.data
    (basic_string_literal.view_of y).data
    (by simp only [string_view.valid, string_view.size, string_view.data] at *; omega)
    (by simp only [string_view.valid, string_view.size, string_view.data] at *; omega)
  have hz : to_difference_type (size_sub N N) = 0 := by
    simp only [to_difference_type, size_sub, SIZE_MOD, PTRDIFF_MAX]
    split_ifs <;> omega
  have hr : lex3 (x.view_.data.mem.take (min x.view_.size (basic_string_literal.view_of y).size))
      ((basic_string_literal.view_of y).data.mem.take
        (min x.view_.size (basic_string_literal.view_of y).size))
      = lex3 x.content y.content := by
    rw [a3, b3, Nat.min_self, ← a2, ← b2]
    simp only [string_view.range, string_view.data]
    rw [show x.view_.sz = N from a3, show (basic_string_literal.view_of y).sz = N from b3]
  rw [basic_string_literal.compare, basic_string_literal.compare_, hc, Result.bind_ok, hr,
    a3, b3, hz]
  by_cases h0 : lex3 x.content y.content = 0
  · simp [h0, INT_MAX, INT_MIN]
  · simp [h0]

/-- C5: `x == y` holds if and only if the two values have the same length
and the same character at every index below it; values of different lengths
are never equal. -/
theorem operator_eq_iff {n1 n2 : Nat} (x : basic_string_literal Ch n1)
    (y : basic_string_literal Ch n2) :
    ∃ b, operator_eq x y = .ok b ∧
      (b = true ↔ n1 = n2 ∧ ∀ i, i < n1 → x.index i = y.index i) := by
  by_cases h : n1 = n2
  · subst h
    refine ⟨decide (lex3 x.content y.content = 0), ?_, ?_⟩
    · simp [operator_eq, basic_string_literal.compare_same_size, Result.bind_ok]
    · rw [decide_eq_true_iff, ← basic_string_literal.content_eq_iff, lex3_eq_zero_iff,
        x.content_length, y.content_length, Nat.min_self]
      have e1 : x.content.take n1 = x.content :=
        List.take_of_length_le (le_of_eq x.content_length)
      have e2 : y.content.take n1 = y.content :=
        List.take_of_length_le (le_of_eq y.content_length)
      rw [e1, e2]
      simp
  · refine ⟨false, ?_, ?_⟩
    · simp [operator_eq, h]
    · simp [h]

/-- C6: `x.compare(y) < 0`, which is `x < y`, holds if and only if `x`
precedes `y` in the lexicographic order of the element ordering, a proper
leading part being ordered before the longer string; and `x.compare(y) == 0`
if and only if the two have the same length and content. -/
theorem compare_lexicographic {n1 n2 : Nat} (x : basic_string_literal Ch n1)
    (y : basic_string_literal Ch n2) (h1 : n1 ≤ PTRDIFF_MAX) (h2 : n2 ≤ PTRDIFF_MAX) :
    ∃ r, x.compare y = .ok r ∧ operator_lt x y = .ok (decide (r < 0)) ∧
      (r < 0 ↔ List.Lex (· < ·) x.content y.content) ∧
      (r = 0 ↔ n1 = n2 ∧ x.content = y.content) := by
  refine ⟨compare_ranges x.content y.content, x.compare_eq y h1 h2, ?_,
    compare_ranges_neg_iff _ _, ?_⟩
  · simp [operator_lt, x.compare_eq y h1 h2, Result.bind_ok]
  · rw [compare_ranges_eq_zero_iff]
    constructor
    · intro h
      refine ⟨?_, h⟩
      have := congrArg List.length h
      rwa [x.content_length, y.content_length] at this
    · exact fun h => h.2

theorem compare_lexicographic_witness :
    ∃ r, (lit "abc").compare (lit "abd") = .ok r ∧
      operator_lt (lit "abc") (lit "abd") = .ok (decide (r < 0)) ∧
      (r < 0 ↔ List.Lex (· < ·) (lit "abc").content (lit "abd").content) ∧
      (r = 0 ↔ (3 : Nat) = 3 ∧ (lit "abc").content = (lit "abd").content) :=
  compare_lexicographic (lit "abc") (lit "abd") (by decide) (by decide)

/-! ### Swapping the operands -/

theorem compare_ranges_swap_sign (l1 l2 : List Ch) :
    Int.sign (compare_ranges l1 l2) = -Int.sign (compare_ranges l2 l1) := by
  simp only [compare_ranges]
  rw [lex3_antisymm l2 l1]
  by_cases h0 : lex3 l1 l2 = 0
  · have e : (l2.length : Int) - l1.length = -((l1.length : Int) - l2.length) := by omega
    simp only [h0, neg_zero, if_true, clamp_int_sign, e, Int.sign_neg, neg_neg]
  · have h1 : ¬ (-lex3 l1 l2 = 0) := by omega
    simp only [h0, h1, if_false, Int.sign_neg, neg_neg]

theorem compare_ranges_swap (l1 l2 : List Ch)
    (ha : (l1.length : Int) - l2.length ≤ INT_MAX)
    (hb : (l2.length : Int) - l1.length ≤ INT_MAX) :
    compare_ranges l1 l2 = -compare_ranges l2 l1 := by
  simp only [compare_ranges]
  rw [lex3_antisymm l2 l1]
  by_cases h0 : lex3 l1 l2 = 0
  · simp only [h0, neg_zero, if_true]
    simp only [clamp_int, INT_MAX, INT_MIN] at *
    omega
  · have h1 : ¬ (-lex3 l1 l2 = 0) := by omega
    simp only [h0, h1, if_false, neg_neg]

/-- C8 (amended): for all values `a` and `b`, `a.compare(b)` and
`b.compare(a)` have opposite signs, and `a.compare(b) == -b.compare(a)`
whenever the two lengths differ by at most `INT_MAX`. -/
theorem compare_antisymmetry {n1 n2 : Nat} (a : basic_string_literal Ch n1)
    (b : basic_string_literal Ch n2) (h1 : n1 ≤ PTRDIFF_MAX) (h2 : n2 ≤ PTRDIFF_MAX) :
    ∃ r1 r2, a.compare b = .ok r1 ∧ b.compare a = .ok r2 ∧
      Int.sign r1 = -Int.sign r2 ∧
      ((n1 : Int) - n2 ≤ INT_MAX → (n2 : Int) - n1 ≤ INT_MAX → r1 = -r2) := by
  refine ⟨_, _, a.compare_eq b h1 h2, b.compare_eq a h2 h1, compare_ranges_swap_sign _ _, ?_⟩
  intro ha hb
  apply compare_ranges_swap
  · rw [a.content_length, b.content_length]; exact ha
  · rw [a.content_length, b.content_length]; exact hb

theorem compare_antisymmetry_witness :
    ∃ r1 r2, (lit "abcdef").compare (lit "a") = .ok r1 ∧
      (lit "a").compare (lit "abcdef") = .ok r2 ∧
      Int.sign r1 = -Int.sign r2 ∧
      (((6 : Nat) : Int) - (1 : Nat) ≤ INT_MAX → ((1 : Nat) : Int) - (6 : Nat) ≤ INT_MAX →
        r1 = -r2) :=
  compare_antisymmetry (lit "abcdef") (lit "a") (by decide) (by decide)

theorem compare_ranges_nil_left (l : List Ch) :
    compare_ranges [] l = clamp_int (-(l.length : Int)) := by
  simp [compare_ranges, lex3]

theorem compare_ranges_nil_right (l : List Ch) :
    compare_ranges l [] = clamp_int (l.length : Int) := by
  cases l <;> simp [compare_ranges, lex3]

omit [LinearOrder Ch] in
theorem basic_string_literal.content_eq_nil (x : basic_string_literal Ch 0) : x.content = [] :=
  List.length_eq_zero.mp x.content_length

/-- C8, as stated, fails: the empty value against a value of `2^31`
characters gives `INT_MIN`, the other way round `INT_MAX`, and `INT_MIN` is
not `-INT_MAX`. -/
theorem compare_antisymmetry_counterexample :
    ¬ ∃ r1 r2 : Int, (filled 0 (97 : Nat)).compare (filled 2147483648 (97 : Nat)) = .ok r1 ∧
      (filled 2147483648 (97 : Nat)).compare (filled 0 (97 : Nat)) = .ok r2 ∧ r1 = -r2 := by
  rintro ⟨r1, r2, h1, h2, h⟩
  have hb : (2147483648 : Nat) ≤ PTRDIFF_MAX := by simp [PTRDIFF_MAX]
  have hz : (0 : Nat) ≤ PTRDIFF_MAX := Nat.zero_le _
  rw [basic_string_literal.compare_eq _ _ hz hb, basic_string_literal.content_eq_nil,
    compare_ranges_nil_left, basic_string_literal.content_length] at h1
  rw [basic_string_literal.compare_eq _ _ hb hz, basic_string_literal.content_eq_nil,
    compare_ranges_nil_right, basic_string_literal.content_length] at h2
  injection h1 with h1
  injection h2 with h2
  simp only [clamp_int, INT_MAX, INT_MIN] at h1 h2
  omega

/-! ### Comparison of a value with itself -/

theorem List.takeWhile_append_stop {α : Type} (p : α → Bool) (l t : List α) (a : α)
    (hl : ∀ c ∈ l, p c = true) (ha : p a = false) : (l ++ a :: t).takeWhile p = l := by
  induction l with
  | nil => simp [List.takeWhile_cons, ha]
  | cons b l ih =>
    have hb : p b = true := hl b (List.mem_cons_self _ _)
    have hl2 : ∀ c ∈ l, p c = true := fun c hc => hl c (List.mem_cons_of_mem _ hc)
    simp [List.takeWhile_cons, hb, ih hl2]

omit [LinearOrder Ch] in
/-- The buffer of a zero-terminated value is its content followed by the
terminator. -/
theorem basic_string_literal.data_eq_content_append [Zero Ch] (x : basic_string_literal Ch N)
    (hz : x.zero_terminated) : x.data_ = x.content ++ [0] := by
  have hlen : N < x.data_.length := by rw [x.data_len]; omega
  have hd : x.data_.drop N = [0] := by
    rw [List.drop_eq_getElem_cons hlen, List.drop_eq_nil_of_le (by rw [x.data_len])]
    simp only [basic_string_literal.zero_terminated, List.getElem?_eq_getElem hlen] at hz
    injection hz with hz
    rw [hz]
  rw [basic_string_literal.content, ← hd, List.take_append_drop]

/-- The zero-terminated string at `c_str()` of a value without embedded
zeros is the content of the value. -/
theorem basic_string_literal.c_str_chars_data [Zero Ch] (x : basic_string_literal Ch N)
    (hz : x.zero_terminated) (hne : ∀ c ∈ x.content, c ≠ 0) :
    x.data.terminated ∧ x.data.c_str_chars = x.content := by
  have hd := x.data_eq_content_append hz
  constructor
  · simp only [Ptr.terminated, basic_string_literal.mem_data, hd]
    simp
  · simp only [Ptr.c_str_chars, basic_string_literal.mem_data]
    rw [hd]
    apply List.takeWhile_append_stop
    · intro c hc
      simpa using hne c hc
    · simp

omit [LinearOrder Ch] in
theorem basic_string_literal.sub_range_full (x : basic_string_literal Ch N) :
    x.sub_range 0 x.size = x.content := by
  simp only [basic_string_literal.sub_range, basic_string_literal.size, List.drop_zero]
  exact List.take_of_length_le (le_of_eq x.content_length)

/-- C9: for every value `x`, `x.compare(x) == 0`, and each overload that
names the full range explicitly returns 0 as well: `x.compare(0, size(), x)`,
`x.compare(0, size(), x, 0, size())` and `x.compare(0, size(), c_str, size())`
for every `x`, embedded zero characters included, and `x.compare(c_str)` and
`x.compare(0, size(), c_str)`, which read the string up to its first zero
character, for `x` without embedded zero characters (whose terminator slot
holds zero). -/
theorem compare_self [Zero Ch] (x : basic_string_literal Ch N) (hN : N < PTRDIFF_MAX) :
    x.compare x = .ok 0 ∧
    x.compare_sub 0 x.size x = .ok 0 ∧
    x.compare_sub_sub 0 x.size x 0 x.size = .ok 0 ∧
    x.compare_sub_buf 0 x.size x.data x.size = .ok 0 ∧
    (x.zero_terminated → (∀ c ∈ x.content, c ≠ 0) →
      x.compare_c_str x.data = .ok 0 ∧ x.compare_sub_c_str 0 x.size x.data = .ok 0) := by
  have hN2 : N ≤ PTRDIFF_MAX := le_of_lt hN
  have hl : x.data.arr.length ≤ PTRDIFF_MAX := by
    simp only [basic_string_literal.data, x.data_len]
    omega
  have hb : x.data.idx + x.size ≤ x.data.arr.length := by
    simp [basic_string_literal.data, basic_string_literal.size, x.data_len]
  have hs : x.size ≤ PTRDIFF_MAX := hN2
  refine ⟨?_, ?_, ?_, ?_, fun hz hne => ?_⟩
  · rw [x.compare_eq x hN2 hN2, compare_ranges_self]
  · rw [x.compare_sub_eq 0 x.size x hN2 hN2 (Nat.zero_le _), x.sub_range_full,
      compare_ranges_self]
  · rw [x.compare_sub_sub_eq 0 x.size x 0 x.size hN2 hN2 (Nat.zero_le _) (Nat.zero_le _)
      (Nat.zero_le _), x.sub_range_full, compare_ranges_self]
  · rw [x.compare_sub_buf_eq 0 x.size x.data x.size hN2 (Nat.zero_le _) hb hs,
      x.sub_range_full, x.take_mem_data, compare_ranges_self]
  · obtain ⟨ht, hc⟩ := x.c_str_chars_data hz hne
    refine ⟨?_, ?_⟩
    · rw [x.compare_c_str_eq x.data hN2 ht hl, hc, compare_ranges_self]
    · rw [x.compare_sub_c_str_eq 0 x.size x.data hN2 (Nat.zero_le _) ht hl, hc,
        x.sub_range_full, compare_ranges_self]

theorem compare_self_witness :
    (lit "42\x00").compare (lit "42\x00") = .ok 0 ∧
    (lit "42\x00").compare_sub 0 (lit "42\x00").size (lit "42\x00") = .ok 0 ∧
    (lit "42\x00").compare_sub_sub 0 (lit "42\x00").size (lit "42\x00") 0
      (lit "42\x00").size = .ok 0 ∧
    (lit "42\x00").compare_sub_buf 0 (lit "42\x00").size (lit "42\x00").data
      (lit "42\x00").size = .ok 0 ∧
    ((lit "42\x00").zero_terminated → (∀ c ∈ (lit "42\x00").content, c ≠ 0) →
      (lit "42\x00").compare_c_str (lit "42\x00").data = .ok 0 ∧
      (lit "42\x00").compare_sub_c_str 0 (lit "42\x00").size (lit "42\x00").data = .ok 0) :=
  compare_self (lit "42\x00") (by decide)

/-! ### Operators with the zero-terminated string on the left -/

/-- C7, at a string and a value of equal content (`"abc"` and
`lit("abc")`): the operators with the string on the left return
`s < v == true`, `s > v == true`, `s <= v == false` and `s >= v == false`,
while those with the value on the left return `v > s == false`,
`v < s == false`, `v >= s == true` and `v <= s == true`. -/
theorem c_str_left_operators_at_equal_content :
    operator_lt_c_str_value ⟨chars "abc", 0⟩ (lit "abc") = .ok true ∧
    operator_gt_value_c_str (lit "abc") ⟨chars "abc", 0⟩ = .ok false ∧
    operator_gt_c_str_value ⟨chars "abc", 0⟩ (lit "abc") = .ok true ∧
    operator_lt_value_c_str (lit "abc") ⟨chars "abc", 0⟩ = .ok false ∧
    operator_le_c_str_value ⟨chars "abc", 0⟩ (lit "abc") = .ok false ∧
    operator_ge_value_c_str (lit "abc") ⟨chars "abc", 0⟩ = .ok true ∧
    operator_ge_c_str_value ⟨chars "abc", 0⟩ (lit "abc") = .ok false ∧
    operator_le_value_c_str (lit "abc") ⟨chars "abc", 0⟩ = .ok true := by
  decide

/-! ### The position check of the five-argument overload -/

/-- C10, at two inputs: with `x = "abcdef"`, `str = "a"` and `pos2 = 3`,
beyond `str.size()`, the out-of-range condition is not raised and the
comparison reads outside of `str`; with `x = "a"`, `str = "abcdef"` and
`pos2 = 3`, inside of `str`, the out-of-range condition is raised.  The
position `pos2` is checked against the size of `x`. -/
theorem compare_sub_sub_checks_pos2_against_this :
    (lit "abcdef").compare_sub_sub 0 6 (lit "a") 3 1 = .undefined ∧
    (lit "abcdef").view_str (lit "a") 3 1 = .ok ⟨⟨chars "a", 3⟩, 1⟩ ∧
    (lit "a").compare_sub_sub 0 1 (lit "abcdef") 3 1 = .out_of_range := by
  decide

end comparison

/-! ## Comparison of a substring -/

section substring_comparison

open detail_

variable {Ch : Type} [LinearOrder Ch] [Zero Ch] {N M K : Nat}

/-- C11: for `pos1 <= size()`, `x.compare(pos1, n1, r)` is the comparison
of the substring `x[pos1 .. pos1 + min(n1, size() - pos1))` against `r`, for
`r` a value, a zero-terminated string `z` or a buffer `s` of `n2` characters
(which need not hold a zero character): it returns what the whole-string
comparison of any value `y` holding that substring returns. -/
theorem compare_sub_is_substring_compare (x : basic_string_literal Ch N)
    (y : basic_string_literal Ch K) (str : basic_string_literal Ch M) (pos1 n1 n2 : Nat)
    (s z : Ptr Ch) (hN : N ≤ PTRDIFF_MAX) (hM : M ≤ PTRDIFF_MAX) (h1 : pos1 ≤ N)
    (hy : y.content = x.sub_range pos1 n1) (hz : z.terminated)
    (hl : z.arr.length ≤ PTRDIFF_MAX) (hn2 : s.idx + n2 ≤ s.arr.length)
    (hn : n2 ≤ PTRDIFF_MAX) :
    (x.compare_sub pos1 n1 str = y.compare str ∧
      y.compare str = .ok (compare_ranges y.content str.content)) ∧
    (x.compare_sub_c_str pos1 n1 z = y.compare_c_str z ∧
      y.compare_c_str z = .ok (compare_ranges y.content z.c_str_chars)) ∧
    (x.compare_sub_buf pos1 n1 s n2 = y.compare_sub_buf 0 y.size s n2 ∧
      y.compare_sub_buf 0 y.size s n2 = .ok (compare_ranges y.content (s.mem.take n2))) := by
  have hK : K ≤ PTRDIFF_MAX := by
    have := x.length_sub_range_le pos1 n1
    rw [← hy, y.content_length] at this
    omega
  refine ⟨⟨?_, ?_⟩, ⟨?_, ?_⟩, ⟨?_, ?_⟩⟩
  · rw [x.compare_sub_eq pos1 n1 str hN hM h1, y.compare_eq str hK hM, hy]
  · exact y.compare_eq str hK hM
  · rw [x.compare_sub_c_str_eq pos1 n1 z hN h1 hz hl, y.compare_c_str_eq z hK hz hl, hy]
  · exact y.compare_c_str_eq z hK hz hl
  · rw [x.compare_sub_buf_eq pos1 n1 s n2 hN h1 hn2 hn,
      y.compare_sub_buf_eq 0 y.size s n2 hK (Nat.zero_le _) hn2 hn, y.sub_range_full, hy]
  · rw [y.compare_sub_buf_eq 0 y.size s n2 hK (Nat.zero_le _) hn2 hn, y.sub_range_full]

theorem compare_sub_is_substring_compare_witness :
    ((lit "abcdef").compare_sub 1 5 (lit "abcdef") = (lit "bcdef").compare (lit "abcdef") ∧
      (lit "bcdef").compare (lit "abcdef")
        = .ok (compare_ranges (lit "bcdef").content (lit "abcdef").content)) ∧
    ((lit "abcdef").compare_sub_c_str 1 5 ⟨chars "abcdef", 0⟩
        = (lit "bcdef").compare_c_str ⟨chars "abcdef", 0⟩ ∧
      (lit "bcdef").compare_c_str ⟨chars "abcdef", 0⟩
        = .ok (compare_ranges (lit "bcdef").content
            (⟨chars "abcdef", 0⟩ : Ptr Nat).c_str_chars)) ∧
    ((lit "abcdef").compare_sub_buf 1 5 ⟨[97, 98, 99, 100, 101, 102], 0⟩ 6
        = (lit "bcdef").compare_sub_buf 0 (lit "bcdef").size ⟨[97, 98, 99, 100, 101, 102], 0⟩ 6 ∧
      (lit "bcdef").compare_sub_buf 0 (lit "bcdef").size ⟨[97, 98, 99, 100, 101, 102], 0⟩ 6
        = .ok (compare_ranges (lit "bcdef").content
            ((⟨[97, 98, 99, 100, 101, 102], 0⟩ : Ptr Nat).mem.take 6))) :=
  compare_sub_is_substring_compare (lit "abcdef") (lit "bcdef") (lit "abcdef") 1 5 6
    ⟨[97, 98, 99, 100, 101, 102], 0⟩ ⟨chars "abcdef", 0⟩ (by decide) (by decide) (by decide)
    (by decide) (by unfold Ptr.terminated; decide) (by decide) (by decide) (by decide)

/-! ## Copy -/

/-- C12, at `s3 = "abcdef"`, a zero-initialised buffer of 6 characters,
`n = 4` and `pos = 0`: `copy` returns 0 and leaves the buffer unchanged;
it does not return 4 nor write `"abcd"`.  The count and the position reach
`view_` in each other's place. -/
theorem copy_swaps_count_and_position :
    (lit "abcdef").copy ⟨[0, 0, 0, 0, 0, 0], 0⟩ 4 0 = .ok ([0, 0, 0, 0, 0, 0], 0) ∧
    (lit "abcdef").copy ⟨[0, 0, 0, 0, 0, 0], 0⟩ 4 0 ≠ .ok ([97, 98, 99, 100, 0, 0], 4) ∧
    (lit "abcdef").view_sub 4 0 = .ok ⟨⟨chars "abcdef", 4⟩, 0⟩ := by
  decide

/-- C13, at `s3 = "abcdef"` and a zero-initialised buffer of 6 characters:
`copy(buf, 7, 0)`, with `pos = 0 <= size()`, raises the out-of-range
condition, and `copy(buf, 0, 7)`, with `pos = 7 > size()`, does not raise it
and copies the 6 characters.  The check is made on the count. -/
theorem copy_checks_count_not_position :
    (lit "abcdef").copy ⟨[0, 0, 0, 0, 0, 0], 0⟩ 7 0 = .out_of_range ∧
    (lit "abcdef").copy ⟨[0, 0, 0, 0, 0, 0], 0⟩ 0 7 = .ok ([97, 98, 99, 100, 101, 102], 6) := by
  decide

end substring_comparison

/-! ## Search for a character -/

section character_search

open detail_

variable {Ch : Type} [LinearOrder Ch] {N : Nat}

omit [LinearOrder Ch] in
theorem basic_string_literal.content_getElem? (x : basic_string_literal Ch N) (i : Nat) :
    x.content[i]? = if i < N then x.data_[i]? else none := by
  simp only [basic_string_literal.content, List.getElem?_take]

omit [LinearOrder Ch] in
theorem basic_string_literal.data_getElem_lt (x : basic_string_literal Ch N) (i : Nat)
    (h : i ≤ N) : ∃ a, x.data_[i]? = some a := by
  have hl : i < x.data_.length := by rw [x.data_len]; omega
  exact ⟨x.data_.get ⟨i, hl⟩, by simp [List.getElem?_eq_getElem hl]⟩

/-- The scan of the traits `find`: a pointer to the first element equal to
`ch` among the `n` elements from `p` on, or the null pointer. -/
theorem detail_.constexpr_std_char_traits.find_spec (ch : Ch) (n : Nat) :
    ∀ p : Ptr Ch, p.idx + n ≤ p.arr.length →
      (∃ j, constexpr_std_char_traits.find p ch n = .ok (some ⟨p.arr, j⟩) ∧
          p.idx ≤ j ∧ j < p.idx + n ∧ p.arr[j]? = some ch ∧
          ∀ i, p.idx ≤ i → i < j → p.arr[i]? ≠ some ch) ∨
        (constexpr_std_char_traits.find p ch n = .ok none ∧
          ∀ i, p.idx ≤ i → i < p.idx + n → p.arr[i]? ≠ some ch) := by
  induction n with
  | zero =>
    intro p _
    right
    exact ⟨rfl, fun i h1 h2 => by omega⟩
  | succ n ih =>
    intro p hp
    have hlt : p.idx < p.arr.length := by omega
    have hd : p.arr[p.idx]? = some (p.arr.get ⟨p.idx, hlt⟩) := by
      simp [List.getElem?_eq_getElem hlt]
    by_cases hc : p.arr.get ⟨p.idx, hlt⟩ = ch
    · left
      refine ⟨p.idx, ?_, le_refl _, by omega, by rw [hd, hc], fun i h1 h2 => by omega⟩
      have e : char_traits_eq (p.arr.get ⟨p.idx, hlt⟩) ch = true := decide_eq_true hc
      rw [constexpr_std_char_traits.find, Ptr.deref_of_lt p hlt]
      simp only [e, if_true]
    · have e : char_traits_eq (p.arr.get ⟨p.idx, hlt⟩) ch = false := decide_eq_false hc
      have hstep : constexpr_std_char_traits.find p ch (n + 1)
          = constexpr_std_char_traits.find (p.add 1) ch n := by
        rw [constexpr_std_char_traits.find, Ptr.deref_of_lt p hlt]
        simp only [e, Bool.false_eq_true, if_false]
      have hne : p.arr[p.idx]? ≠ some ch := by
        rw [hd]
        intro h
        injection h with h
        exact hc h
      rcases ih (p.add 1) (by simp only [Ptr.add]; omega) with ⟨j, hj, h1, h2, h3, h4⟩ | ⟨hj, h4⟩
      · left
        rw [← hstep] at hj
        simp only [Ptr.add] at hj h1 h2 h3 h4
        refine ⟨j, hj, by omega, by omega, h3, fun i hi1 hi2 => ?_⟩
        by_cases hi : i = p.idx
        · rw [hi]; exact hne
        · exact h4 i (by omega) hi2
      · right
        rw [← hstep] at hj
        simp only [Ptr.add] at h4
        refine ⟨hj, fun i hi1 hi2 => ?_⟩
        by_cases hi : i = p.idx
        · rw [hi]; exact hne
        · exact h4 i (by omega) (by omega)

/-- The result of `find(c, pos)` for a position in range. -/
theorem basic_string_literal.find_char_core (x : basic_string_literal Ch N) (c : Ch)
    (pos : Nat) (hpos : pos ≤ N) :
    ∃ r, x.find_char c pos = .ok r ∧
      ((r = npos ∧ ∀ i, pos ≤ i → i < N → x.data_[i]? ≠ some c) ∨
        (pos ≤ r ∧ r < N ∧ x.data_[r]? = some c ∧
          ∀ i, pos ≤ i → i < r → x.data_[i]? ≠ some c)) := by
  by_cases hlt : pos < N
  · have hb : (x.data.add pos).idx + (N - pos) ≤ (x.data.add pos).arr.length := by
      simp only [basic_string_literal.data, Ptr.add, x.data_len]
      omega
    rcases constexpr_std_char_traits.find_spec c (N - pos) (x.data.add pos) hb with
      ⟨j, hj, h1, h2, h3, h4⟩ | ⟨hj, h4⟩
    · simp only [basic_string_literal.data, Ptr.add, Nat.zero_add] at h1 h2 h3 h4
      refine ⟨j, ?_, Or.inr ⟨h1, by omega, h3, h4⟩⟩
      simp only [basic_string_literal.find_char, basic_string_literal.size, hpos, hlt,
        if_true, Result.bind_ok, hj]
      simp [basic_string_literal.data, Ptr.add]
    · simp only [basic_string_literal.data, Ptr.add, Nat.zero_add] at h4
      refine ⟨npos, ?_, Or.inl ⟨rfl, fun i hi1 hi2 => h4 i hi1 (by omega)⟩⟩
      simp only [basic_string_literal.find_char, basic_string_literal.size, hpos, hlt,
        if_true, Result.bind_ok, hj]
  · refine ⟨npos, ?_, Or.inl ⟨rfl, fun i hi1 hi2 => by omega⟩⟩
    simp only [basic_string_literal.find_char, basic_string_literal.size, hpos, hlt,
      if_true, if_false, Result.bind_ok]

theorem npos_gt_ptrdiff_max (n : Nat) (h : n ≤ PTRDIFF_MAX) : n < npos := by
  simp only [PTRDIFF_MAX, npos] at *
  omega

/-- C14: for `pos <= N`, `find(c, pos)` returns the smallest index `i`
with `pos <= i < N` and `s[i] == c`, or `npos` when there is no such index. -/
theorem find_char_smallest (x : basic_string_literal Ch N) (c : Ch) (pos : Nat)
    (hN : N ≤ PTRDIFF_MAX) (hpos : pos ≤ N) :
    ∃ r, x.find_char c pos = .ok r ∧
      smallest_or_npos (fun i => x.content[i]? = some c) pos r := by
  obtain ⟨r, hr, h⟩ := x.find_char_core c pos hpos
  refine ⟨r, hr, ?_⟩
  rcases h with ⟨h1, h2⟩ | ⟨h1, h2, h3, h4⟩
  · left
    refine ⟨h1, fun i hi => ?_⟩
    beta_reduce
    rw [x.content_getElem?]
    by_cases hiN : i < N
    · rw [if_pos hiN]; exact h2 i hi hiN
    · rw [if_neg hiN]; simp
  · right
    have hne : r ≠ npos := by
      have := npos_gt_ptrdiff_max N hN
      omega
    refine ⟨hne, h1, ?_, fun i hi1 hi2 => ?_⟩
    · beta_reduce
      rw [x.content_getElem?, if_pos h2]
      exact h3
    · beta_reduce
      rw [x.content_getElem?, if_pos (by omega)]
      exact h4 i hi1 hi2

theorem find_char_smallest_witness :
    ∃ r, (lit "abcdefabc").find_char 97 1 = .ok r ∧
      smallest_or_npos (fun i => (lit "abcdefabc").content[i]? = some 97) 1 r :=
  find_char_smallest (lit "abcdefabc") 97 1 (by decide) (by decide)

/-- When `find(c, pos)` raises the out-of-range condition. -/
theorem find_char_out_of_range_iff (x : basic_string_literal Ch N) (c : Ch) (pos : Nat) :
    x.find_char c pos = .out_of_range ↔ N < pos := by
  constructor
  · intro h
    by_contra hc
    obtain ⟨r, hr, _⟩ := x.find_char_core c pos (not_lt.mp hc)
    rw [hr] at h
    exact Result.noConfusion h
  · intro h
    have h1 : ¬ pos ≤ N := not_le.mpr h
    simp [basic_string_literal.find_char, basic_string_literal.size, h1,
      basic_string_literal.throw_out_of_range_, Result.bind]

/-- C15: `find(c, pos)` raises the out-of-range condition exactly when
`pos > size()`; for `pos == size()` it returns `npos`. -/
theorem find_char_out_of_range (x : basic_string_literal Ch N) (c : Ch) (pos : Nat) :
    (x.find_char c pos = .out_of_range ↔ N < pos) ∧ x.find_char c N = .ok npos := by
  refine ⟨⟨fun h => ?_, fun h => ?_⟩, ?_⟩
  · by_contra hc
    obtain ⟨r, hr, _⟩ := x.find_char_core c pos (not_lt.mp hc)
    rw [hr] at h
    exact Result.noConfusion h
  · have h1 : ¬ pos ≤ N := not_le.mpr h
    simp [basic_string_literal.find_char, basic_string_literal.size, h1,
      basic_string_literal.throw_out_of_range_, Result.bind]
  · simp [basic_string_literal.find_char, basic_string_literal.size, Result.bind]

/-- The backward scan of `rfind(c, pos)` from `n - 1` down to 0, for `n`
inside of the value. -/
theorem basic_string_literal.rfind_char_loop_spec (x : basic_string_literal Ch N) (c : Ch)
    (n : Nat) (hn : n ≤ N) :
    ∃ r, x.rfind_char_loop c n = .ok r ∧
      ((r = npos ∧ ∀ i, i < n → x.data_[i]? ≠ some c) ∨
        (r < n ∧ x.data_[r]? = some c ∧ ∀ i, r < i → i < n → x.data_[i]? ≠ some c)) := by
  induction n with
  | zero => exact ⟨npos, rfl, Or.inl ⟨rfl, fun i hi => by omega⟩⟩
  | succ n ih =>
    obtain ⟨a, ha⟩ := x.data_getElem_lt n (by omega)
    by_cases hc : a = c
    · have e : char_traits_eq a c = true := decide_eq_true hc
      refine ⟨n, ?_, Or.inr ⟨by omega, by rw [ha, hc], fun i h1 h2 => by omega⟩⟩
      rw [basic_string_literal.rfind_char_loop, ha]
      simp only [e, if_true]
    · have e : char_traits_eq a c = false := decide_eq_false hc
      have hne : x.data_[n]? ≠ some c := by
        rw [ha]
        intro h
        injection h with h
        exact hc h
      have hstep : x.rfind_char_loop c (n + 1) = x.rfind_char_loop c n := by
        rw [basic_string_literal.rfind_char_loop, ha]
        simp only [e, Bool.false_eq_true, if_false]
      obtain ⟨r, hr, h⟩ := ih (by omega)
      refine ⟨r, by rw [hstep, hr], ?_⟩
      rcases h with ⟨h1, h2⟩ | ⟨h1, h2, h3⟩
      · left
        refine ⟨h1, fun i hi => ?_⟩
        by_cases hin : i = n
        · rw [hin]; exact hne
        · exact h2 i (by omega)
      · right
        refine ⟨by omega, h2, fun i hi1 hi2 => ?_⟩
        by_cases hin : i = n
        · rw [hin]; exact hne
        · exact h3 i hi1 (by omega)

/-- C18: `rfind(c, pos)` returns the greatest index `i <= min(pos, N-1)`
with `s[i] == c`, or `npos` when there is none, and always `npos` when
`N == 0`; a returned index is never greater than `min(pos, size()-1)`. -/
theorem rfind_char_greatest (x : basic_string_literal Ch N) (c : Ch) (pos : Nat)
    (hN : N ≤ PTRDIFF_MAX) :
    ∃ r, x.rfind_char c pos = .ok r ∧
      greatest_or_npos (fun i => x.content[i]? = some c) (min pos (N - 1)) r ∧
      (N = 0 → r = npos) ∧ (r ≠ npos → r ≤ min pos (N - 1)) := by
  by_cases h0 : N = 0
  · subst h0
    refine ⟨npos, by simp [basic_string_literal.rfind_char, basic_string_literal.size],
      Or.inl ⟨rfl, fun i _ => ?_⟩, fun _ => rfl, fun h => absurd rfl h⟩
    beta_reduce
    rw [x.content_getElem?]
    simp
  · have hpos : 0 < N := Nat.pos_of_ne_zero h0
    have hb : (if N - 1 > pos then pos else N - 1) = min pos (N - 1) := by
      split_ifs <;> omega
    obtain ⟨r, hr, h⟩ := x.rfind_char_loop_spec c (min pos (N - 1) + 1) (by omega)
    have hres : x.rfind_char c pos = .ok r := by
      simp only [basic_string_literal.rfind_char, basic_string_literal.size, gt_iff_lt, hpos,
        if_true]
      rw [hb, hr]
    rcases h with ⟨h1, h2⟩ | ⟨h1, h2, h3⟩
    · refine ⟨r, hres, Or.inl ⟨h1, fun i hi => ?_⟩, fun h => absurd h h0,
        fun h => absurd h1 h⟩
      beta_reduce
      rw [x.content_getElem?, if_pos (by omega)]
      exact h2 i (by omega)
    · have hne : r ≠ npos := by
        have := npos_gt_ptrdiff_max N hN
        omega
      refine ⟨r, hres, Or.inr ⟨hne, by omega, ?_, fun i hi1 hi2 => ?_⟩, fun h => absurd h h0,
        fun _ => by omega⟩
      · beta_reduce
        rw [x.content_getElem?, if_pos (by omega)]
        exact h2
      · beta_reduce
        rw [x.content_getElem?, if_pos (by omega)]
        exact h3 i hi1 (by omega)

theorem rfind_char_greatest_witness :
    ∃ r, (lit "abcdefabc").rfind_char 97 5 = .ok r ∧
      greatest_or_npos (fun i => (lit "abcdefabc").content[i]? = some 97) (min 5 (9 - 1)) r ∧
      ((9 : Nat) = 0 → r = npos) ∧ (r ≠ npos → r ≤ min 5 (9 - 1)) :=
  rfind_char_greatest (lit "abcdefabc") 97 5 (by decide)

end character_search

/-! ## Search for a needle -/

section needle_search

open detail_

variable {Ch : Type} [LinearOrder Ch] {N M : Nat}

theorem lex3_eq_zero_iff_eq (l1 l2 : List Ch) (h : l1.length = l2.length) :
    lex3 l1 l2 = 0 ↔ l1 = l2 := by
  rw [lex3_eq_zero_iff, h, Nat.min_self, List.take_of_length_le (le_of_eq h), List.take_length]

theorem List.take_drop_succ {α : Type} (l : List α) (p k : Nat) (a : α) (h : l[p]? = some a) :
    (l.drop p).take (k + 1) = a :: (l.drop (p + 1)).take k := by
  obtain ⟨hlt, ha⟩ := List.getElem?_eq_some.mp h
  rw [List.drop_eq_getElem_cons hlt, List.take_succ_cons, ha]

omit [LinearOrder Ch] in
theorem basic_string_literal.content_slice (x : basic_string_literal Ch N) (p m : Nat)
    (h : p + m ≤ N) : (x.content.drop p).take m = (x.data_.drop p).take m := by
  apply List.ext_getElem?
  intro i
  simp only [basic_string_literal.content, List.getElem?_take, List.getElem?_drop]
  by_cases hi : i < m
  · have h2 : p + i < N := by omega
    simp [hi, h2]
  · simp [hi]

omit [LinearOrder Ch] in
/-- An occurrence of `t` at `p`, read off the buffer. -/
theorem basic_string_literal.occurs_at_iff (x : basic_string_literal Ch N) (t : List Ch)
    (p : Nat) (h : p + t.length ≤ N) :
    occurs_at x.content t p ↔ (x.data_.drop p).take t.length = t := by
  simp only [occurs_at, x.content_length, h, true_and, x.content_slice p t.length h]

omit [LinearOrder Ch] in
theorem occurs_at_bound (s t : List Ch) (i : Nat) (h : occurs_at s t i) :
    i + t.length ≤ s.length := h.1

/-- One step of the loop of `find_` at a position where the needle fits. -/
theorem basic_string_literal.find_loop_succ (x : basic_string_literal Ch N)
    (v : string_view Ch) (hv : v.valid) (hm : 0 < v.sz) (pos k : Nat) (hp : pos + v.sz ≤ N) :
    x.find_loop v pos (k + 1)
      = if occurs_at x.content v.range pos then .ok pos else x.find_loop v (pos + 1) k := by
  obtain ⟨s, sz⟩ := v
  cases sz with
  | zero => exact absurd hm (Nat.lt_irrefl 0)
  | succ m =>
    simp only [string_view.valid] at hv hp
    obtain ⟨a, ha⟩ := x.data_getElem_lt pos (by omega)
    have hslt : s.idx < s.arr.length := by omega
    have hb := Ptr.deref_of_lt s hslt
    have hb2 : s.arr[s.idx]? = some (s.arr.get ⟨s.idx, hslt⟩) := by
      simp [List.getElem?_eq_getElem hslt]
    have hcmp := constexpr_std_char_traits.compare_eq_lex3 m (x.data.add (pos + 1)) (s.add 1)
      (by simp only [basic_string_literal.data, Ptr.add, x.data_len]; omega)
      (by simp only [Ptr.add]; omega)
    have hrange : (⟨s, m + 1⟩ : string_view Ch).range
        = s.arr.get ⟨s.idx, hslt⟩ :: (s.add 1).mem.take m := by
      simp only [string_view.range, Ptr.mem, Ptr.add]
      exact List.take_drop_succ _ _ _ _ hb2
    have hslice : (x.data_.drop pos).take (m + 1) = a :: (x.data.add (pos + 1)).mem.take m := by
      simp only [basic_string_literal.data, Ptr.mem, Ptr.add, Nat.zero_add]
      exact List.take_drop_succ _ _ _ _ ha
    have hlenr : (⟨s, m + 1⟩ : string_view Ch).range.length = m + 1 :=
      string_view.length_range _ hv
    have hocc : occurs_at x.content (⟨s, m + 1⟩ : string_view Ch).range pos ↔
        a = s.arr.get ⟨s.idx, hslt⟩ ∧
          lex3 ((x.data.add (pos + 1)).mem.take m) ((s.add 1).mem.take m) = 0 := by
      have hl1 : ((x.data.add (pos + 1)).mem.take m).length = m := by
        apply Ptr.length_take_mem
        simp only [basic_string_literal.data, Ptr.add, x.data_len]
        omega
      have hl2 : ((s.add 1).mem.take m).length = m := by
        apply Ptr.length_take_mem
        simp only [Ptr.add]
        omega
      rw [x.occurs_at_iff _ pos (by rw [hlenr]; exact hp), hlenr, hslice, hrange,
        List.cons.injEq, lex3_eq_zero_iff_eq _ _ (by rw [hl1, hl2])]
    rw [basic_string_literal.find_loop, ha, hb]
    simp only [string_view.data, string_view.size, Nat.add_sub_cancel, hcmp]
    by_cases h1 : a = s.arr.get ⟨s.idx, hslt⟩
    · have e : char_traits_eq a (s.arr.get ⟨s.idx, hslt⟩) = true := decide_eq_true h1
      simp only [e, if_true]
      by_cases h2 : lex3 ((x.data.add (pos + 1)).mem.take m) ((s.add 1).mem.take m) = 0
      · rw [if_pos h2, if_pos (hocc.mpr ⟨h1, h2⟩)]
      · rw [if_neg h2, if_neg (fun h => h2 (hocc.mp h).2)]
    · have e : char_traits_eq a (s.arr.get ⟨s.idx, hslt⟩) = false := decide_eq_false h1
      simp only [e, Bool.false_eq_true, if_false]
      rw [if_neg (fun h => h1 (hocc.mp h).1)]

/-- The loop of `find_` over the positions `pos, ..., N - m`. -/
theorem basic_string_literal.find_loop_spec (x : basic_string_literal Ch N)
    (v : string_view Ch) (hv : v.valid) (hm : 0 < v.sz) (hmN : v.sz ≤ N) :
    ∀ k pos, pos + k = N - v.sz + 1 →
      ∃ r, x.find_loop v pos k = .ok r ∧
        ((r = npos ∧ ∀ i, pos ≤ i → ¬ occurs_at x.content v.range i) ∨
          (pos ≤ r ∧ r + v.sz ≤ N ∧ occurs_at x.content v.range r ∧
            ∀ i, pos ≤ i → i < r → ¬ occurs_at x.content v.range i)) := by
  have hlen : v.range.length = v.sz := string_view.length_range v hv
  intro k
  induction k with
  | zero =>
    intro pos hpos
    refine ⟨npos, rfl, Or.inl ⟨rfl, fun i hi hocc => ?_⟩⟩
    have := occurs_at_bound _ _ _ hocc
    rw [hlen, x.content_length] at this
    omega
  | succ k ih =>
    intro pos hpos
    have hp : pos + v.sz ≤ N := by omega
    rw [x.find_loop_succ v hv hm pos k hp]
    by_cases hocc : occurs_at x.content v.range pos
    · rw [if_pos hocc]
      exact ⟨pos, rfl, Or.inr ⟨le_refl _, hp, hocc, fun i h1 h2 => by omega⟩⟩
    · rw [if_neg hocc]
      obtain ⟨r, hr, h⟩ := ih (pos + 1) (by omega)
      refine ⟨r, hr, ?_⟩
      rcases h with ⟨h1, h2⟩ | ⟨h1, h2, h3, h4⟩
      · left
        refine ⟨h1, fun i hi => ?_⟩
        by_cases hip : i = pos
        · rw [hip]; exact hocc
        · exact h2 i (by omega)
      · right
        refine ⟨by omega, h2, h3, fun i hi1 hi2 => ?_⟩
        by_cases hip : i = pos
        · rw [hip]; exact hocc
        · exact h4 i (by omega) hi2

/-- The result of `find_` for a non-empty needle inside of its array. -/
theorem basic_string_literal.find__spec (x : basic_string_literal Ch N) (v : string_view Ch)
    (hv : v.valid) (hm : 0 < v.sz) (pos : Nat) (hN : N ≤ PTRDIFF_MAX) :
    ∃ r, x.find_ v pos = .ok r ∧ smallest_or_npos (occurs_at x.content v.range) pos r ∧
      (N < pos → r = npos) := by
  have hlen : v.range.length = v.sz := string_view.length_range v hv
  have hnpos := npos_gt_ptrdiff_max N hN
  have hne : ¬ v.sz = 0 := by omega
  have hnone : ∀ r, x.find_ v pos = .ok r → r = npos →
      (∀ i, pos ≤ i → ¬ occurs_at x.content v.range i) →
      ∃ r, x.find_ v pos = .ok r ∧ smallest_or_npos (occurs_at x.content v.range) pos r ∧
        (N < pos → r = npos) :=
    fun r hr h1 h2 => ⟨r, hr, Or.inl ⟨h1, h2⟩, fun _ => h1⟩
  by_cases hmN : v.sz ≤ N
  · have hfind : x.find_ v pos = x.find_loop v pos (N - v.sz + 1 - pos) := by
      simp only [basic_string_literal.find_, string_view.size, hne, if_false,
        basic_string_literal.size, hmN, if_true]
    by_cases hpos : pos ≤ N - v.sz + 1
    · obtain ⟨r, hr, h⟩ := x.find_loop_spec v hv hm hmN (N - v.sz + 1 - pos) pos (by omega)
      rw [← hfind] at hr
      rcases h with ⟨h1, h2⟩ | ⟨h1, h2, h3, h4⟩
      · exact hnone r hr h1 h2
      · exact ⟨r, hr, Or.inr ⟨by omega, h1, h3, h4⟩, fun h => by omega⟩
    · have hk : N - v.sz + 1 - pos = 0 := by omega
      rw [hk] at hfind
      refine hnone npos hfind rfl (fun i hi hocc => ?_)
      have := occurs_at_bound _ _ _ hocc
      rw [hlen, x.content_length] at this
      omega
  · have hfind : x.find_ v pos = .ok npos := by
      simp only [basic_string_literal.find_, string_view.size, hne, if_false,
        basic_string_literal.size, hmN]
    refine hnone npos hfind rfl (fun i hi hocc => ?_)
    have := occurs_at_bound _ _ _ hocc
    rw [hlen, x.content_length] at this
    omega

/-- C16: for a non-empty needle `t` of length `m` (a value, a buffer of
`n` characters or a zero-terminated string) and every `pos`, `find(t, pos)`
returns the smallest index `i >= pos` with `i + m <= N` and
`s[i .. i+m) == t`, or `npos` when there is no such index; it always returns
a value, and `npos` for every `pos > N`.  The buffer
`s` of `n` characters and the zero-terminated string `z` are two operands of
their own: the buffer need not hold a zero character. -/
theorem find_needle_smallest [Zero Ch] (x : basic_string_literal Ch N)
    (str : basic_string_literal Ch M) (s z : Ptr Ch) (n pos : Nat) (hN : N ≤ PTRDIFF_MAX)
    (hM : 0 < M) (hn : 0 < n) (hsn : s.idx + n ≤ s.arr.length) (hz : z.terminated)
    (hc : z.c_str_chars ≠ []) :
    (∃ r, x.find str pos = .ok r ∧
      smallest_or_npos (occurs_at x.content str.content) pos r ∧ (N < pos → r = npos)) ∧
    (∃ r, x.find_buf s pos n = .ok r ∧
      smallest_or_npos (occurs_at x.content (s.mem.take n)) pos r ∧ (N < pos → r = npos)) ∧
    (∃ r, x.find_c_str z pos = .ok r ∧
      smallest_or_npos (occurs_at x.content z.c_str_chars) pos r ∧ (N < pos → r = npos)) := by
  refine ⟨?_, ?_, ?_⟩
  · obtain ⟨a1, a2, a3⟩ := str.view_of_props
    have h := x.find__spec (basic_string_literal.view_of str) a1
      (by rw [show (basic_string_literal.view_of str).sz = M from a3]; exact hM) pos hN
    rw [a2] at h
    exact h
  · exact x.find__spec ⟨s, n⟩ hsn hn pos hN
  · obtain ⟨v, hv, b1, b2, b3⟩ := string_view.of_c_str_props z hz
    have hpos : 0 < v.sz := by
      rw [show v.sz = z.c_str_chars.length from b3]
      exact List.length_pos.mpr hc
    have h := x.find__spec v b1 hpos pos hN
    rw [b2] at h
    simpa only [basic_string_literal.find_c_str, hv, Result.bind_ok] using h

theorem find_needle_smallest_witness :
    (∃ r, (lit "abcdefabc").find (lit "abc") 1 = .ok r ∧
      smallest_or_npos (occurs_at (lit "abcdefabc").content (lit "abc").content) 1 r ∧
      (9 < 1 → r = npos)) ∧
    (∃ r, (lit "abcdefabc").find_buf ⟨[97, 120], 0⟩ 1 1 = .ok r ∧
      smallest_or_npos
        (occurs_at (lit "abcdefabc").content ((⟨[97, 120], 0⟩ : Ptr Nat).mem.take 1)) 1 r ∧
      (9 < 1 → r = npos)) ∧
    (∃ r, (lit "abcdefabc").find_c_str ⟨chars "ax", 0⟩ 1 = .ok r ∧
      smallest_or_npos
        (occurs_at (lit "abcdefabc").content (⟨chars "ax", 0⟩ : Ptr Nat).c_str_chars) 1 r ∧
      (9 < 1 → r = npos)) :=
  find_needle_smallest (lit "abcdefabc") (lit "abc") ⟨[97, 120], 0⟩ ⟨chars "ax", 0⟩ 1 1
    (by decide)
    (by decide) (by decide) (by decide) (by unfold Ptr.terminated; decide) (by decide)

/-- The result of `find_` for an empty needle. -/
theorem basic_string_literal.find__empty (x : basic_string_literal Ch N) (v : string_view Ch)
    (h : v.sz = 0) (p : Nat) : x.find_ v p = .ok (if p ≤ N then p else npos) := by
  simp only [basic_string_literal.find_, string_view.size, h, if_true, basic_string_literal.size]

/-- C17: `find` of the empty needle (a value of length 0, 0 characters of
any buffer `s`, or a zero-terminated string `z` without characters) at offset
`p` returns `p` when `p <= size()` and `npos` when `p > size()`. -/
theorem find_empty_needle [Zero Ch] (x : basic_string_literal Ch N)
    (str : basic_string_literal Ch 0) (s z : Ptr Ch) (p : Nat) (hz : z.terminated)
    (he : z.c_str_chars = []) :
    x.find str p = .ok (if p ≤ N then p else npos) ∧
    x.find_buf s p 0 = .ok (if p ≤ N then p else npos) ∧
    x.find_c_str z p = .ok (if p ≤ N then p else npos) := by
  refine ⟨x.find__empty _ rfl p, x.find__empty _ rfl p, ?_⟩
  obtain ⟨v, hv, _, _, b3⟩ := string_view.of_c_str_props z hz
  have h0 : v.sz = 0 := by
    rw [show v.sz = z.c_str_chars.length from b3, he]
    rfl
  rw [basic_string_literal.find_c_str, hv, Result.bind_ok, x.find__empty v h0 p]

theorem find_empty_needle_witness :
    (lit "abc").find (lit "") 3 = .ok (if 3 ≤ 3 then 3 else npos) ∧
    (lit "abc").find_buf ⟨[97, 120], 0⟩ 3 0 = .ok (if 3 ≤ 3 then 3 else npos) ∧
    (lit "abc").find_c_str ⟨chars "", 0⟩ 3 = .ok (if 3 ≤ 3 then 3 else npos) :=
  find_empty_needle (lit "abc") (lit "") ⟨[97, 120], 0⟩ ⟨chars "", 0⟩ 3
    (by unfold Ptr.terminated; decide) (by decide)

/-- The comparison `compare(data_ + p, str.data(), str.size())` of `rfind_`
is zero exactly when the needle occurs at `p`. -/
theorem basic_string_literal.compare_at (x : basic_string_literal Ch N) (v : string_view Ch)
    (hv : v.valid) (p : Nat) (hp : p + v.sz ≤ N) :
    ∃ r, constexpr_std_char_traits.compare (x.data.add p) v.data v.size = .ok r ∧
      (r = 0 ↔ occurs_at x.content v.range p) := by
  have hlen : v.range.length = v.sz := string_view.length_range v hv
  have hb : (x.data.add p).idx + v.sz ≤ (x.data.add p).arr.length := by
    simp only [basic_string_literal.data, Ptr.add, x.data_len]
    omega
  have hcmp := constexpr_std_char_traits.compare_eq_lex3 v.sz (x.data.add p) v.s hb hv
  have hl1 : ((x.data.add p).mem.take v.sz).length = v.sz := Ptr.length_take_mem _ _ hb
  have hl2 : (v.s.mem.take v.sz).length = v.sz := Ptr.length_take_mem _ _ hv
  have hmem : (x.data.add p).mem = x.data_.drop p := by
    simp only [basic_string_literal.data, Ptr.add, Ptr.mem, Nat.zero_add]
  refine ⟨_, hcmp, ?_⟩
  rw [lex3_eq_zero_iff_eq _ _ (by rw [hl1, hl2]),
    x.occurs_at_iff v.range p (by rw [hlen]; exact hp), hlen, hmem]
  rfl

/-- The loop of `rfind_` from `pos` down to 0. -/
theorem basic_string_literal.rfind_loop_spec (x : basic_string_literal Ch N)
    (v : string_view Ch) (hv : v.valid) :
    ∀ pos, pos + v.sz ≤ N →
      ∃ r, x.rfind_loop v pos = .ok r ∧
        ((r = npos ∧ ∀ i, i ≤ pos → ¬ occurs_at x.content v.range i) ∨
          (r ≤ pos ∧ occurs_at x.content v.range r ∧
            ∀ i, r < i → i ≤ pos → ¬ occurs_at x.content v.range i)) := by
  intro pos
  induction pos with
  | zero =>
    intro hp
    obtain ⟨c, hc, hiff⟩ := x.compare_at v hv 0 hp
    rw [basic_string_literal.rfind_loop, hc]
    by_cases h0 : c = 0
    · simp only [h0, if_true]
      exact ⟨0, rfl, Or.inr ⟨le_refl _, hiff.mp h0, fun i h1 h2 => by omega⟩⟩
    · simp only [h0, if_false]
      refine ⟨npos, rfl, Or.inl ⟨rfl, fun i hi hocc => ?_⟩⟩
      have hi0 : i = 0 := by omega
      rw [hi0] at hocc
      exact h0 (hiff.mpr hocc)
  | succ pos ih =>
    intro hp
    obtain ⟨c, hc, hiff⟩ := x.compare_at v hv (pos + 1) hp
    rw [basic_string_literal.rfind_loop, hc]
    by_cases h0 : c = 0
    · simp only [h0, if_true]
      exact ⟨pos + 1, rfl, Or.inr ⟨le_refl _, hiff.mp h0, fun i h1 h2 => by omega⟩⟩
    · simp only [h0, if_false]
      obtain ⟨r, hr, h⟩ := ih (by omega)
      refine ⟨r, hr, ?_⟩
      have hno : ¬ occurs_at x.content v.range (pos + 1) := fun h => h0 (hiff.mpr h)
      rcases h with ⟨h1, h2⟩ | ⟨h1, h2, h3⟩
      · left
        refine ⟨h1, fun i hi => ?_⟩
        by_cases hip : i = pos + 1
        · rw [hip]; exact hno
        · exact h2 i (by omega)
      · right
        refine ⟨by omega, h2, fun i hi1 hi2 => ?_⟩
        by_cases hip : i = pos + 1
        · rw [hip]; exact hno
        · exact h3 i hi1 (by omega)

/-- The result of `rfind_` for a needle inside of its array. -/
theorem basic_string_literal.rfind__spec (x : basic_string_literal Ch N) (v : string_view Ch)
    (hv : v.valid) (pos : Nat) (hN : N ≤ PTRDIFF_MAX) :
    ∃ r, x.rfind_ v pos = .ok r ∧ greatest_or_npos (occurs_at x.content v.range) pos r ∧
      (N < v.range.length → r = npos) ∧ (v.range.length = 0 → r = min pos N) := by
  have hlen : v.range.length = v.sz := string_view.length_range v hv
  have hnpos := npos_gt_ptrdiff_max N hN
  rw [hlen]
  by_cases hmN : v.sz ≤ N
  · have hfind : x.rfind_ v pos = x.rfind_loop v (min (N - v.sz) pos) := by
      simp only [basic_string_literal.rfind_, string_view.size, basic_string_literal.size,
        hmN, if_true]
    obtain ⟨r, hr, h⟩ := x.rfind_loop_spec v hv (min (N - v.sz) pos) (by omega)
    rw [← hfind] at hr
    have hbound : ∀ i, occurs_at x.content v.range i → i + v.sz ≤ N := by
      intro i hocc
      have := occurs_at_bound _ _ _ hocc
      rwa [hlen, x.content_length] at this
    have hempty : v.sz = 0 → occurs_at x.content v.range (min pos N) := by
      intro hz
      have hnil : v.range = [] := List.length_eq_zero.mp (by rw [hlen, hz])
      rw [hnil]
      simp only [occurs_at, List.length_nil, Nat.add_zero, x.content_length, List.take_zero,
        and_true]
      omega
    rcases h with ⟨h1, h2⟩ | ⟨h1, h2, h3⟩
    · refine ⟨r, hr, Or.inl ⟨h1, fun i hi hocc => ?_⟩, fun h => by omega, fun hz => ?_⟩
      · exact h2 i (by have := hbound i hocc; omega) hocc
      · exact absurd (hempty hz) (h2 (min pos N) (by omega))
    · have hr2 := hbound r h2
      refine ⟨r, hr, Or.inr ⟨by omega, by omega, h2, fun i hi1 hi2 hocc => ?_⟩,
        fun h => by omega, fun hz => ?_⟩
      · exact h3 i hi1 (by have := hbound i hocc; omega) hocc
      · by_contra hne
        exact h3 (min pos N) (by omega) (by omega) (hempty hz)
  · have hfind : x.rfind_ v pos = .ok npos := by
      simp only [basic_string_literal.rfind_, string_view.size, basic_string_literal.size,
        hmN, if_false]
    refine ⟨npos, hfind, Or.inl ⟨rfl, fun i hi hocc => ?_⟩, fun _ => rfl, fun hz => by omega⟩
    have := occurs_at_bound _ _ _ hocc
    rw [hlen, x.content_length] at this
    omega

/-- C19: for a needle `t` of length `m` (a value, a buffer of `n`
characters or a zero-terminated string) and every `pos`, `rfind(t, pos)`
returns the greatest index `i <= pos` with `i + m <= N` and
`s[i .. i+m) == t`, or `npos` when there is no such index; it is `npos`
whenever `m > N`, and `min(pos, N)` for the empty needle.  The
buffer `s` of `n` characters and the zero-terminated string `z` are two
operands of their own: the buffer need not hold a zero character. -/
theorem rfind_needle_greatest [Zero Ch] (x : basic_string_literal Ch N)
    (str : basic_string_literal Ch M) (s z : Ptr Ch) (n pos : Nat) (hN : N ≤ PTRDIFF_MAX)
    (hsn : s.idx + n ≤ s.arr.length) (hz : z.terminated) :
    (∃ r, x.rfind str pos = .ok r ∧
      greatest_or_npos (occurs_at x.content str.content) pos r ∧
      (N < str.content.length → r = npos) ∧ (str.content.length = 0 → r = min pos N)) ∧
    (∃ r, x.rfind_buf s pos n = .ok r ∧
      greatest_or_npos (occurs_at x.content (s.mem.take n)) pos r ∧
      (N < (s.mem.take n).length → r = npos) ∧
      ((s.mem.take n).length = 0 → r = min pos N)) ∧
    (∃ r, x.rfind_c_str z pos = .ok r ∧
      greatest_or_npos (occurs_at x.content z.c_str_chars) pos r ∧
      (N < z.c_str_chars.length → r = npos) ∧ (z.c_str_chars.length = 0 → r = min pos N)) := by
  refine ⟨?_, ?_, ?_⟩
  · obtain ⟨a1, a2, _⟩ := str.view_of_props
    have h := x.rfind__spec (basic_string_literal.view_of str) a1 pos hN
    rw [a2] at h
    exact h
  · exact x.rfind__spec ⟨s, n⟩ hsn pos hN
  · obtain ⟨v, hv, b1, b2, _⟩ := string_view.of_c_str_props z hz
    have h := x.rfind__spec v b1 pos hN
    rw [b2] at h
    simpa only [basic_string_literal.rfind_c_str, hv, Result.bind_ok] using h

theorem rfind_needle_greatest_witness :
    (∃ r, (lit "abcdefabc").rfind (lit "abc") 3 = .ok r ∧
      greatest_or_npos (occurs_at (lit "abcdefabc").content (lit "abc").content) 3 r ∧
      (9 < (lit "abc").content.length → r = npos) ∧
      ((lit "abc").content.length = 0 → r = min 3 9)) ∧
    (∃ r, (lit "abcdefabc").rfind_buf ⟨[97, 120], 0⟩ 3 1 = .ok r ∧
      greatest_or_npos
        (occurs_at (lit "abcdefabc").content ((⟨[97, 120], 0⟩ : Ptr Nat).mem.take 1)) 3 r ∧
      (9 < ((⟨[97, 120], 0⟩ : Ptr Nat).mem.take 1).length → r = npos) ∧
      (((⟨[97, 120], 0⟩ : Ptr Nat).mem.take 1).length = 0 → r = min 3 9)) ∧
    (∃ r, (lit "abcdefabc").rfind_c_str ⟨chars "ax", 0⟩ 3 = .ok r ∧
      greatest_or_npos
        (occurs_at (lit "abcdefabc").content (⟨chars "ax", 0⟩ : Ptr Nat).c_str_chars) 3 r ∧
      (9 < (⟨chars "ax", 0⟩ : Ptr Nat).c_str_chars.length → r = npos) ∧
      ((⟨chars "ax", 0⟩ : Ptr Nat).c_str_chars.length = 0 → r = min 3 9)) :=
  rfind_needle_greatest (lit "abcdefabc") (lit "abc") ⟨[97, 120], 0⟩ ⟨chars "ax", 0⟩ 1 3
    (by decide)
    (by decide) (by unfold Ptr.terminated; decide)

end needle_search

/-! ## Search for a character of a set -/

section set_search

open detail_

variable {Ch : Type} [LinearOrder Ch] {N M : Nat}

/-- The inner scan of the character-set searches over a set inside of its
array: whether `c` is one of the `n` characters from `p` on. -/
theorem basic_string_literal.scan_set_spec (c : Ch) (n : Nat) :
    ∀ p : Ptr Ch, p.idx + n ≤ p.arr.length →
      basic_string_literal.scan_set p c n = .ok (decide (c ∈ p.mem.take n)) := by
  induction n with
  | zero =>
    intro p _
    simp [basic_string_literal.scan_set]
  | succ n ih =>
    intro p hp
    have hlt : p.idx < p.arr.length := by omega
    rw [basic_string_literal.scan_set, Ptr.deref_of_lt p hlt, Ptr.mem_eq_cons p hlt,
      List.take_succ_cons]
    by_cases hc : p.arr.get ⟨p.idx, hlt⟩ = c
    · have e : char_traits_eq (p.arr.get ⟨p.idx, hlt⟩) c = true := decide_eq_true hc
      simp only [e, if_true]
      rw [hc]
      simp
    · have e : char_traits_eq (p.arr.get ⟨p.idx, hlt⟩) c = false := decide_eq_false hc
      simp only [e, Bool.false_eq_true, if_false]
      rw [ih (p.add 1) (by simp only [Ptr.add]; omega)]
      have hne : ¬ c = p.arr.get ⟨p.idx, hlt⟩ := fun h => hc h.symm
      congr 1
      simp only [List.mem_cons, hne, false_or]

omit [LinearOrder Ch] in
theorem basic_string_literal.member_at_iff (x : basic_string_literal Ch N) (t : List Ch)
    (i : Nat) (d : Ch) (hi : i < N) (hd : x.data_[i]? = some d) :
    member_at x.content t i ↔ d ∈ t := by
  simp only [member_at, x.content_getElem?, hi, if_true, hd, Option.some.injEq]
  constructor
  · rintro ⟨c, hc, hm⟩
    rw [hc]; exact hm
  · intro h
    exact ⟨d, rfl, h⟩

omit [LinearOrder Ch] in
theorem basic_string_literal.not_member_at_of_le (x : basic_string_literal Ch N) (t : List Ch)
    (i : Nat) (hi : N ≤ i) : ¬ member_at x.content t i := by
  rintro ⟨c, hc, _⟩
  rw [x.content_getElem?, if_neg (by omega)] at hc
  exact Option.noConfusion hc

/-- The loop of `find_first_of_` over the positions `pos, ..., N - 1`. -/
theorem basic_string_literal.find_first_of_loop_spec (x : basic_string_literal Ch N)
    (v : string_view Ch) (hv : v.valid) :
    ∀ k pos, pos + k = N →
      ∃ r, x.find_first_of_loop v pos k = .ok r ∧
        ((r = npos ∧ ∀ i, pos ≤ i → ¬ member_at x.content v.range i) ∨
          (pos ≤ r ∧ r < N ∧ member_at x.content v.range r ∧
            ∀ i, pos ≤ i → i < r → ¬ member_at x.content v.range i)) := by
  intro k
  induction k with
  | zero =>
    intro pos hpos
    exact ⟨npos, rfl, Or.inl ⟨rfl, fun i hi => x.not_member_at_of_le _ i (by omega)⟩⟩
  | succ k ih =>
    intro pos hpos
    have hlt : pos < N := by omega
    obtain ⟨d, hd⟩ := x.data_getElem_lt pos (by omega)
    have hscan := basic_string_literal.scan_set_spec d v.sz v.s hv
    have hiff := x.member_at_iff v.range pos d hlt hd
    rw [basic_string_literal.find_first_of_loop, hd]
    simp only [string_view.data, string_view.size, hscan]
    by_cases hmem : d ∈ v.s.mem.take v.sz
    · simp only [hmem, decide_True, if_true]
      exact ⟨pos, rfl, Or.inr ⟨le_refl _, hlt, hiff.mpr hmem, fun i h1 h2 => by omega⟩⟩
    · simp only [hmem, decide_False, Bool.false_eq_true, if_false]
      have hno : ¬ member_at x.content v.range pos := fun h => hmem (hiff.mp h)
      obtain ⟨r, hr, h⟩ := ih (pos + 1) (by omega)
      refine ⟨r, hr, ?_⟩
      rcases h with ⟨h1, h2⟩ | ⟨h1, h2, h3, h4⟩
      · left
        refine ⟨h1, fun i hi => ?_⟩
        by_cases hip : i = pos
        · rw [hip]; exact hno
        · exact h2 i (by omega)
      · right
        refine ⟨by omega, h2, h3, fun i hi1 hi2 => ?_⟩
        by_cases hip : i = pos
        · rw [hip]; exact hno
        · exact h4 i (by omega) hi2

/-- The result of `find_first_of_` for a set inside of its array. -/
theorem basic_string_literal.find_first_of__spec (x : basic_string_literal Ch N)
    (v : string_view Ch) (hv : v.valid) (pos : Nat) (hN : N ≤ PTRDIFF_MAX) :
    ∃ r, x.find_first_of_ v pos = .ok r ∧
      smallest_or_npos (member_at x.content v.range) pos r ∧
      (v.range = [] → r = npos) ∧ (N ≤ pos → r = npos) := by
  have hlen : v.range.length = v.sz := string_view.length_range v hv
  have hnpos := npos_gt_ptrdiff_max N hN
  by_cases hz : v.sz = 0
  · have hnil : v.range = [] := List.length_eq_zero.mp (by rw [hlen, hz])
    refine ⟨npos, ?_, Or.inl ⟨rfl, fun i _ => ?_⟩, fun _ => rfl, fun _ => rfl⟩
    · simp [basic_string_literal.find_first_of_, string_view.size, hz]
    · rintro ⟨c, _, hm⟩
      rw [hnil] at hm
      exact List.not_mem_nil c hm
  · have hne : v.range ≠ [] := fun h => hz (by rw [← hlen, h]; rfl)
    have hfind : x.find_first_of_ v pos = x.find_first_of_loop v pos (N - pos) := by
      simp only [basic_string_literal.find_first_of_, string_view.size, ne_eq, hz,
        not_false_eq_true, if_true, basic_string_literal.size]
    by_cases hpos : pos ≤ N
    · obtain ⟨r, hr, h⟩ := x.find_first_of_loop_spec v hv (N - pos) pos (by omega)
      rw [← hfind] at hr
      rcases h with ⟨h1, h2⟩ | ⟨h1, h2, h3, h4⟩
      · exact ⟨r, hr, Or.inl ⟨h1, h2⟩, fun h => absurd h hne, fun _ => h1⟩
      · exact ⟨r, hr, Or.inr ⟨by omega, h1, h3, h4⟩, fun h => absurd h hne, fun h => by omega⟩
    · have hk : N - pos = 0 := by omega
      rw [hk] at hfind
      exact ⟨npos, hfind, Or.inl ⟨rfl, fun i hi => x.not_member_at_of_le _ i (by omega)⟩,
        fun _ => rfl, fun _ => rfl⟩

/-- C20: for a character set `t` (a value, a buffer of `n` characters or a
zero-terminated string) and every `pos`, `find_first_of(t, pos)` returns the
smallest index `i` with `pos <= i < N` such that `s[i]` is an element of `t`,
or `npos` when there is none; it is `npos` for an empty set and for
`pos >= N`.  The buffer `s` of `n` characters and the zero-terminated string `z`
are two operands of their own: the buffer need not hold a zero character. -/
theorem find_first_of_smallest [Zero Ch] (x : basic_string_literal Ch N)
    (str : basic_string_literal Ch M) (s z : Ptr Ch) (n pos : Nat) (hN : N ≤ PTRDIFF_MAX)
    (hsn : s.idx + n ≤ s.arr.length) (hz : z.terminated) :
    (∃ r, x.find_first_of str pos = .ok r ∧
      smallest_or_npos (member_at x.content str.content) pos r ∧
      (str.content = [] → r = npos) ∧ (N ≤ pos → r = npos)) ∧
    (∃ r, x.find_first_of_buf s pos n = .ok r ∧
      smallest_or_npos (member_at x.content (s.mem.take n)) pos r ∧
      (s.mem.take n = [] → r = npos) ∧ (N ≤ pos → r = npos)) ∧
    (∃ r, x.find_first_of_c_str z pos = .ok r ∧
      smallest_or_npos (member_at x.content z.c_str_chars) pos r ∧
      (z.c_str_chars = [] → r = npos) ∧ (N ≤ pos → r = npos)) := by
  refine ⟨?_, ?_, ?_⟩
  · obtain ⟨a1, a2, _⟩ := str.view_of_props
    have h := x.find_first_of__spec (basic_string_literal.view_of str) a1 pos hN
    rw [a2] at h
    exact h
  · exact x.find_first_of__spec ⟨s, n⟩ hsn pos hN
  · obtain ⟨v, hv, b1, b2, _⟩ := string_view.of_c_str_props z hz
    have h := x.find_first_of__spec v b1 pos hN
    rw [b2] at h
    simpa only [basic_string_literal.find_first_of_c_str, hv, Result.bind_ok] using h

theorem find_first_of_smallest_witness :
    (∃ r, (lit "abcdefabc").find_first_of (lit "cd") 3 = .ok r ∧
      smallest_or_npos (member_at (lit "abcdefabc").content (lit "cd").content) 3 r ∧
      ((lit "cd").content = [] → r = npos) ∧ (9 ≤ 3 → r = npos)) ∧
    (∃ r, (lit "abcdefabc").find_first_of_buf ⟨[99, 100], 0⟩ 3 2 = .ok r ∧
      smallest_or_npos
        (member_at (lit "abcdefabc").content ((⟨[99, 100], 0⟩ : Ptr Nat).mem.take 2)) 3 r ∧
      ((⟨[99, 100], 0⟩ : Ptr Nat).mem.take 2 = [] → r = npos) ∧ (9 ≤ 3 → r = npos)) ∧
    (∃ r, (lit "abcdefabc").find_first_of_c_str ⟨chars "cd", 0⟩ 3 = .ok r ∧
      smallest_or_npos
        (member_at (lit "abcdefabc").content (⟨chars "cd", 0⟩ : Ptr Nat).c_str_chars) 3 r ∧
      ((⟨chars "cd", 0⟩ : Ptr Nat).c_str_chars = [] → r = npos) ∧ (9 ≤ 3 → r = npos)) :=
  find_first_of_smallest (lit "abcdefabc") (lit "cd") ⟨[99, 100], 0⟩ ⟨chars "cd", 0⟩ 2 3
    (by decide)
    (by decide) (by unfold Ptr.terminated; decide)

end set_search

/-! ## Scans in general -/

section scans

/-- A forward loop over the positions `pos, ..., N - 1` that returns the
first position passing the test `T`. -/
theorem forward_scan (N : Nat) (loop : Nat → Nat → Result Nat) (T : Nat → Prop)
    (h0 : ∀ pos, loop pos 0 = .ok npos)
    (hs : ∀ pos k, pos < N →
      (T pos → loop pos (k + 1) = .ok pos) ∧ (¬ T pos → loop pos (k + 1) = loop (pos + 1) k)) :
    ∀ k pos, pos + k = N →
      ∃ r, loop pos k = .ok r ∧
        ((r = npos ∧ ∀ i, pos ≤ i → i < N → ¬ T i) ∨
          (pos ≤ r ∧ r < N ∧ T r ∧ ∀ i, pos ≤ i → i < r → ¬ T i)) := by
  intro k
  induction k with
  | zero =>
    intro pos hpos
    exact ⟨npos, h0 pos, Or.inl ⟨rfl, fun i h1 h2 => by omega⟩⟩
  | succ k ih =>
    intro pos hpos
    have hlt : pos < N := by omega
    by_cases hT : T pos
    · exact ⟨pos, (hs pos k hlt).1 hT, Or.inr ⟨le_refl _, hlt, hT, fun i h1 h2 => by omega⟩⟩
    · obtain ⟨r, hr, h⟩ := ih (pos + 1) (by omega)
      refine ⟨r, by rw [(hs pos k hlt).2 hT, hr], ?_⟩
      rcases h with ⟨h1, h2⟩ | ⟨h1, h2, h3, h4⟩
      · left
        refine ⟨h1, fun i hi hiN => ?_⟩
        by_cases hip : i = pos
        · rw [hip]; exact hT
        · exact h2 i (by omega) hiN
      · right
        refine ⟨by omega, h2, h3, fun i hi1 hi2 => ?_⟩
        by_cases hip : i = pos
        · rw [hip]; exact hT
        · exact h4 i (by omega) hi2

/-- A backward loop from `p` down to 0 that returns the first position
passing the test `T`. -/
theorem backward_scan (N : Nat) (loop : Nat → Result Nat) (T : Nat → Prop)
    (h0 : 0 < N → (T 0 → loop 0 = .ok 0) ∧ (¬ T 0 → loop 0 = .ok npos))
    (hs : ∀ p, p + 1 < N →
      (T (p + 1) → loop (p + 1) = .ok (p + 1)) ∧ (¬ T (p + 1) → loop (p + 1) = loop p)) :
    ∀ p, p < N →
      ∃ r, loop p = .ok r ∧
        ((r = npos ∧ ∀ i, i ≤ p → ¬ T i) ∨
          (r ≤ p ∧ T r ∧ ∀ i, r < i → i ≤ p → ¬ T i)) := by
  intro p
  induction p with
  | zero =>
    intro hp
    by_cases hT : T 0
    · exact ⟨0, (h0 hp).1 hT, Or.inr ⟨le_refl _, hT, fun i h1 h2 => by omega⟩⟩
    · refine ⟨npos, (h0 hp).2 hT, Or.inl ⟨rfl, fun i hi => ?_⟩⟩
      have hi0 : i = 0 := by omega
      rw [hi0]; exact hT
  | succ p ih =>
    intro hp
    by_cases hT : T (p + 1)
    · exact ⟨p + 1, (hs p hp).1 hT, Or.inr ⟨le_refl _, hT, fun i h1 h2 => by omega⟩⟩
    · obtain ⟨r, hr, h⟩ := ih (by omega)
      refine ⟨r, by rw [(hs p hp).2 hT, hr], ?_⟩
      rcases h with ⟨h1, h2⟩ | ⟨h1, h2, h3⟩
      · left
        refine ⟨h1, fun i hi => ?_⟩
        by_cases hip : i = p + 1
        · rw [hip]; exact hT
        · exact h2 i (by omega)
      · right
        refine ⟨by omega, h2, fun i hi1 hi2 => ?_⟩
        by_cases hip : i = p + 1
        · rw [hip]; exact hT
        · exact h3 i hi1 (by omega)

/-- From the result of a forward scan below `N` to `smallest_or_npos`. -/
theorem smallest_of_scan (T : Nat → Prop) (N pos r : Nat) (hN : N ≤ PTRDIFF_MAX)
    (hT : ∀ i, N ≤ i → ¬ T i)
    (h : (r = npos ∧ ∀ i, pos ≤ i → i < N → ¬ T i) ∨
      (pos ≤ r ∧ r < N ∧ T r ∧ ∀ i, pos ≤ i → i < r → ¬ T i)) :
    smallest_or_npos T pos r := by
  have hnpos := npos_gt_ptrdiff_max N hN
  rcases h with ⟨h1, h2⟩ | ⟨h1, h2, h3, h4⟩
  · left
    refine ⟨h1, fun i hi => ?_⟩
    by_cases hiN : i < N
    · exact h2 i hi hiN
    · exact hT i (by omega)
  · right
    exact ⟨by omega, h1, h3, h4⟩

/-- From the result of a backward scan from `min(pos, N-1)` to
`greatest_or_npos`. -/
theorem greatest_of_scan (T : Nat → Prop) (N pos r : Nat) (hN : N ≤ PTRDIFF_MAX)
    (hpos : 0 < N)
    (h : (r = npos ∧ ∀ i, i ≤ min pos (N - 1) → ¬ T i) ∨
      (r ≤ min pos (N - 1) ∧ T r ∧ ∀ i, r < i → i ≤ min pos (N - 1) → ¬ T i)) :
    greatest_or_npos T (min pos (N - 1)) r := by
  have hnpos := npos_gt_ptrdiff_max N hN
  rcases h with ⟨h1, h2⟩ | ⟨h1, h2, h3⟩
  · exact Or.inl ⟨h1, h2⟩
  · exact Or.inr ⟨by omega, h1, h2, h3⟩

end scans

/-! ## Backward set search and searches for characters not of a set -/

section set_search_more

open detail_

variable {Ch : Type} [LinearOrder Ch] {N M : Nat}

omit [LinearOrder Ch] in
theorem basic_string_literal.not_member_at_iff (x : basic_string_literal Ch N) (t : List Ch)
    (i : Nat) (d : Ch) (hi : i < N) (hd : x.data_[i]? = some d) :
    not_member_at x.content t i ↔ d ∉ t := by
  simp only [not_member_at, x.content_getElem?, hi, if_true, hd, Option.some.injEq]
  constructor
  · rintro ⟨c, hc, hm⟩
    rw [hc]; exact hm
  · intro h
    exact ⟨d, rfl, h⟩

omit [LinearOrder Ch] in
theorem basic_string_literal.not_not_member_at_of_le (x : basic_string_literal Ch N)
    (t : List Ch) (i : Nat) (hi : N ≤ i) : ¬ not_member_at x.content t i := by
  rintro ⟨c, hc, _⟩
  rw [x.content_getElem?, if_neg (by omega)] at hc
  exact Option.noConfusion hc

/-- What a set search reads and finds at a position inside of the value. -/
theorem basic_string_literal.scan_at (x : basic_string_literal Ch N) (v : string_view Ch)
    (hv : v.valid) (p : Nat) (hp : p < N) :
    ∃ d, x.data_[p]? = some d ∧
      basic_string_literal.scan_set v.data d v.size = .ok (decide (d ∈ v.s.mem.take v.sz)) ∧
      (member_at x.content v.range p ↔ d ∈ v.s.mem.take v.sz) ∧
      (not_member_at x.content v.range p ↔ d ∉ v.s.mem.take v.sz) := by
  obtain ⟨d, hd⟩ := x.data_getElem_lt p (by omega)
  exact ⟨d, hd, basic_string_literal.scan_set_spec d v.sz v.s hv,
    x.member_at_iff v.range p d hp hd, x.not_member_at_iff v.range p d hp hd⟩

/-- The steps of the loop of `find_last_of_`. -/
theorem basic_string_literal.find_last_of_loop_steps (x : basic_string_literal Ch N)
    (v : string_view Ch) (hv : v.valid) :
    (0 < N → (member_at x.content v.range 0 → x.find_last_of_loop v 0 = .ok 0) ∧
      (¬ member_at x.content v.range 0 → x.find_last_of_loop v 0 = .ok npos)) ∧
    (∀ p, p + 1 < N →
      (member_at x.content v.range (p + 1) → x.find_last_of_loop v (p + 1) = .ok (p + 1)) ∧
      (¬ member_at x.content v.range (p + 1) →
        x.find_last_of_loop v (p + 1) = x.find_last_of_loop v p)) := by
  refine ⟨fun h0 => ?_, fun p hp => ?_⟩
  · obtain ⟨d, hd, hscan, hm, _⟩ := x.scan_at v hv 0 h0
    constructor
    · intro hT
      have hmem := hm.mp hT
      rw [basic_string_literal.find_last_of_loop, hd]
      simp only [hscan, hmem, decide_True, if_true]
    · intro hT
      have hmem : ¬ d ∈ v.s.mem.take v.sz := fun h => hT (hm.mpr h)
      rw [basic_string_literal.find_last_of_loop, hd]
      simp only [hscan, hmem, decide_False, Bool.false_eq_true, if_false]
  · obtain ⟨d, hd, hscan, hm, _⟩ := x.scan_at v hv (p + 1) hp
    constructor
    · intro hT
      have hmem := hm.mp hT
      rw [basic_string_literal.find_last_of_loop, hd]
      simp only [hscan, hmem, decide_True, if_true]
    · intro hT
      have hmem : ¬ d ∈ v.s.mem.take v.sz := fun h => hT (hm.mpr h)
      rw [basic_string_literal.find_last_of_loop, hd]
      simp only [hscan, hmem, decide_False, Bool.false_eq_true, if_false]

theorem min_pos_pred (N pos : Nat) :
    (if N - 1 > pos then pos else N - 1) = min pos (N - 1) := by
  split_ifs <;> omega

/-- The result of `find_last_of_` for a set inside of its array. -/
theorem basic_string_literal.find_last_of__spec (x : basic_string_literal Ch N)
    (v : string_view Ch) (hv : v.valid) (pos : Nat) (hN : N ≤ PTRDIFF_MAX) :
    ∃ r, x.find_last_of_ v pos = .ok r ∧
      greatest_or_npos (member_at x.content v.range) (min pos (N - 1)) r ∧
      (N = 0 → r = npos) ∧ (v.range = [] → r = npos) := by
  have hlen : v.range.length = v.sz := string_view.length_range v hv
  by_cases hgo : N ≠ 0 ∧ v.sz ≠ 0
  · have hpos : 0 < N := Nat.pos_of_ne_zero hgo.1
    have hne : v.range ≠ [] := fun h => hgo.2 (by rw [← hlen, h]; rfl)
    obtain ⟨h0, hs⟩ := x.find_last_of_loop_steps v hv
    obtain ⟨r, hr, h⟩ := backward_scan N (x.find_last_of_loop v) _ h0 hs (min pos (N - 1))
      (by omega)
    refine ⟨r, ?_, greatest_of_scan _ N pos r hN hpos h, fun h => absurd h hgo.1,
      fun h => absurd h hne⟩
    rw [basic_string_literal.find_last_of_,
      if_pos (show x.size ≠ 0 ∧ v.size ≠ 0 from hgo)]
    simp only [basic_string_literal.size]
    rw [min_pos_pred, hr]
  · have hres : x.find_last_of_ v pos = .ok npos := by
      rw [basic_string_literal.find_last_of_,
        if_neg (show ¬ (x.size ≠ 0 ∧ v.size ≠ 0) from hgo)]
    refine ⟨npos, hres, Or.inl ⟨rfl, fun i _ hm => ?_⟩, fun _ => rfl, fun _ => rfl⟩
    by_cases hN0 : N = 0
    · exact x.not_member_at_of_le _ i (by omega) hm
    · have hz : v.sz = 0 := by
        by_contra hc
        exact hgo ⟨hN0, hc⟩
      have hnil : v.range = [] := List.length_eq_zero.mp (by rw [hlen, hz])
      obtain ⟨c, _, hc⟩ := hm
      rw [hnil] at hc
      exact List.not_mem_nil c hc

/-- C21: for a character set `t` (a value, a buffer of `n` characters or a
zero-terminated string) and every `pos`, `find_last_of(t, pos)` returns the
greatest index `i <= min(pos, N-1)` such that `s[i]` is an element of `t`,
or `npos` when there is none; it is `npos` when `N == 0` and for an empty
set.  The overload for one character is `rfind`.  The buffer `s` of
`n` characters and the zero-terminated string `z` are two operands of their
own: the buffer need not hold a zero character. -/
theorem find_last_of_greatest [Zero Ch] (x : basic_string_literal Ch N)
    (str : basic_string_literal Ch M) (s z : Ptr Ch) (c : Ch) (n pos : Nat)
    (hN : N ≤ PTRDIFF_MAX) (hsn : s.idx + n ≤ s.arr.length) (hz : z.terminated) :
    (∃ r, x.find_last_of str pos = .ok r ∧
      greatest_or_npos (member_at x.content str.content) (min pos (N - 1)) r ∧
      (N = 0 → r = npos) ∧ (str.content = [] → r = npos)) ∧
    (∃ r, x.find_last_of_buf s pos n = .ok r ∧
      greatest_or_npos (member_at x.content (s.mem.take n)) (min pos (N - 1)) r ∧
      (N = 0 → r = npos) ∧ (s.mem.take n = [] → r = npos)) ∧
    (∃ r, x.find_last_of_c_str z pos = .ok r ∧
      greatest_or_npos (member_at x.content z.c_str_chars) (min pos (N - 1)) r ∧
      (N = 0 → r = npos) ∧ (z.c_str_chars = [] → r = npos)) ∧
    x.find_last_of_char c pos = x.rfind_char c pos := by
  refine ⟨?_, ?_, ?_, rfl⟩
  · obtain ⟨a1, a2, _⟩ := str.view_of_props
    have h := x.find_last_of__spec (basic_string_literal.view_of str) a1 pos hN
    rw [a2] at h
    exact h
  · exact x.find_last_of__spec ⟨s, n⟩ hsn pos hN
  · obtain ⟨v, hv, b1, b2, _⟩ := string_view.of_c_str_props z hz
    have h := x.find_last_of__spec v b1 pos hN
    rw [b2] at h
    simpa only [basic_string_literal.find_last_of_c_str, hv, Result.bind_ok] using h

theorem find_last_of_greatest_witness :
    (∃ r, (lit "abcdefabc").find_last_of (lit "cd") 3 = .ok r ∧
      greatest_or_npos (member_at (lit "abcdefabc").content (lit "cd").content)
        (min 3 (9 - 1)) r ∧
      ((9 : Nat) = 0 → r = npos) ∧ ((lit "cd").content = [] → r = npos)) ∧
    (∃ r, (lit "abcdefabc").find_last_of_buf ⟨[99, 100], 0⟩ 3 2 = .ok r ∧
      greatest_or_npos
        (member_at (lit "abcdefabc").content ((⟨[99, 100], 0⟩ : Ptr Nat).mem.take 2))
        (min 3 (9 - 1)) r ∧
      ((9 : Nat) = 0 → r = npos) ∧ ((⟨[99, 100], 0⟩ : Ptr Nat).mem.take 2 = [] → r = npos)) ∧
    (∃ r, (lit "abcdefabc").find_last_of_c_str ⟨chars "cd", 0⟩ 3 = .ok r ∧
      greatest_or_npos
        (member_at (lit "abcdefabc").content (⟨chars "cd", 0⟩ : Ptr Nat).c_str_chars)
        (min 3 (9 - 1)) r ∧
      ((9 : Nat) = 0 → r = npos) ∧ ((⟨chars "cd", 0⟩ : Ptr Nat).c_str_chars = [] → r = npos)) ∧
    (lit "abcdefabc").find_last_of_char 97 3 = (lit "abcdefabc").rfind_char 97 3 :=
  find_last_of_greatest (lit "abcdefabc") (lit "cd") ⟨[99, 100], 0⟩ ⟨chars "cd", 0⟩ 97 2 3
    (by decide)
    (by decide) (by unfold Ptr.terminated; decide)

omit [LinearOrder Ch] in
/-- What a search for a character other than `c` reads at a position inside
of the value. -/
theorem basic_string_literal.char_at_test (x : basic_string_literal Ch N) (c : Ch) (p : Nat)
    (hp : p < N) :
    ∃ d, x.data_[p]? = some d ∧ (not_member_at x.content [c] p ↔ ¬ c = d) := by
  obtain ⟨d, hd⟩ := x.data_getElem_lt p (by omega)
  refine ⟨d, hd, ?_⟩
  rw [x.not_member_at_iff [c] p d hp hd, List.mem_singleton]
  exact ⟨fun h e => h e.symm, fun h e => h e.symm⟩

/-- The steps of the loop of `find_first_not_of(c, pos)`. -/
theorem basic_string_literal.find_first_not_of_char_loop_steps (x : basic_string_literal Ch N)
    (c : Ch) :
    ∀ pos k, pos < N →
      (not_member_at x.content [c] pos → x.find_first_not_of_char_loop c pos (k + 1) = .ok pos) ∧
      (¬ not_member_at x.content [c] pos →
        x.find_first_not_of_char_loop c pos (k + 1)
          = x.find_first_not_of_char_loop c (pos + 1) k) := by
  intro pos k hp
  obtain ⟨d, hd, hiff⟩ := x.char_at_test c pos hp
  constructor
  · intro hT
    have e : char_traits_eq c d = false := decide_eq_false (hiff.mp hT)
    rw [basic_string_literal.find_first_not_of_char_loop, hd]
    simp only [e, Bool.not_false, if_true]
  · intro hT
    have hcd : c = d := by
      by_contra h
      exact hT (hiff.mpr h)
    have e : char_traits_eq c d = true := decide_eq_true hcd
    rw [basic_string_literal.find_first_not_of_char_loop, hd]
    simp only [e, Bool.not_true, Bool.false_eq_true, if_false]

/-- The steps of the loop of `find_first_not_of_`. -/
theorem basic_string_literal.find_first_not_of_loop_steps (x : basic_string_literal Ch N)
    (v : string_view Ch) (hv : v.valid) :
    ∀ pos k, pos < N →
      (not_member_at x.content v.range pos → x.find_first_not_of_loop v pos (k + 1) = .ok pos) ∧
      (¬ not_member_at x.content v.range pos →
        x.find_first_not_of_loop v pos (k + 1) = x.find_first_not_of_loop v (pos + 1) k) := by
  intro pos k hp
  obtain ⟨d, hd, hscan, _, hnm⟩ := x.scan_at v hv pos hp
  constructor
  · intro hT
    have hmem : ¬ d ∈ v.s.mem.take v.sz := hnm.mp hT
    rw [basic_string_literal.find_first_not_of_loop, hd]
    simp only [hscan, hmem, decide_False, Bool.not_false, if_true]
  · intro hT
    have hmem : d ∈ v.s.mem.take v.sz := by
      by_contra h
      exact hT (hnm.mpr h)
    rw [basic_string_literal.find_first_not_of_loop, hd]
    simp only [hscan, hmem, decide_True, Bool.not_true, Bool.false_eq_true, if_false]

/-- A forward loop started at `pos` with `N - pos` rounds left. -/
theorem forward_scan_from (N : Nat) (loop : Nat → Nat → Result Nat) (T : Nat → Prop)
    (h0 : ∀ pos, loop pos 0 = .ok npos)
    (hs : ∀ pos k, pos < N →
      (T pos → loop pos (k + 1) = .ok pos) ∧ (¬ T pos → loop pos (k + 1) = loop (pos + 1) k))
    (hT : ∀ i, N ≤ i → ¬ T i) (hN : N ≤ PTRDIFF_MAX) (pos : Nat) :
    ∃ r, loop pos (N - pos) = .ok r ∧ smallest_or_npos T pos r ∧ (N ≤ pos → r = npos) := by
  by_cases hpos : pos ≤ N
  · obtain ⟨r, hr, h⟩ := forward_scan N loop T h0 hs (N - pos) pos (by omega)
    refine ⟨r, hr, smallest_of_scan T N pos r hN hT h, fun hle => ?_⟩
    rcases h with ⟨h1, _⟩ | ⟨h1, h2, _, _⟩
    · exact h1
    · omega
  · have hk : N - pos = 0 := by omega
    rw [hk]
    exact ⟨npos, h0 pos, Or.inl ⟨rfl, fun i hi => hT i (by omega)⟩, fun _ => rfl⟩

/-- The result of `find_first_not_of_` for a set inside of its array. -/
theorem basic_string_literal.find_first_not_of__spec (x : basic_string_literal Ch N)
    (v : string_view Ch) (hv : v.valid) (pos : Nat) (hN : N ≤ PTRDIFF_MAX) :
    ∃ r, x.find_first_not_of_ v pos = .ok r ∧
      smallest_or_npos (not_member_at x.content v.range) pos r ∧ (N ≤ pos → r = npos) :=
  forward_scan_from N (x.find_first_not_of_loop v) _ (fun _ => rfl)
    (x.find_first_not_of_loop_steps v hv) (fun i hi => x.not_not_member_at_of_le _ i hi) hN pos

/-- The result of `find_first_not_of(c, pos)`. -/
theorem basic_string_literal.find_first_not_of_char_spec (x : basic_string_literal Ch N)
    (c : Ch) (pos : Nat) (hN : N ≤ PTRDIFF_MAX) :
    ∃ r, x.find_first_not_of_char c pos = .ok r ∧
      smallest_or_npos (not_member_at x.content [c]) pos r ∧ (N ≤ pos → r = npos) :=
  forward_scan_from N (x.find_first_not_of_char_loop c) _ (fun _ => rfl)
    (x.find_first_not_of_char_loop_steps c) (fun i hi => x.not_not_member_at_of_le _ i hi)
    hN pos

/-- C22: for a character set `t` (a value, a buffer of `n` characters, a
zero-terminated string, or the single character `c`) and every `pos`,
`find_first_not_of(t, pos)` returns the smallest index `i` with
`pos <= i < N` such that `s[i]` is not an element of `t`, or `npos` when
there is none.  The buffer `s` of `n` characters and the zero-terminated
string `z` are two operands of their own: the buffer need not hold a zero
character. -/
theorem find_first_not_of_smallest [Zero Ch] (x : basic_string_literal Ch N)
    (str : basic_string_literal Ch M) (s z : Ptr Ch) (c : Ch) (n pos : Nat)
    (hN : N ≤ PTRDIFF_MAX) (hsn : s.idx + n ≤ s.arr.length) (hz : z.terminated) :
    (∃ r, x.find_first_not_of str pos = .ok r ∧
      smallest_or_npos (not_member_at x.content str.content) pos r) ∧
    (∃ r, x.find_first_not_of_char c pos = .ok r ∧
      smallest_or_npos (not_member_at x.content [c]) pos r) ∧
    (∃ r, x.find_first_not_of_buf s pos n = .ok r ∧
      smallest_or_npos (not_member_at x.content (s.mem.take n)) pos r) ∧
    (∃ r, x.find_first_not_of_c_str z pos = .ok r ∧
      smallest_or_npos (not_member_at x.content z.c_str_chars) pos r) := by
  refine ⟨?_, ?_, ?_, ?_⟩
  · obtain ⟨a1, a2, _⟩ := str.view_of_props
    obtain ⟨r, hr, h, _⟩ := x.find_first_not_of__spec (basic_string_literal.view_of str) a1
      pos hN
    rw [a2] at h
    exact ⟨r, hr, h⟩
  · obtain ⟨r, hr, h, _⟩ := x.find_first_not_of_char_spec c pos hN
    exact ⟨r, hr, h⟩
  · obtain ⟨r, hr, h, _⟩ := x.find_first_not_of__spec ⟨s, n⟩ hsn pos hN
    exact ⟨r, hr, h⟩
  · obtain ⟨v, hv, b1, b2, _⟩ := string_view.of_c_str_props z hz
    obtain ⟨r, hr, h, _⟩ := x.find_first_not_of__spec v b1 pos hN
    rw [b2] at h
    exact ⟨r, by simp only [basic_string_literal.find_first_not_of_c_str, hv, Result.bind_ok,
      hr], h⟩

theorem find_first_not_of_smallest_witness :
    (∃ r, (lit "abcdefabc").find_first_not_of (lit "abcd") 3 = .ok r ∧
      smallest_or_npos (not_member_at (lit "abcdefabc").content (lit "abcd").content) 3 r) ∧
    (∃ r, (lit "abcdefabc").find_first_not_of_char 97 3 = .ok r ∧
      smallest_or_npos (not_member_at (lit "abcdefabc").content [97]) 3 r) ∧
    (∃ r, (lit "abcdefabc").find_first_not_of_buf ⟨[97, 98, 99, 100], 0⟩ 3 4 = .ok r ∧
      smallest_or_npos
        (not_member_at (lit "abcdefabc").content ((⟨[97, 98, 99, 100], 0⟩ : Ptr Nat).mem.take 4))
        3 r) ∧
    (∃ r, (lit "abcdefabc").find_first_not_of_c_str ⟨chars "abcd", 0⟩ 3 = .ok r ∧
      smallest_or_npos
        (not_member_at (lit "abcdefabc").content (⟨chars "abcd", 0⟩ : Ptr Nat).c_str_chars)
        3 r) :=
  find_first_not_of_smallest (lit "abcdefabc") (lit "abcd") ⟨[97, 98, 99, 100], 0⟩
    ⟨chars "abcd", 0⟩ 97 4 3
    (by decide) (by decide) (by unfold Ptr.terminated; decide)

/-- The steps of the loop of `find_last_not_of(c, pos)`. -/
theorem basic_string_literal.find_last_not_of_char_loop_steps (x : basic_string_literal Ch N)
    (c : Ch) :
    (0 < N → (not_member_at x.content [c] 0 → x.find_last_not_of_char_loop c 0 = .ok 0) ∧
      (¬ not_member_at x.content [c] 0 → x.find_last_not_of_char_loop c 0 = .ok npos)) ∧
    (∀ p, p + 1 < N →
      (not_member_at x.content [c] (p + 1) →
        x.find_last_not_of_char_loop c (p + 1) = .ok (p + 1)) ∧
      (¬ not_member_at x.content [c] (p + 1) →
        x.find_last_not_of_char_loop c (p + 1) = x.find_last_not_of_char_loop c p)) := by
  refine ⟨fun h0 => ?_, fun p hp => ?_⟩
  · obtain ⟨d, hd, hiff⟩ := x.char_at_test c 0 h0
    constructor
    · intro hT
      have e : char_traits_eq c d = false := decide_eq_false (hiff.mp hT)
      rw [basic_string_literal.find_last_not_of_char_loop, hd]
      simp only [e, Bool.not_false, if_true]
    · intro hT
      have hcd : c = d := by
        by_contra h
        exact hT (hiff.mpr h)
      have e : char_traits_eq c d = true := decide_eq_true hcd
      rw [basic_string_literal.find_last_not_of_char_loop, hd]
      simp only [e, Bool.not_true, Bool.false_eq_true, if_false]
  · obtain ⟨d, hd, hiff⟩ := x.char_at_test c (p + 1) hp
    constructor
    · intro hT
      have e : char_traits_eq c d = false := decide_eq_false (hiff.mp hT)
      rw [basic_string_literal.find_last_not_of_char_loop, hd]
      simp only [e, Bool.not_false, if_true]
    · intro hT
      have hcd : c = d := by
        by_contra h
        exact hT (hiff.mpr h)
      have e : char_traits_eq c d = true := decide_eq_true hcd
      rw [basic_string_literal.find_last_not_of_char_loop, hd]
      simp only [e, Bool.not_true, Bool.false_eq_true, if_false]

/-- The steps of the loop of `find_last_not_of_`. -/
theorem basic_string_literal.find_last_not_of_loop_steps (x : basic_string_literal Ch N)
    (v : string_view Ch) (hv : v.valid) :
    (0 < N → (not_member_at x.content v.range 0 → x.find_last_not_of_loop v 0 = .ok 0) ∧
      (¬ not_member_at x.content v.range 0 → x.find_last_not_of_loop v 0 = .ok npos)) ∧
    (∀ p, p + 1 < N →
      (not_member_at x.content v.range (p + 1) →
        x.find_last_not_of_loop v (p + 1) = .ok (p + 1)) ∧
      (¬ not_member_at x.content v.range (p + 1) →
        x.find_last_not_of_loop v (p + 1) = x.find_last_not_of_loop v p)) := by
  refine ⟨fun h0 => ?_, fun p hp => ?_⟩
  · obtain ⟨d, hd, hscan, _, hnm⟩ := x.scan_at v hv 0 h0
    constructor
    · intro hT
      have hmem : ¬ d ∈ v.s.mem.take v.sz := hnm.mp hT
      rw [basic_string_literal.find_last_not_of_loop, hd]
      simp only [hscan, hmem, decide_False, Bool.not_false, if_true]
    · intro hT
      have hmem : d ∈ v.s.mem.take v.sz := by
        by_contra h
        exact hT (hnm.mpr h)
      rw [basic_string_literal.find_last_not_of_loop, hd]
      simp only [hscan, hmem, decide_True, Bool.not_true, Bool.false_eq_true, if_false]
  · obtain ⟨d, hd, hscan, _, hnm⟩ := x.scan_at v hv (p + 1) hp
    constructor
    · intro hT
      have hmem : ¬ d ∈ v.s.mem.take v.sz := hnm.mp hT
      rw [basic_string_literal.find_last_not_of_loop, hd]
      simp only [hscan, hmem, decide_False, Bool.not_false, if_true]
    · intro hT
      have hmem : d ∈ v.s.mem.take v.sz := by
        by_contra h
        exact hT (hnm.mpr h)
      rw [basic_string_literal.find_last_not_of_loop, hd]
      simp only [hscan, hmem, decide_True, Bool.not_true, Bool.false_eq_true, if_false]

/-- A backward loop entered, when `N != 0`, at `min(pos, N-1)`. -/
theorem backward_scan_from (N : Nat) (loop : Nat → Result Nat) (T : Nat → Prop)
    (h0 : 0 < N → (T 0 → loop 0 = .ok 0) ∧ (¬ T 0 → loop 0 = .ok npos))
    (hs : ∀ p, p + 1 < N →
      (T (p + 1) → loop (p + 1) = .ok (p + 1)) ∧ (¬ T (p + 1) → loop (p + 1) = loop p))
    (hT : ∀ i, N ≤ i → ¬ T i) (hN : N ≤ PTRDIFF_MAX) (pos : Nat) :
    ∃ r, (if N ≠ 0 then loop (if N - 1 > pos then pos else N - 1) else .ok npos) = .ok r ∧
      greatest_or_npos T (min pos (N - 1)) r ∧ (N = 0 → r = npos) := by
  by_cases hN0 : N = 0
  · refine ⟨npos, by rw [if_neg (not_not.mpr hN0)], Or.inl ⟨rfl, fun i _ => hT i (by omega)⟩,
      fun _ => rfl⟩
  · have hpos : 0 < N := Nat.pos_of_ne_zero hN0
    obtain ⟨r, hr, h⟩ := backward_scan N loop T h0 hs (min pos (N - 1)) (by omega)
    refine ⟨r, ?_, greatest_of_scan T N pos r hN hpos h, fun h => absurd h hN0⟩
    rw [if_pos hN0, min_pos_pred, hr]

/-- The result of `find_last_not_of_` for a set inside of its array. -/
theorem basic_string_literal.find_last_not_of__spec (x : basic_string_literal Ch N)
    (v : string_view Ch) (hv : v.valid) (pos : Nat) (hN : N ≤ PTRDIFF_MAX) :
    ∃ r, x.find_last_not_of_ v pos = .ok r ∧
      greatest_or_npos (not_member_at x.content v.range) (min pos (N - 1)) r ∧
      (N = 0 → r = npos) :=
  backward_scan_from N (x.find_last_not_of_loop v) _ (x.find_last_not_of_loop_steps v hv).1
    (x.find_last_not_of_loop_steps v hv).2 (fun i hi => x.not_not_member_at_of_le _ i hi) hN pos

/-- The result of `find_last_not_of(c, pos)`. -/
theorem basic_string_literal.find_last_not_of_char_spec (x : basic_string_literal Ch N)
    (c : Ch) (pos : Nat) (hN : N ≤ PTRDIFF_MAX) :
    ∃ r, x.find_last_not_of_char c pos = .ok r ∧
      greatest_or_npos (not_member_at x.content [c]) (min pos (N - 1)) r ∧
      (N = 0 → r = npos) :=
  backward_scan_from N (x.find_last_not_of_char_loop c) _
    (x.find_last_not_of_char_loop_steps c).1 (x.find_last_not_of_char_loop_steps c).2
    (fun i hi => x.not_not_member_at_of_le _ i hi) hN pos

/-- C23: for a character set `t` (a value, a buffer of `n` characters, a
zero-terminated string, or the single character `c`) and every `pos`,
`find_last_not_of(t, pos)` returns the greatest index `i <= min(pos, N-1)`
such that `s[i]` is not an element of `t`, or `npos` when there is none; it
is `npos` when `N == 0`.  The buffer `s` of `n` characters and the
zero-terminated string `z` are two operands of their own: the buffer need not
hold a zero character. -/
theorem find_last_not_of_greatest [Zero Ch] (x : basic_string_literal Ch N)
    (str : basic_string_literal Ch M) (s z : Ptr Ch) (c : Ch) (n pos : Nat)
    (hN : N ≤ PTRDIFF_MAX) (hsn : s.idx + n ≤ s.arr.length) (hz : z.terminated) :
    (∃ r, x.find_last_not_of str pos = .ok r ∧
      greatest_or_npos (not_member_at x.content str.content) (min pos (N - 1)) r ∧
      (N = 0 → r = npos)) ∧
    (∃ r, x.find_last_not_of_char c pos = .ok r ∧
      greatest_or_npos (not_member_at x.content [c]) (min pos (N - 1)) r ∧
      (N = 0 → r = npos)) ∧
    (∃ r, x.find_last_not_of_buf s pos n = .ok r ∧
      greatest_or_npos (not_member_at x.content (s.mem.take n)) (min pos (N - 1)) r ∧
      (N = 0 → r = npos)) ∧
    (∃ r, x.find_last_not_of_c_str z pos = .ok r ∧
      greatest_or_npos (not_member_at x.content z.c_str_chars) (min pos (N - 1)) r ∧
      (N = 0 → r = npos)) := by
  refine ⟨?_, x.find_last_not_of_char_spec c pos hN, x.find_last_not_of__spec ⟨s, n⟩ hsn pos hN,
    ?_⟩
  · obtain ⟨a1, a2, _⟩ := str.view_of_props
    have h := x.find_last_not_of__spec (basic_string_literal.view_of str) a1 pos hN
    rw [a2] at h
    exact h
  · obtain ⟨v, hv, b1, b2, _⟩ := string_view.of_c_str_props z hz
    have h := x.find_last_not_of__spec v b1 pos hN
    rw [b2] at h
    simpa only [basic_string_literal.find_last_not_of_c_str, hv, Result.bind_ok] using h

theorem find_last_not_of_greatest_witness :
    (∃ r, (lit "abcdefabc").find_last_not_of (lit "abcd") 7 = .ok r ∧
      greatest_or_npos (not_member_at (lit "abcdefabc").content (lit "abcd").content)
        (min 7 (9 - 1)) r ∧
      ((9 : Nat) = 0 → r = npos)) ∧
    (∃ r, (lit "abcdefabc").find_last_not_of_char 97 7 = .ok r ∧
      greatest_or_npos (not_member_at (lit "abcdefabc").content [97]) (min 7 (9 - 1)) r ∧
      ((9 : Nat) = 0 → r = npos)) ∧
    (∃ r, (lit "abcdefabc").find_last_not_of_buf ⟨[97, 98, 99, 100], 0⟩ 7 4 = .ok r ∧
      greatest_or_npos
        (not_member_at (lit "abcdefabc").content ((⟨[97, 98, 99, 100], 0⟩ : Ptr Nat).mem.take 4))
        (min 7 (9 - 1)) r ∧
      ((9 : Nat) = 0 → r = npos)) ∧
    (∃ r, (lit "abcdefabc").find_last_not_of_c_str ⟨chars "abcd", 0⟩ 7 = .ok r ∧
      greatest_or_npos
        (not_member_at (lit "abcdefabc").content (⟨chars "abcd", 0⟩ : Ptr Nat).c_str_chars)
        (min 7 (9 - 1)) r ∧
      ((9 : Nat) = 0 → r = npos)) :=
  find_last_not_of_greatest (lit "abcdefabc") (lit "abcd") ⟨[97, 98, 99, 100], 0⟩
    ⟨chars "abcd", 0⟩ 97 4 7
    (by decide) (by decide) (by unfold Ptr.terminated; decide)

/-- C24 (amended): `find_first_not_of(c, pos)` makes no check of `pos`: it
never raises the out-of-range condition, and returns `npos` for every
`pos >= size()`, in particular for `pos > size()`, where `find(c, pos)`
raises it. -/
theorem find_first_not_of_char_no_check (x : basic_string_literal Ch N) (c : Ch) (pos : Nat) :
    x.find_first_not_of_char c pos ≠ .out_of_range ∧
    (N ≤ pos → x.find_first_not_of_char c pos = .ok npos) ∧
    (N < pos → x.find_char c pos = .out_of_range) := by
  refine ⟨?_, fun h => ?_, fun h => (find_char_out_of_range_iff x c pos).mpr h⟩
  · by_cases hpos : pos ≤ N
    · obtain ⟨r, hr, _⟩ := forward_scan N (x.find_first_not_of_char_loop c) _ (fun _ => rfl)
        (x.find_first_not_of_char_loop_steps c) (N - pos) pos (by omega)
      have : x.find_first_not_of_char c pos = .ok r := hr
      rw [this]
      exact fun h => Result.noConfusion h
    · have hk : N - pos = 0 := by omega
      have : x.find_first_not_of_char c pos = .ok npos := by
        simp only [basic_string_literal.find_first_not_of_char, basic_string_literal.size, hk]
        rfl
      rw [this]
      exact fun h => Result.noConfusion h
  · have hk : N - pos = 0 := by omega
    simp only [basic_string_literal.find_first_not_of_char, basic_string_literal.size, hk]
    rfl

theorem find_first_not_of_char_no_check_witness :
    (lit "abc").find_first_not_of_char 97 4 ≠ .out_of_range ∧
    (3 ≤ 4 → (lit "abc").find_first_not_of_char 97 4 = .ok npos) ∧
    (3 < 4 → (lit "abc").find_char 97 4 = .out_of_range) :=
  find_first_not_of_char_no_check (lit "abc") 97 4

/-- C24, as stated, fails: for `"abc"` and `pos = 4 > size()`,
`find_first_not_of('a', 4)` returns `npos` and raises nothing, while
`find('a', 4)` raises the out-of-range condition. -/
theorem find_first_not_of_char_check_counterexample :
    ¬ ((lit "abc").find_first_not_of_char 97 4 = .out_of_range) ∧
    (lit "abc").find_first_not_of_char 97 4 = .ok npos ∧
    (lit "abc").find_char 97 4 = .out_of_range := by
  decide

end set_search_more

/-! ## Conversion of an integer -/

section integer_conversion

/-- C25, at the negative values of one digit: for `-9 <= v <= -1`,
`to_string_literal_i<v>()` is the character `0` followed by the digit of
`|v|`, not `-` followed by that digit (`"05"` for `-5`).  The loop that
follows the sign always writes one more digit, which for these values lands
on the sign. -/
theorem to_string_literal_i_one_digit_negative (v : Int) (hlo : -9 ≤ v) (hhi : v ≤ -1) :
    ∃ r, to_string_literal_i v = .ok r ∧ r.content = [48, 48 + v.natAbs] ∧
      r.content ≠ [45, 48 + v.natAbs] := by
  interval_cases v <;> exact ⟨_, rfl, by decide, by decide⟩

theorem to_string_literal_i_one_digit_negative_witness :
    ∃ r, to_string_literal_i (-5) = .ok r ∧ r.content = [48, 48 + (-5 : Int).natAbs] ∧
      r.content ≠ [45, 48 + (-5 : Int).natAbs] :=
  to_string_literal_i_one_digit_negative (-5) (by decide) (by decide)

theorem decimal_digits_of_lt (m : Nat) (h : m < 10) : decimal_digits m = 1 := by
  by_cases h0 : m = 0
  · simp [decimal_digits, h0]
  · simp [decimal_digits, h0, Nat.digits_of_lt 10 m h0 h]

theorem decimal_digits_of_ge (m : Nat) (h : 10 ≤ m) :
    decimal_digits m = decimal_digits (m / 10) + 1 := by
  have h0 : m ≠ 0 := by omega
  have h1 : m / 10 ≠ 0 := by omega
  simp only [decimal_digits, h0, h1, if_false]
  rw [Nat.digits_def' (by omega) (by omega)]
  rfl

theorem decimal_digits_pos (m : Nat) : 1 ≤ decimal_digits m := by
  by_cases h : m < 10
  · rw [decimal_digits_of_lt m h]
  · rw [decimal_digits_of_ge m (by omega)]
    omega

theorem Int.natAbs_tdiv_ten (val : Int) : (val.tdiv 10).natAbs = val.natAbs / 10 := by
  rw [Int.natAbs_tdiv]
  rfl

theorem Int.tdiv_ten_eq_zero_iff (val : Int) : val.tdiv 10 = 0 ↔ val.natAbs < 10 := by
  rw [← Int.natAbs_eq_zero, Int.natAbs_tdiv_ten]
  omega

/-- The loop of `digits10_for` counts the decimal digits, when `fuel`
bounds their number. -/
theorem detail_.digits10_loop_eq (fuel : Nat) :
    ∀ (val : Int) (n : Nat), val.natAbs < 10 ^ fuel → 0 < fuel →
      detail_.digits10_loop fuel val n = n + decimal_digits val.natAbs := by
  induction fuel with
  | zero => intro val n _ h; exact absurd h (Nat.lt_irrefl 0)
  | succ fuel ih =>
    intro val n hlt _
    rw [detail_.digits10_loop]
    by_cases hz : val.tdiv 10 = 0
    · have hm := (Int.tdiv_ten_eq_zero_iff val).mp hz
      simp only [hz, ne_eq, not_true_eq_false, if_false, decimal_digits_of_lt _ hm]
    · have hm : 10 ≤ val.natAbs := by
        by_contra hc
        exact hz ((Int.tdiv_ten_eq_zero_iff val).mpr (by omega))
      have hfuel : 0 < fuel := by
        by_contra hc
        have h0 : fuel = 0 := by omega
        rw [h0] at hlt
        simp at hlt
        omega
      have hlt2 : (val.tdiv 10).natAbs < 10 ^ fuel := by
        rw [Int.natAbs_tdiv_ten]
        rw [Nat.pow_succ] at hlt
        omega
      simp only [ne_eq, hz, not_false_eq_true, if_true]
      rw [ih (val.tdiv 10) (n + 1) hlt2 hfuel, Int.natAbs_tdiv_ten, decimal_digits_of_ge _ hm]
      omega

theorem natAbs_lt_pow_twenty (v : Int) (hlo : -9223372036854775808 ≤ v)
    (hhi : v < 18446744073709551616) : v.natAbs < 10 ^ 20 := by
  have : (10 : Nat) ^ 20 = 100000000000000000000 := by norm_num
  rw [this]
  omega

/-- The count of `digits10_for` for a value of a 64-bit type. -/
theorem detail_.digits10_for_count (v : Int) (hlo : -9223372036854775808 ≤ v)
    (hhi : v < 18446744073709551616) :
    detail_.digits10_for v = decimal_digits v.natAbs + (if v < 0 then 1 else 0) := by
  rw [detail_.digits10_for,
    detail_.digits10_loop_eq 20 v _ (natAbs_lt_pow_twenty v hlo hhi) (by omega)]
  omega

/-- C26: for every integer `v` of the converted type (a `long long` or an
`unsigned long long`), `digits10_for(v)` is the number of decimal digits of
`|v|` (1 for `v == 0`) plus 1 if `v < 0`; the loop ends within its 20 rounds
for every such `v`, the extreme values included. -/
theorem digits10_for_eq (v : Int) (hlo : -9223372036854775808 ≤ v)
    (hhi : v < 18446744073709551616) :
    detail_.digits10_for v = decimal_digits v.natAbs + (if v < 0 then 1 else 0) ∧
    (∀ fuel, 20 ≤ fuel →
      detail_.digits10_loop fuel v (if v < 0 then 1 else 0) = detail_.digits10_for v) := by
  refine ⟨detail_.digits10_for_count v hlo hhi, fun fuel hf => ?_⟩
  have h20 := natAbs_lt_pow_twenty v hlo hhi
  have hpow : (10 : Nat) ^ 20 ≤ 10 ^ fuel := Nat.pow_le_pow_right (by omega) hf
  rw [detail_.digits10_for, detail_.digits10_loop_eq 20 v _ h20 (by omega),
    detail_.digits10_loop_eq fuel v _ (by omega) (by omega)]

theorem digits10_for_eq_witness :
    detail_.digits10_for (-9223372036854775808)
      = decimal_digits (-9223372036854775808 : Int).natAbs
        + (if (-9223372036854775808 : Int) < 0 then 1 else 0) ∧
    (∀ fuel, 20 ≤ fuel →
      detail_.digits10_loop fuel (-9223372036854775808)
          (if (-9223372036854775808 : Int) < 0 then 1 else 0)
        = detail_.digits10_for (-9223372036854775808)) :=
  digits10_for_eq (-9223372036854775808) (by decide) (by decide)

/-- The digit loop of the conversion stays inside of the buffer when `p`
leaves room for the digits. -/
theorem write_digits_ok (fuel : Nat) :
    ∀ (val : Int) (buf : List Nat) (p : Nat), val.natAbs < 10 ^ fuel → 0 < fuel →
      decimal_digits val.natAbs ≤ p → p ≤ buf.length →
      ∃ b, write_digits fuel val buf p = .ok b ∧ b.length = buf.length := by
  induction fuel with
  | zero => intro _ _ _ _ h; exact absurd h (Nat.lt_irrefl 0)
  | succ fuel ih =>
    intro val buf p hlt _ hd hp
    have hdd := decimal_digits_pos val.natAbs
    have hc : 0 < p ∧ p - 1 < buf.length := by omega
    rw [write_digits, if_pos hc]
    by_cases hz : val.tdiv 10 = 0
    · simp only [hz, ne_eq, not_true_eq_false, if_false]
      exact ⟨_, rfl, by simp⟩
    · have hm : 10 ≤ val.natAbs := by
        by_contra hc2
        exact hz ((Int.tdiv_ten_eq_zero_iff val).mpr (by omega))
      have hfuel : 0 < fuel := by
        by_contra hc2
        have h0 : fuel = 0 := by omega
        rw [h0] at hlt
        simp at hlt
        omega
      have hlt2 : (val.tdiv 10).natAbs < 10 ^ fuel := by
        rw [Int.natAbs_tdiv_ten]
        rw [Nat.pow_succ] at hlt
        omega
      have hd2 : decimal_digits (val.tdiv 10).natAbs ≤ p - 1 := by
        rw [Int.natAbs_tdiv_ten]
        have := decimal_digits_of_ge _ hm
        omega
      simp only [ne_eq, hz, not_false_eq_true, if_true]
      obtain ⟨b, hb, hbl⟩ := ih (val.tdiv 10)
        (buf.set (p - 1) (val.tmod 10 + 48).toNat) (p - 1) hlt2 hfuel hd2
        (by rw [List.length_set]; omega)
      exact ⟨b, hb, by rw [hbl, List.length_set]⟩

theorem decimal_digits_div_le (m : Nat) : decimal_digits (m / 10) ≤ decimal_digits m := by
  by_cases h : m < 10
  · have h0 : m / 10 = 0 := by omega
    rw [h0, decimal_digits_of_lt m h, decimal_digits_of_lt 0 (by omega)]
  · rw [decimal_digits_of_ge m (by omega)]
    omega

end integer_conversion

/-! ## Conversion to a string -/

section to_string

variable {Ch : Type} {N : Nat}

/-- C27: `to_string()` has length `N` and its `i`-th character is `s[i]`
for every `i < N`, whatever the characters, zero characters included. -/
theorem to_string_characters (x : basic_string_literal Ch N) :
    ∃ l, x.to_string = .ok l ∧ l.length = N ∧
      ∀ i, i < N → ∃ c, l[i]? = some c ∧ x.index i = .ok c := by
  have hb : x.data.idx + x.size ≤ x.data.arr.length := by
    simp [basic_string_literal.data, basic_string_literal.size, x.data_len]
  refine ⟨x.content, ?_, x.content_length, fun i hi => ?_⟩
  · rw [basic_string_literal.to_string, basic_string_ctor, if_pos hb, x.take_mem_data]
  · obtain ⟨c, hc1, hc2⟩ := x.index_eq_content i hi
    exact ⟨c, hc2, hc1⟩

end to_string

/-! ## Factories -/

section factory_values

variable {Ch : Type} [Zero Ch] {N : Nat}

omit [Zero Ch] in
/-- What the loop of the repeated-character constructor writes: `n`
characters `c` from `p` on. -/
theorem basic_string_literal.fill_loop_spec (c : Ch) (n : Nat) :
    ∀ (x : basic_string_literal Ch N) (p : Nat), p + n ≤ N + 1 →
      ∃ r, basic_string_literal.fill_loop x p c n = .ok r ∧
        ∀ i, r.data_[i]? = if p ≤ i ∧ i < p + n then some c else x.data_[i]? := by
  induction n with
  | zero =>
    intro x p _
    refine ⟨x, rfl, fun i => ?_⟩
    have : ¬ (p ≤ i ∧ i < p + 0) := by omega
    rw [if_neg this]
  | succ n ih =>
    intro x p hp
    have hp1 : p < N + 1 := by omega
    obtain ⟨r, hr, hget⟩ := ih (x.store p c) (p + 1) (by omega)
    refine ⟨r, ?_, fun i => ?_⟩
    · simp only [basic_string_literal.fill_loop, hp1, if_true]
      exact hr
    · rw [hget i]
      have hlen : p < x.data_.length := by rw [x.data_len]; exact hp1
      by_cases h1 : p + 1 ≤ i ∧ i < p + 1 + n
      · have h2 : p ≤ i ∧ i < p + (n + 1) := by omega
        rw [if_pos h1, if_pos h2]
      · rw [if_neg h1]
        by_cases h3 : i = p
        · subst h3
          have h2 : i ≤ i ∧ i < i + (n + 1) := by omega
          rw [if_pos h2]
          simp [basic_string_literal.store, List.getElem?_set, hlen]
        · have h2 : ¬ (p ≤ i ∧ i < p + (n + 1)) := by omega
          rw [if_neg h2]
          simp [basic_string_literal.store, List.getElem?_set, Ne.symm h3]

/-- The value of the repeated-character factory, element by element. -/
theorem make_string_literal_fill_data (c : Ch) :
    ∃ r, make_string_literal_fill N c = .ok r ∧
      ∀ i, r.data_[i]? = if i < N then some c else if i < N + 1 then some 0 else none := by
  obtain ⟨r, hr, hget⟩ := basic_string_literal.fill_loop_spec c N
    (basic_string_literal.zero_init Ch N) 0 (by omega)
  refine ⟨r, hr, fun i => ?_⟩
  rw [hget i, basic_string_literal.zero_init_getElem?]
  by_cases h : i < N
  · have h2 : 0 ≤ i ∧ i < 0 + N := by omega
    rw [if_pos h2, if_pos h]
  · have h2 : ¬ (0 ≤ i ∧ i < 0 + N) := by omega
    rw [if_neg h2, if_neg h]

/-- C30: `make_string_literal<N>(c)` returns a value with `size() == N` in
which the character at every index `i < N` is `c`; the value is empty
exactly when `N == 0`. -/
theorem make_string_literal_fill_characters (c : Ch) :
    ∃ r, make_string_literal_fill N c = .ok r ∧ r.size = N ∧
      (∀ i, i < N → r.index i = .ok c) ∧ (r.empty = true ↔ N = 0) := by
  obtain ⟨r, hr, hget⟩ := make_string_literal_fill_data (N := N) c
  refine ⟨r, hr, rfl, fun i hi => ?_, ?_⟩
  · simp only [basic_string_literal.index, hget i, hi, if_true]
  · simp [basic_string_literal.empty, basic_string_literal.size]

/-- The element at index `N` of a buffer that is at most `N` characters
followed by zeros. -/
theorem basic_string_literal.index_terminator (x : basic_string_literal Ch N) (l : List Ch)
    (k : Nat) (hl : l.length ≤ N) (h : x.data_ = l ++ List.replicate k 0) :
    x.index N = .ok 0 := by
  have hlen := x.data_len
  rw [h, List.length_append, List.length_replicate] at hlen
  have hget : x.data_[N]? = some 0 := by
    rw [h, List.getElem?_append_right hl, List.getElem?_replicate, if_pos (by omega)]
  simp only [basic_string_literal.index, hget]

/-- C29: for an array `arr` of `M >= 1` elements, `make_string_literal(arr)`
returns a value with `size() == M - 1` whose `i`-th character is `arr[i]`
for every `i < M - 1`, whatever the characters; `empty()` holds if and only
if `size() == 0`, and for a non-empty value `front()` is `s[0]` and `back()`
is `s[size()-1]`, both characters of the array. -/
theorem make_string_literal_characters (arr : List Ch) (ha : arr ≠ [])
    (hl : arr.length ≤ PTRDIFF_MAX) :
    ∃ r, make_string_literal arr = .ok r ∧ r.size = arr.length - 1 ∧
      (∀ i, i < arr.length - 1 → ∃ c, arr[i]? = some c ∧ r.index i = .ok c) ∧
      (r.empty = true ↔ r.size = 0) ∧
      (0 < r.size →
        r.front = r.index 0 ∧ r.back = r.index (r.size - 1) ∧
        (∃ c, arr[0]? = some c ∧ r.front = .ok c) ∧
        (∃ c, arr[arr.length - 2]? = some c ∧ r.back = .ok c)) := by
  have hpos : 0 < arr.length := List.length_pos.mpr ha
  have hA : (⟨arr, 0⟩ : Ptr Ch).idx + (arr.length - 1) ≤ (⟨arr, 0⟩ : Ptr Ch).arr.length := by
    simp
  obtain ⟨r, hr, hd⟩ := basic_string_literal.ctor_arr_spec (N := arr.length - 1) ⟨arr, 0⟩
    (arr.length - 1) hA (le_refl _)
  have hidx : ∀ i, i < arr.length - 1 → ∃ c, arr[i]? = some c ∧ r.index i = .ok c := by
    intro i hi
    have hlt : i < arr.length := by omega
    have hri : r.data_[i]? = arr[i]? := by
      rw [hd, List.getElem?_append_left (by rw [Ptr.length_take_mem _ _ hA]; exact hi),
        Ptr.getElem?_take_mem, if_pos hi]
      simp
    refine ⟨arr.get ⟨i, hlt⟩, by simp [List.getElem?_eq_getElem hlt], ?_⟩
    simp [basic_string_literal.index, hri, List.getElem?_eq_getElem hlt]
  refine ⟨r, hr, rfl, hidx, ?_, fun hsz => ?_⟩
  · simp [basic_string_literal.empty]
  · simp only [basic_string_literal.size] at hsz
    have hback : size_sub r.size 1 = r.size - 1 := by
      simp only [basic_string_literal.size]
      exact size_sub_of_le _ 1 (by omega) (by omega)
    have e2 : arr.length - 1 - 1 = arr.length - 2 := by omega
    refine ⟨rfl, by rw [basic_string_literal.back, hback], hidx 0 hsz, ?_⟩
    obtain ⟨c, hc1, hc2⟩ := hidx (arr.length - 1 - 1) (by omega)
    rw [e2] at hc1
    refine ⟨c, hc1, ?_⟩
    rw [basic_string_literal.back, hback]
    exact hc2

theorem make_string_literal_characters_witness :
    ∃ r, make_string_literal (chars "42\x00") = .ok r ∧
      r.size = (chars "42\x00").length - 1 ∧
      (∀ i, i < (chars "42\x00").length - 1 →
        ∃ c, (chars "42\x00")[i]? = some c ∧ r.index i = .ok c) ∧
      (r.empty = true ↔ r.size = 0) ∧
      (0 < r.size →
        r.front = r.index 0 ∧ r.back = r.index (r.size - 1) ∧
        (∃ c, (chars "42\x00")[0]? = some c ∧ r.front = .ok c) ∧
        (∃ c, (chars "42\x00")[(chars "42\x00").length - 2]? = some c ∧ r.back = .ok c)) :=
  make_string_literal_characters (chars "42\x00") (by decide) (by decide)

end factory_values

/-! ## The invariant of the values the public operations return -/

section invariants

variable {Ch : Type} [Zero Ch] {N n1 n2 : Nat}

/-- The factory of the array constructor returns a value with the invariant
when the range lies inside of its array and fits the buffer. -/
theorem detail_.core_access.mk_lit_invariant (arr : Ptr Ch) (n : Nat)
    (ha : arr.idx + n ≤ arr.arr.length) (hn : n ≤ N) :
    returns_with_invariant (detail_.core_access.mk_lit N arr n) := by
  obtain ⟨r, hr, hd⟩ := basic_string_literal.ctor_arr_spec (N := N) arr n ha hn
  refine ⟨r, hr, r.data_len, rfl, r.index_terminator _ _ ?_ hd⟩
  rw [Ptr.length_take_mem _ _ ha]
  exact hn

/-- The factory of the concatenating constructor returns a value with the
invariant when both ranges lie inside of their arrays and fit the buffer. -/
theorem detail_.core_access.mk_lit_cat_invariant (arr1 arr2 : Ptr Ch) (k1 k2 : Nat)
    (h1 : arr1.idx + k1 ≤ arr1.arr.length) (h2 : arr2.idx + k2 ≤ arr2.arr.length)
    (hN : k1 + k2 ≤ N) :
    returns_with_invariant (detail_.core_access.mk_lit_cat N arr1 k1 arr2 k2) := by
  obtain ⟨r, hr, hd⟩ := basic_string_literal.ctor_cat_spec (N := N) arr1 arr2 k1 k2 h1 h2 hN
  refine ⟨r, hr, r.data_len, rfl, r.index_terminator _ _ ?_ hd⟩
  rw [List.length_append, Ptr.length_take_mem arr1 k1 h1, Ptr.length_take_mem arr2 k2 h2]
  exact hN

/-- The repeated-character factory returns a value with the invariant. -/
theorem make_string_literal_fill_invariant (c : Ch) :
    returns_with_invariant (make_string_literal_fill N c) := by
  obtain ⟨r, hr, hget⟩ := make_string_literal_fill_data (N := N) c
  refine ⟨r, hr, r.data_len, rfl, ?_⟩
  have h1 : ¬ N < N := Nat.lt_irrefl N
  have h2 : N < N + 1 := Nat.lt_succ_self N
  simp only [basic_string_literal.index, hget N, if_neg h1, if_pos h2]

/-- The conversion returns a value for every integer of a 64-bit type, and
the terminator of the value is zero. -/
theorem to_basic_string_literal_invariant (v : Int) (hlo : -9223372036854775808 ≤ v)
    (hhi : v < 18446744073709551616) : returns_with_invariant (to_basic_string_literal v) := by
  have hsz := detail_.digits10_for_count v hlo hhi
  have hdd := decimal_digits_pos v.natAbs
  have h20 := natAbs_lt_pow_twenty v hlo hhi
  have hfin : ∀ b : List Nat, b.length = detail_.digits10_for v →
      returns_with_invariant
        (detail_.core_access.mk_lit (detail_.digits10_for v) ⟨b, 0⟩
          (detail_.digits10_for v)) := by
    intro b hb
    have hA : (⟨b, 0⟩ : Ptr Nat).idx + detail_.digits10_for v ≤ (⟨b, 0⟩ : Ptr Nat).arr.length := by
      simp [hb]
    obtain ⟨r, hr, hd⟩ := basic_string_literal.ctor_arr_spec (N := detail_.digits10_for v)
      ⟨b, 0⟩ (detail_.digits10_for v) hA (le_refl _)
    refine ⟨r, hr, r.data_len, rfl, r.index_terminator _ _ ?_ hd⟩
    rw [Ptr.length_take_mem _ _ hA]
  by_cases hneg : v < 0
  · rw [if_pos hneg] at hsz
    have hc : 0 < (List.replicate (detail_.digits10_for v) (0 : Nat)).length ∧
        0 < detail_.digits10_for v ∧
        detail_.digits10_for v - 1 < (List.replicate (detail_.digits10_for v) (0 : Nat)).length := by
      rw [List.length_replicate]
      omega
    have habs : (-(v.tdiv 10)).natAbs = v.natAbs / 10 := by
      rw [Int.natAbs_neg, Int.natAbs_tdiv_ten]
    obtain ⟨b, hb, hbl⟩ := write_digits_ok 20 (-(v.tdiv 10))
      (((List.replicate (detail_.digits10_for v) (0 : Nat)).set 0 45).set
        (detail_.digits10_for v - 1) (-(v.tmod 10) + 48).toNat)
      (detail_.digits10_for v - 1) (by rw [habs]; omega) (by omega)
      (by rw [habs]; have := decimal_digits_div_le v.natAbs; omega)
      (by simp only [List.length_set, List.length_replicate]; omega)
    simp only [List.length_set, List.length_replicate] at hbl
    rw [to_basic_string_literal, write_sign, if_pos hneg, if_pos hc, Result.bind_ok]
    simp only [hb, Result.bind_ok]
    exact hfin b hbl
  · rw [if_neg hneg] at hsz
    obtain ⟨b, hb, hbl⟩ := write_digits_ok 20 v
      (List.replicate (detail_.digits10_for v) (0 : Nat)) (detail_.digits10_for v) h20
      (by omega) (by omega) (by rw [List.length_replicate])
    rw [List.length_replicate] at hbl
    rw [to_basic_string_literal, write_sign, if_neg hneg, Result.bind_ok]
    simp only [hb, Result.bind_ok]
    exact hfin b hbl

/-- C28: every value of length `N` the public operations return (the literal
factory, the repeated-character factory, every form of `operator+`,
`substr`, the conversion of a `long long` and of an `unsigned long long`) is
returned with the invariant: the buffer holds `N + 1` elements, `size()` is
`N`, and the element at index `N` is the zero character.  `substr<pos, n>()`
carries its `static_assert(pos < N)`; the other operations take every value,
the empty one included. -/
theorem public_operations_invariant (x : basic_string_literal Ch n1)
    (y : basic_string_literal Ch n2) (a : List Ch) (c : Ch) (K pos n : Nat)
    (ha : a ≠ []) (vi vu : Int)
    (hvi : -9223372036854775808 ≤ vi ∧ vi < 9223372036854775808)
    (hvu : 0 ≤ vu ∧ vu < 18446744073709551616) :
    returns_with_invariant (make_string_literal a) ∧
    returns_with_invariant (make_string_literal_fill K c) ∧
    returns_with_invariant (operator_plus x y) ∧
    returns_with_invariant (operator_plus_value_array x a) ∧
    returns_with_invariant (operator_plus_array_value a y) ∧
    returns_with_invariant (operator_plus_value_char x c) ∧
    returns_with_invariant (operator_plus_char_value c y) ∧
    (∀ hpos : pos < n1, returns_with_invariant (x.substr pos n hpos)) ∧
    returns_with_invariant (to_string_literal_i vi) ∧
    returns_with_invariant (to_string_literal_u vu) := by
  have hx : x.data.idx + x.size ≤ x.data.arr.length := by
    simp [basic_string_literal.data, basic_string_literal.size, x.data_len]
  have hy : y.data.idx + y.size ≤ y.data.arr.length := by
    simp [basic_string_literal.data, basic_string_literal.size, y.data_len]
  have hlen : 0 < a.length := List.length_pos.mpr ha
  have hA : (⟨a, 0⟩ : Ptr Ch).idx + (a.length - 1) ≤ (⟨a, 0⟩ : Ptr Ch).arr.length := by
    simp
  have hC : (⟨[c], 0⟩ : Ptr Ch).idx + 1 ≤ (⟨[c], 0⟩ : Ptr Ch).arr.length := by simp
  refine ⟨?_, ?_, ?_, ?_, ?_, ?_, ?_, fun hpos => ?_, ?_, ?_⟩
  · exact detail_.core_access.mk_lit_invariant ⟨a, 0⟩ (a.length - 1) hA (le_refl _)
  · exact make_string_literal_fill_invariant c
  · exact detail_.core_access.mk_lit_cat_invariant x.data y.data x.size y.size hx hy (le_refl _)
  · exact detail_.core_access.mk_lit_cat_invariant x.data ⟨a, 0⟩ x.size (a.length - 1) hx hA
      (by simp only [basic_string_literal.size]; omega)
  · exact detail_.core_access.mk_lit_cat_invariant ⟨a, 0⟩ y.data (a.length - 1) y.size hA hy
      (le_refl _)
  · exact detail_.core_access.mk_lit_cat_invariant x.data ⟨[c], 0⟩ x.size 1 hx hC (le_refl _)
  · exact detail_.core_access.mk_lit_cat_invariant ⟨[c], 0⟩ y.data 1 y.size hC hy
      (by simp only [basic_string_literal.size]; omega)
  · have hS : (x.data.add pos).idx + min n (n1 - pos) ≤ (x.data.add pos).arr.length := by
      simp only [basic_string_literal.data, Ptr.add, x.data_len]
      omega
    exact detail_.core_access.mk_lit_invariant (x.data.add pos) (min n (n1 - pos)) hS
      (le_refl _)
  · exact to_basic_string_literal_invariant vi (by omega) (by omega)
  · exact to_basic_string_literal_invariant vu (by omega) (by omega)

theorem public_operations_invariant_witness :
    returns_with_invariant (make_string_literal (chars "abcdef")) ∧
    returns_with_invariant (make_string_literal_fill 3 (100 : Nat)) ∧
    returns_with_invariant (operator_plus (lit "abcdef") (lit "abc")) ∧
    returns_with_invariant (operator_plus_value_array (lit "abcdef") (chars "abcdef")) ∧
    returns_with_invariant (operator_plus_array_value (chars "abcdef") (lit "abc")) ∧
    returns_with_invariant (operator_plus_value_char (lit "abcdef") 100) ∧
    returns_with_invariant (operator_plus_char_value 100 (lit "abc")) ∧
    (∀ hpos : 1 < 6, returns_with_invariant ((lit "abcdef").substr 1 5 hpos)) ∧
    returns_with_invariant (to_string_literal_i (-42)) ∧
    returns_with_invariant (to_string_literal_u 42) :=
  public_operations_invariant (lit "abcdef") (lit "abc") (chars "abcdef") 100 3 1 5
    (by decide) (-42) 42 (by decide) (by decide)

end invariants

/-! ## Hashes -/

section hashes

variable {Ch : Type} {N : Nat}

theorem mul_assign_of_le (w h prime : Nat) (hw : INT_BITS ≤ w) :
    mul_assign w h prime = .ok (h * prime % 2 ^ w) := by
  have : ¬ (w < INT_BITS ∧ INT_MAX < ((h * prime : Nat) : Int)) := fun hc => by omega
  rw [mul_assign, if_neg this]

/-- The loop of `fnv1_fn` over a range inside of its array, for a type `T`
that is not promoted. -/
theorem fnv1_loop_spec (w prime : Nat) (code : Ch → Int) (hw : INT_BITS ≤ w) (n : Nat) :
    ∀ (first : Ptr Ch) (h : Nat), first.idx + n ≤ first.arr.length →
      fnv1_loop w prime code first h n
        = .ok ((hash_elements w code (first.mem.take n)).foldl (fnv1_step w prime) h) := by
  induction n with
  | zero => intro first h _; simp [fnv1_loop, hash_elements]
  | succ n ih =>
    intro first h hr
    have hlt : first.idx < first.arr.length := by omega
    rw [fnv1_loop, mul_assign_of_le w h prime hw]
    simp only [Ptr.deref_of_lt first hlt]
    rw [ih (first.add 1) _ (by simp only [Ptr.add]; omega), Ptr.mem_eq_cons first hlt]
    simp [hash_elements, fnv1_step]

/-- The loop of `fnv1a_fn` over a range inside of its array, for a type `T`
that is not promoted. -/
theorem fnv1a_loop_spec (w prime : Nat) (code : Ch → Int) (hw : INT_BITS ≤ w) (n : Nat) :
    ∀ (first : Ptr Ch) (h : Nat), first.idx + n ≤ first.arr.length →
      fnv1a_loop w prime code first h n
        = .ok ((hash_elements w code (first.mem.take n)).foldl (fnv1a_step w prime) h) := by
  induction n with
  | zero => intro first h _; simp [fnv1a_loop, hash_elements]
  | succ n ih =>
    intro first h hr
    have hlt : first.idx < first.arr.length := by omega
    rw [fnv1a_loop]
    simp only [Ptr.deref_of_lt first hlt]
    rw [mul_assign_of_le w _ prime hw]
    simp only []
    rw [ih (first.add 1) _ (by simp only [Ptr.add]; omega), Ptr.mem_eq_cons first hlt]
    simp [hash_elements, fnv1a_step]

/-- C31: on a 64-bit platform `string_id(s)` is the FNV-1a fold over the `N`
characters of `s` in order, from `h0 = 0xcbf29ce484222325` with
`h = ((h xor e) * 0x100000001b3) mod 2^64` for each element `e` (the
character converted to `std::size_t`); it is `h0` for the empty value, and
the identifiers of `"abcdef"` and `"abcdefabc"` are the ones of the test. -/
theorem string_id_fnv1a (code : Ch → Int) (x : basic_string_literal Ch N) :
    string_id code x
      = .ok (fnv1a_fold 64 0xcbf29ce484222325 0x100000001b3 (hash_elements 64 code x.content)) ∧
    (N = 0 → string_id code x = .ok 0xcbf29ce484222325) ∧
    string_id Int.ofNat (lit "abcdef") = .ok 15567776504244095498 ∧
    string_id Int.ofNat (lit "abcdefabc") = .ok 16785409650144737470 := by
  have hx : x.data.idx + x.size ≤ x.data.arr.length := by
    simp [basic_string_literal.data, basic_string_literal.size, x.data_len]
  have h := fnv1a_loop_spec 64 0x100000001b3 code (by decide) x.size x.data
    0xcbf29ce484222325 hx
  rw [x.take_mem_data] at h
  refine ⟨h, fun h0 => ?_, by decide, by decide⟩
  have hc : x.content = [] := List.eq_nil_of_length_eq_zero (by rw [x.content_length]; exact h0)
  have h2 : string_id code x
      = .ok ((hash_elements 64 code x.content).foldl (fnv1a_step 64 0x100000001b3)
          0xcbf29ce484222325) := h
  rw [h2, hc]
  rfl

/-- C32: over a range inside of its array, `fnv1_fn<T, offset, prime>`
returns the fold `h0 = offset`, `h = ((h * prime) mod 2^w) xor e` for each
element `e` in order, which is `offset` for the empty range; `fnv1a_fn` runs
the same fold with the exclusive-or made before the multiplication.  `T` is an
unsigned type of `w` bits that is not promoted to `int`; the predefined
`fnv1_hash_fn` and `fnv1a_hash_fn` take the 64-bit constants. -/
theorem fnv1_fn_fold (w offset prime : Nat) (code : Ch → Int) (first : Ptr Ch) (n : Nat)
    (hw : INT_BITS ≤ w) (hr : first.idx + n ≤ first.arr.length) :
    fnv1_fn w offset prime code first n
      = .ok (fnv1_fold w offset prime (hash_elements w code (first.mem.take n))) ∧
    (n = 0 → fnv1_fn w offset prime code first n = .ok offset) ∧
    fnv1a_fn w offset prime code first n
      = .ok (fnv1a_fold w offset prime (hash_elements w code (first.mem.take n))) ∧
    (∀ h e, fnv1_step w prime h e = ((h * prime) % 2 ^ w) ^^^ e) ∧
    (∀ h e, fnv1a_step w prime h e = ((h ^^^ e) * prime) % 2 ^ w) ∧
    fnv1_hash_fn code first n
      = .ok (fnv1_fold 64 0xcbf29ce484222325 0x100000001b3
          (hash_elements 64 code (first.mem.take n))) ∧
    fnv1a_hash_fn code first n
      = .ok (fnv1a_fold 64 0xcbf29ce484222325 0x100000001b3
          (hash_elements 64 code (first.mem.take n))) := by
  have h1 := fnv1_loop_spec w prime code hw n first offset hr
  refine ⟨h1, fun h0 => ?_, fnv1a_loop_spec w prime code hw n first offset hr,
    fun _ _ => rfl, fun _ _ => rfl,
    fnv1_loop_spec 64 0x100000001b3 code (by decide) n first 0xcbf29ce484222325 hr,
    fnv1a_loop_spec 64 0x100000001b3 code (by decide) n first 0xcbf29ce484222325 hr⟩
  subst h0
  rfl

theorem fnv1_fn_fold_witness :
    fnv1_fn 32 fnv_32_offset_basis fnv_32_prime Int.ofNat ⟨chars "ab", 0⟩ 2
      = .ok (fnv1_fold 32 fnv_32_offset_basis fnv_32_prime
          (hash_elements 32 Int.ofNat ((⟨chars "ab", 0⟩ : Ptr Nat).mem.take 2))) ∧
    (2 = 0 → fnv1_fn 32 fnv_32_offset_basis fnv_32_prime Int.ofNat ⟨chars "ab", 0⟩ 2
      = .ok fnv_32_offset_basis) ∧
    fnv1a_fn 32 fnv_32_offset_basis fnv_32_prime Int.ofNat ⟨chars "ab", 0⟩ 2
      = .ok (fnv1a_fold 32 fnv_32_offset_basis fnv_32_prime
          (hash_elements 32 Int.ofNat ((⟨chars "ab", 0⟩ : Ptr Nat).mem.take 2))) ∧
    (∀ h e, fnv1_step 32 fnv_32_prime h e = ((h * fnv_32_prime) % 2 ^ 32) ^^^ e) ∧
    (∀ h e, fnv1a_step 32 fnv_32_prime h e = ((h ^^^ e) * fnv_32_prime) % 2 ^ 32) ∧
    fnv1_hash_fn Int.ofNat ⟨chars "ab", 0⟩ 2
      = .ok (fnv1_fold 64 0xcbf29ce484222325 0x100000001b3
          (hash_elements 64 Int.ofNat ((⟨chars "ab", 0⟩ : Ptr Nat).mem.take 2))) ∧
    fnv1a_hash_fn Int.ofNat ⟨chars "ab", 0⟩ 2
      = .ok (fnv1a_fold 64 0xcbf29ce484222325 0x100000001b3
          (hash_elements 64 Int.ofNat ((⟨chars "ab", 0⟩ : Ptr Nat).mem.take 2))) :=
  fnv1_fn_fold 32 fnv_32_offset_basis fnv_32_prime Int.ofNat ⟨chars "ab", 0⟩ 2
    (by decide) (by decide)

theorem fnv1_step_lt (w prime h e : Nat) (he : e < 2 ^ w) : fnv1_step w prime h e < 2 ^ w :=
  Nat.xor_lt_two_pow (Nat.mod_lt _ (Nat.two_pow_pos w)) he

theorem to_unsigned_lt (w : Nat) (v : Int) : to_unsigned w v < 2 ^ w := by
  have hpos : (0 : Int) < (2 : Int) ^ w := by positivity
  have h1 := Int.emod_lt_of_pos v hpos
  have h2 := Int.emod_nonneg v (ne_of_gt hpos)
  have h3 : ((to_unsigned w v : Nat) : Int) = v % (2 : Int) ^ w := Int.toNat_of_nonneg h2
  have h4 : ((to_unsigned w v : Nat) : Int) < ((2 ^ w : Nat) : Int) := by
    rw [h3]
    push_cast
    exact h1
  exact Int.ofNat_lt.mp h4

/-- The value of the FNV-1 fold fits the `w` bits of its type. -/
theorem fnv1_fold_lt (w offset prime : Nat) (code : Ch → Int) (l : List Ch)
    (ho : offset < 2 ^ w) : fnv1_fold w offset prime (hash_elements w code l) < 2 ^ w := by
  unfold fnv1_fold
  induction l using List.reverseRecOn with
  | nil => simpa [hash_elements] using ho
  | append_singleton l c _ =>
    simp only [hash_elements, List.map_append, List.map_cons, List.map_nil, List.foldl_append,
      List.foldl_cons, List.foldl_nil]
    exact fnv1_step_lt w prime _ _ (to_unsigned_lt w (code c))

/-- The value of the FNV-1a fold fits the `w` bits of its type. -/
theorem fnv1a_fold_lt (w offset prime : Nat) (code : Ch → Int) (l : List Ch)
    (ho : offset < 2 ^ w) : fnv1a_fold w offset prime (hash_elements w code l) < 2 ^ w := by
  unfold fnv1a_fold
  induction l using List.reverseRecOn with
  | nil => simpa [hash_elements] using ho
  | append_singleton l c _ =>
    simp only [hash_elements, List.map_append, List.map_cons, List.map_nil, List.foldl_append,
      List.foldl_cons, List.foldl_nil]
    exact Nat.mod_lt _ (Nat.two_pow_pos w)

/-- C33: for a bit boundary `Bits < 32` and a hash function `FNV` whose
result `h` has `W <= 64` bits, `fnv_xor_folding_fn<FNV, Bits>` returns
`(h >> Bits) xor (h mod 2^Bits)`; when `W <= 2 * Bits` the result is smaller
than `2^Bits`.  With a result type `T` of `wT` bits given, the value is
reduced modulo `2^wT`.  The hashes `fnv1_fn` and `fnv1a_fn` make such an
`FNV` when their offset fits `w` bits. -/
theorem fnv_xor_folding_value (FNV : Ptr Ch → Nat → Result Nat) (W Bits : Nat) (first : Ptr Ch)
    (n h : Nat) (hB : Bits < 32) (hW : W ≤ 64) (hF : FNV first n = .ok h) (hh : h < 2 ^ W) :
    fnv_xor_folding_fn FNV W Bits none first n = .ok ((h >>> Bits) ^^^ (h % 2 ^ Bits)) ∧
    (W ≤ 2 * Bits → (h >>> Bits) ^^^ (h % 2 ^ Bits) < 2 ^ Bits) ∧
    (∀ wT, wT ≤ 64 → fnv_xor_folding_fn FNV W Bits (some wT) first n
      = .ok (((h >>> Bits) ^^^ (h % 2 ^ Bits)) % 2 ^ wT)) ∧
    (∀ (w offset prime : Nat) (code : Ch → Int), INT_BITS ≤ w → offset < 2 ^ w →
      first.idx + n ≤ first.arr.length →
      (∃ g, fnv1_fn w offset prime code first n = .ok g ∧ g < 2 ^ w) ∧
      (∃ g, fnv1a_fn w offset prime code first n = .ok g ∧ g < 2 ^ w)) := by
  have hmask : (1 <<< Bits) % 2 ^ INT_BITS - 1 = 2 ^ Bits - 1 := by
    have hlt : (2 : Nat) ^ Bits < 2 ^ INT_BITS := Nat.pow_lt_pow_right (by omega) hB
    rw [Nat.one_shiftLeft, Nat.mod_eq_of_lt hlt]
  have hand : h &&& ((1 <<< Bits) % 2 ^ INT_BITS - 1) = h % 2 ^ Bits := by
    rw [hmask, Nat.and_pow_two_sub_one_eq_mod]
  have hshr : h >>> Bits ≤ h := by
    rw [Nat.shiftRight_eq_div_pow]
    exact Nat.div_le_self _ _
  have hmod : h % 2 ^ Bits ≤ h := Nat.mod_le _ _
  have hpow : (2 : Nat) ^ W ≤ 2 ^ 64 := Nat.pow_le_pow_right (by omega) hW
  have hxW : (h >>> Bits) ^^^ (h % 2 ^ Bits) < 2 ^ W :=
    Nat.xor_lt_two_pow (by omega) (by omega)
  have hBI : Bits < INT_BITS := hB
  refine ⟨?_, fun h2 => ?_, fun wT hT => ?_, fun w offset prime code hw ho hr => ⟨?_, ?_⟩⟩
  · rw [fnv_xor_folding_fn, hF, Result.bind_ok, if_pos hBI, hand]
    simp only [Option.getD_none]
    rw [Nat.mod_eq_of_lt hxW, Nat.mod_eq_of_lt (show _ < SIZE_MOD from by
      unfold SIZE_MOD; omega)]
  · refine Nat.xor_lt_two_pow ?_ (Nat.mod_lt _ (Nat.two_pow_pos Bits))
    rw [Nat.shiftRight_eq_div_pow, Nat.div_lt_iff_lt_mul (Nat.two_pow_pos Bits), ← Nat.pow_add]
    exact Nat.lt_of_lt_of_le hh (Nat.pow_le_pow_right (by omega) (by omega))
  · rw [fnv_xor_folding_fn, hF, Result.bind_ok, if_pos hBI, hand]
    simp only [Option.getD_some]
    have h1 : ((h >>> Bits) ^^^ (h % 2 ^ Bits)) % 2 ^ wT < 2 ^ wT :=
      Nat.mod_lt _ (Nat.two_pow_pos wT)
    have h2 : (2 : Nat) ^ wT ≤ 2 ^ 64 := Nat.pow_le_pow_right (by omega) hT
    rw [Nat.mod_eq_of_lt (show _ < SIZE_MOD from by unfold SIZE_MOD; omega)]
  · exact ⟨_, fnv1_loop_spec w prime code hw n first offset hr,
      fnv1_fold_lt w offset prime code _ ho⟩
  · exact ⟨_, fnv1a_loop_spec w prime code hw n first offset hr,
      fnv1a_fold_lt w offset prime code _ ho⟩

theorem fnv_xor_folding_value_witness :
    fnv_xor_folding_fn (fnv1a_32_fn Int.ofNat) 32 16 none ⟨chars "abc", 0⟩ 3
      = .ok ((440920331 >>> 16) ^^^ (440920331 % 2 ^ 16)) ∧
    (32 ≤ 2 * 16 → (440920331 >>> 16) ^^^ (440920331 % 2 ^ 16) < 2 ^ 16) ∧
    (∀ wT, wT ≤ 64 → fnv_xor_folding_fn (fnv1a_32_fn Int.ofNat) 32 16 (some wT)
        ⟨chars "abc", 0⟩ 3
      = .ok (((440920331 >>> 16) ^^^ (440920331 % 2 ^ 16)) % 2 ^ wT)) ∧
    (∀ (w offset prime : Nat) (code : Nat → Int), INT_BITS ≤ w → offset < 2 ^ w →
      (⟨chars "abc", 0⟩ : Ptr Nat).idx + 3 ≤ (⟨chars "abc", 0⟩ : Ptr Nat).arr.length →
      (∃ g, fnv1_fn w offset prime code ⟨chars "abc", 0⟩ 3 = .ok g ∧ g < 2 ^ w) ∧
      (∃ g, fnv1a_fn w offset prime code ⟨chars "abc", 0⟩ 3 = .ok g ∧ g < 2 ^ w)) :=
  fnv_xor_folding_value (fnv1a_32_fn Int.ofNat) 32 16 ⟨chars "abc", 0⟩ 3 440920331
    (by decide) (by decide) (by decide) (by decide)

end hashes

/-! ## Output streams -/

section streams

variable {Ch : Type} {N : Nat}

theorem basic_ostream.sentry_of_good (out : basic_ostream Ch) (h : out.good = true) :
    out.sentry = (out, true) := by
  simp [basic_ostream.sentry, h]

theorem basic_ostream.sentry_of_not_good (out : basic_ostream Ch) (h : out.good = false) :
    out.sentry = (out.setstate_failbit, false) := by
  simp [basic_ostream.sentry, h]

theorem basic_ostream.put_nil (out : basic_ostream Ch) : out.put [] = out := by
  cases out with
  | mk str room width fill left eofbit badbit failbit =>
    cases room <;> simp [basic_ostream.put]

theorem basic_ostream.put_put (out : basic_ostream Ch) (a b : List Ch) :
    (out.put a).put b = out.put (a ++ b) := by
  cases out with
  | mk str room width fill left eofbit badbit failbit =>
    cases room with
    | none => simp [basic_ostream.put]
    | some k => simp [basic_ostream.put, Nat.sub_sub]

theorem basic_ostream.accepts_put (out : basic_ostream Ch) (a : List Ch) (m : Nat)
    (h : out.accepts (a.length + m)) : (out.put a).accepts m := by
  cases out with
  | mk str room width fill left eofbit badbit failbit =>
    cases room with
    | none => simp [basic_ostream.put, basic_ostream.accepts]
    | some k =>
      have h1 : a.length + m ≤ k := h
      show m ≤ k - a.length
      omega

theorem basic_ostream.accepts_mono (out : basic_ostream Ch) (m k : Nat) (hk : k ≤ m)
    (h : out.accepts m) : out.accepts k := by
  cases out with
  | mk str room width fill left eofbit badbit failbit =>
    cases room with
    | none => simp [basic_ostream.accepts]
    | some r =>
      have h1 : m ≤ r := h
      show k ≤ r
      omega

/-- A buffer with room takes the character. -/
theorem basic_ostream.sputc_of_accepts (out : basic_ostream Ch) (c : Ch) (h : out.accepts 1) :
    out.sputc c = (out.put [c], true) := by
  cases out with
  | mk str room width fill left eofbit badbit failbit =>
    cases room with
    | none => simp [basic_ostream.sputc, basic_ostream.put]
    | some k =>
      cases k with
      | zero => simp [basic_ostream.accepts] at h
      | succ k => simp [basic_ostream.sputc, basic_ostream.put]

/-- A buffer with room takes the whole range. -/
theorem basic_ostream.sputn_of_accepts (out : basic_ostream Ch) (s : Ptr Ch) (n : Nat)
    (hs : s.idx + n ≤ s.arr.length) (h : out.accepts n) :
    out.sputn s (n : Int) = .ok (out.put (s.mem.take n), (n : Int)) := by
  have hl := Ptr.length_take_mem s n hs
  cases out with
  | mk str room width fill left eofbit badbit failbit =>
    cases room with
    | none => simp [basic_ostream.sputn, basic_ostream.put, hs]
    | some k =>
      simp only [basic_ostream.accepts] at h
      have hm : min n k = n := Nat.min_eq_left h
      simp [basic_ostream.sputn, basic_ostream.put, hs, hm, hl]

/-- The filling loop on a buffer with room appends `m` copies of the
character. -/
theorem iostreams.detail_.ostream_fill_of_accepts (c : Ch) (m : Nat) :
    ∀ out : basic_ostream Ch, out.accepts m →
      iostreams.detail_.ostream_fill out c m = (out.put (List.replicate m c), true) := by
  induction m with
  | zero => intro out _; simp [iostreams.detail_.ostream_fill, basic_ostream.put_nil]
  | succ m ih =>
    intro out h
    have h1 : out.accepts 1 := out.accepts_mono (m + 1) 1 (by omega) h
    have h2 : (out.put [c]).accepts m :=
      out.accepts_put [c] m (by simpa [Nat.add_comm] using h)
    rw [iostreams.detail_.ostream_fill, out.sputc_of_accepts c h1]
    simp only []
    rw [ih _ h2, basic_ostream.put_put]
    rfl

theorem to_difference_type_of_le (n : Nat) (hn : n ≤ PTRDIFF_MAX) :
    to_difference_type n = (n : Int) := by
  have h1 : n % SIZE_MOD = n := Nat.mod_eq_of_lt (by unfold SIZE_MOD; unfold PTRDIFF_MAX at hn; omega)
  rw [to_difference_type, h1, if_pos hn]

/-- The function of the sources on a stream that is ready and whose buffer
has room: the three cases of the padding. -/
theorem iostreams.ostream_insert_false_spec (out : basic_ostream Ch) (s : Ptr Ch) (n : Nat)
    (hgood : out.good = true) (hs : s.idx + n ≤ s.arr.length) (hn : n ≤ PTRDIFF_MAX)
    (hroom : out.accepts (max n out.width.toNat)) :
    iostreams.ostream_insert false out s n
      = .ok (out.put (if out.width > n then
          (if out.left then s.mem.take n ++ List.replicate (out.width - n).toNat out.fill
            else List.replicate (out.width - n).toNat out.fill ++ s.mem.take n)
          else s.mem.take n)).width_zero := by
  have hnd := to_difference_type_of_le n hn
  have hl := Ptr.length_take_mem s n hs
  have han : out.accepts n := out.accepts_mono _ n (Nat.le_max_left _ _) hroom
  rw [iostreams.ostream_insert, if_neg (by decide), out.sentry_of_good hgood]
  simp only [hnd]
  by_cases hw : out.width > n
  · have hk : (out.width - n).toNat + n ≤ max n out.width.toNat := by omega
    have hall : out.accepts ((out.width - n).toNat + n) := out.accepts_mono _ _ hk hroom
    have hpad : out.accepts (out.width - n).toNat :=
      out.accepts_mono _ _ (Nat.le_add_right _ _) hall
    rw [if_pos hw, if_pos hw]
    cases hleft : out.left with
    | false =>
      have h2 : (out.put (List.replicate (out.width - n).toNat out.fill)).accepts n :=
        out.accepts_put _ n (by rw [List.length_replicate]; exact hall)
      simp only [Bool.not_false, if_true, Bool.false_and, Bool.false_eq_true, if_false]
      rw [iostreams.detail_.ostream_fill_of_accepts _ _ out hpad]
      simp only [if_true]
      rw [basic_ostream.sputn_of_accepts _ s n hs h2]
      simp [Result.bind, basic_ostream.put_put]
    | true =>
      have h2 : (out.put (s.mem.take n)).accepts (out.width - n).toNat :=
        out.accepts_put _ _ (by rw [hl, Nat.add_comm]; exact hall)
      simp only [Bool.not_true, Bool.false_eq_true, if_false, if_true]
      rw [basic_ostream.sputn_of_accepts _ s n hs han]
      simp only [Result.bind, decide_True, Bool.true_and, if_true]
      rw [iostreams.detail_.ostream_fill_of_accepts _ _ _ h2]
      simp [basic_ostream.put_put]
  · rw [if_neg hw, if_neg hw, basic_ostream.sputn_of_accepts _ s n hs han]
    simp [Result.bind]

/-- The inserter of the standard library on a stream that is ready and
whose buffer has room. -/
theorem iostreams.insert_string_view_spec (out : basic_ostream Ch) (s : Ptr Ch) (n : Nat)
    (hgood : out.good = true) (hs : s.idx + n ≤ s.arr.length)
    (hroom : out.accepts (max n out.width.toNat)) :
    iostreams.insert_string_view out s n
      = .ok (out.put (if out.width > n then
          (if out.left then s.mem.take n ++ List.replicate (out.width - n).toNat out.fill
            else List.replicate (out.width - n).toNat out.fill ++ s.mem.take n)
          else s.mem.take n)).width_zero := by
  have hl := Ptr.length_take_mem s n hs
  rw [iostreams.insert_string_view, out.sentry_of_good hgood]
  simp only [hs, if_true]
  have key : ∀ seq : List Ch, seq.length ≤ max n out.width.toNat →
      ((out.sputn ⟨seq, 0⟩ seq.length).bind fun r =>
        if r.2 ≠ seq.length then Result.ok r.1.width_zero.setstate_failbit
        else Result.ok r.1.width_zero) = .ok (out.put seq).width_zero := by
    intro seq hseq
    have h1 := basic_ostream.sputn_of_accepts out ⟨seq, 0⟩ seq.length (by simp)
      (out.accepts_mono _ _ hseq hroom)
    rw [h1]
    simp [Result.bind, Ptr.mem]
  by_cases hw : out.width > n
  · have e1 : (List.replicate (out.width - n).toNat out.fill).length = (out.width - n).toNat :=
      List.length_replicate _ _
    rw [if_pos hw]
    cases hleft : out.left with
    | false =>
      simp only [Bool.false_eq_true, if_false]
      exact key _ (by rw [List.length_append, e1, hl]; omega)
    | true =>
      simp only [if_true]
      exact key _ (by rw [List.length_append, e1, hl]; omega)
  · have e0 : (out.width - n).toNat = 0 := by omega
    rw [if_neg hw]
    simp only [e0, List.replicate_zero, List.append_nil, List.nil_append, ite_self]
    exact key _ (by rw [hl]; omega)

/-- C34: on a stream that is ready to write, with field width `w`, fill
character `f` and a buffer that has room, `ostream_insert(out, s, n)` for a
range of `n` characters appends `w - n` copies of `f` followed by the `n`
characters when `w > n` and the stream is not left-aligned, the `n` characters
followed by `w - n` copies of `f` when `w > n` and the stream is
left-aligned, and the `n` characters alone when `w <= n`; afterwards the width
is 0 and nothing else of the stream has changed.  This holds whether or not
`FALCON_STD_STRING_VIEW` is defined, and for `out << str` with a fixed string
value `str`. -/
theorem ostream_insert_pads (std_string_view : Bool) (out : basic_ostream Ch) (s : Ptr Ch)
    (n : Nat) (x : basic_string_literal Ch N) (hgood : out.good = true)
    (hs : s.idx + n ≤ s.arr.length) (hn : n ≤ PTRDIFF_MAX) (hN : N ≤ PTRDIFF_MAX)
    (hroom : out.accepts (max (max n N) out.width.toNat)) :
    (out.width > n → out.left = false →
      iostreams.ostream_insert std_string_view out s n
        = .ok (out.put (List.replicate (out.width - n).toNat out.fill
            ++ s.mem.take n)).width_zero) ∧
    (out.width > n → out.left = true →
      iostreams.ostream_insert std_string_view out s n
        = .ok (out.put (s.mem.take n
            ++ List.replicate (out.width - n).toNat out.fill)).width_zero) ∧
    (out.width ≤ n →
      iostreams.ostream_insert std_string_view out s n
        = .ok (out.put (s.mem.take n)).width_zero) ∧
    (∀ l, (out.put l).width_zero.str = out.str ++ l ∧ (out.put l).width_zero.width = 0) ∧
    operator_shl std_string_view out x
      = .ok (out.put (if out.width > N then
          (if out.left then x.content ++ List.replicate (out.width - N).toNat out.fill
            else List.replicate (out.width - N).toNat out.fill ++ x.content)
          else x.content)).width_zero := by
  have hroom1 : out.accepts (max n out.width.toNat) := out.accepts_mono _ _ (by omega) hroom
  have hroom2 : out.accepts (max N out.width.toNat) := out.accepts_mono _ _ (by omega) hroom
  have hx : x.data.idx + x.size ≤ x.data.arr.length := by
    simp [basic_string_literal.data, basic_string_literal.size, x.data_len]
  have hgen : ∀ (p : Ptr Ch) (m : Nat), p.idx + m ≤ p.arr.length → m ≤ PTRDIFF_MAX →
      out.accepts (max m out.width.toNat) →
      iostreams.ostream_insert std_string_view out p m
        = .ok (out.put (if out.width > m then
            (if out.left then p.mem.take m ++ List.replicate (out.width - m).toNat out.fill
              else List.replicate (out.width - m).toNat out.fill ++ p.mem.take m)
            else p.mem.take m)).width_zero := by
    intro p m hp hm hr
    cases std_string_view with
    | false => exact iostreams.ostream_insert_false_spec out p m hgood hp hm hr
    | true =>
      rw [iostreams.ostream_insert, if_pos rfl]
      exact iostreams.insert_string_view_spec out p m hgood hp hr
  have h := hgen s n hs hn hroom1
  refine ⟨fun hw hl => ?_, fun hw hl => ?_, fun hw => ?_, fun l => ⟨rfl, rfl⟩, ?_⟩
  · rw [h, if_pos hw, hl]
    rfl
  · rw [h, if_pos hw, hl]
    rfl
  · rw [h, if_neg (by omega)]
  · have h2 := hgen x.data x.size hx hN hroom2
    rw [x.take_mem_data] at h2
    exact h2

theorem ostream_insert_pads_witness :
    ((oss 5 42 true).width > (3 : Nat) → (oss 5 42 true).left = false →
      iostreams.ostream_insert false (oss 5 42 true) ⟨chars "abc", 0⟩ 3
        = .ok ((oss 5 42 true).put (List.replicate ((oss 5 42 true).width - (3 : Nat)).toNat
            (oss 5 42 true).fill ++ (⟨chars "abc", 0⟩ : Ptr Nat).mem.take 3)).width_zero) ∧
    ((oss 5 42 true).width > (3 : Nat) → (oss 5 42 true).left = true →
      iostreams.ostream_insert false (oss 5 42 true) ⟨chars "abc", 0⟩ 3
        = .ok ((oss 5 42 true).put ((⟨chars "abc", 0⟩ : Ptr Nat).mem.take 3
            ++ List.replicate ((oss 5 42 true).width - (3 : Nat)).toNat
              (oss 5 42 true).fill)).width_zero) ∧
    ((oss 5 42 true).width ≤ (3 : Nat) →
      iostreams.ostream_insert false (oss 5 42 true) ⟨chars "abc", 0⟩ 3
        = .ok ((oss 5 42 true).put ((⟨chars "abc", 0⟩ : Ptr Nat).mem.take 3)).width_zero) ∧
    (∀ l, ((oss 5 42 true).put l).width_zero.str = (oss 5 42 true).str ++ l ∧
      ((oss 5 42 true).put l).width_zero.width = 0) ∧
    operator_shl false (oss 5 42 true) (lit "abc")
      = .ok ((oss 5 42 true).put (if (oss 5 42 true).width > (3 : Nat) then
          (if (oss 5 42 true).left then
            (lit "abc").content
              ++ List.replicate ((oss 5 42 true).width - (3 : Nat)).toNat (oss 5 42 true).fill
            else List.replicate ((oss 5 42 true).width - (3 : Nat)).toNat (oss 5 42 true).fill
              ++ (lit "abc").content)
          else (lit "abc").content)).width_zero :=
  ostream_insert_pads false (oss 5 42 true) ⟨chars "abc", 0⟩ 3 (lit "abc") (by decide)
    (by decide) (by decide) (by decide) (by simp [basic_ostream.accepts, oss])

/-- C35: when the stream is not ready to write (its sentry is false, as
when `failbit` is set), `ostream_insert`, `ostream_write` and `ostream_fill`
write no character: the buffer holds what it held, and the width is kept. -/
theorem ostream_not_ready_writes_nothing (std_string_view : Bool) (out : basic_ostream Ch)
    (s : Ptr Ch) (n : Nat) (k : Int) (c : Ch) (x : basic_string_literal Ch N)
    (hbad : out.good = false) :
    (∃ r, iostreams.ostream_insert std_string_view out s n = .ok r ∧ r.str = out.str ∧
      r.room = out.room ∧ r.width = out.width) ∧
    (∃ r, iostreams.ostream_write out s k = .ok r ∧ r.str = out.str ∧ r.room = out.room) ∧
    ((iostreams.ostream_fill out k c).str = out.str ∧
      (iostreams.ostream_fill out k c).room = out.room) ∧
    (∃ r, operator_shl std_string_view out x = .ok r ∧ r.str = out.str ∧ r.room = out.room) ∧
    (out.failbit = true → out.sentry.2 = false) := by
  have hsen := out.sentry_of_not_good hbad
  have hins : ∀ (p : Ptr Ch) (m : Nat),
      iostreams.ostream_insert std_string_view out p m = .ok out.setstate_failbit := by
    intro p m
    cases std_string_view with
    | false => rw [iostreams.ostream_insert, if_neg (by decide), hsen]
    | true => rw [iostreams.ostream_insert, if_pos rfl, iostreams.insert_string_view, hsen]
  refine ⟨⟨_, hins s n, rfl, rfl, rfl⟩, ⟨out.setstate_failbit, ?_, rfl, rfl⟩, ?_,
    ⟨_, hins x.data x.size, rfl, rfl⟩, fun _ => ?_⟩
  · rw [iostreams.ostream_write, hsen]
  · rw [iostreams.ostream_fill, hsen]
    exact ⟨rfl, rfl⟩
  · rw [hsen]

theorem ostream_not_ready_writes_nothing_witness :
    (∃ r, iostreams.ostream_insert false (oss 0 32 false).setstate_failbit ⟨chars "abc", 0⟩ 3
        = .ok r ∧ r.str = (oss 0 32 false).setstate_failbit.str ∧
      r.room = (oss 0 32 false).setstate_failbit.room ∧
      r.width = (oss 0 32 false).setstate_failbit.width) ∧
    (∃ r, iostreams.ostream_write (oss 0 32 false).setstate_failbit ⟨chars "abc", 0⟩ 3 = .ok r ∧
      r.str = (oss 0 32 false).setstate_failbit.str ∧
      r.room = (oss 0 32 false).setstate_failbit.room) ∧
    ((iostreams.ostream_fill (oss 0 32 false).setstate_failbit 3 42).str
        = (oss 0 32 false).setstate_failbit.str ∧
      (iostreams.ostream_fill (oss 0 32 false).setstate_failbit 3 42).room
        = (oss 0 32 false).setstate_failbit.room) ∧
    (∃ r, operator_shl false (oss 0 32 false).setstate_failbit (lit "abc") = .ok r ∧
      r.str = (oss 0 32 false).setstate_failbit.str ∧
      r.room = (oss 0 32 false).setstate_failbit.room) ∧
    ((oss 0 32 false).setstate_failbit.failbit = true →
      (oss 0 32 false).setstate_failbit.sentry.2 = false) :=
  ostream_not_ready_writes_nothing false (oss 0 32 false).setstate_failbit ⟨chars "abc", 0⟩ 3 3
    42 (lit "abc") (by decide)

end streams

/-! ## Behaviour across operations -/

section behaviour

variable {Ch : Type} [LinearOrder Ch] {N M n1 n2 n3 : Nat}

/-- C36: what the test of the repository asserts for `s3 = "abcdef"` and a
zero-initialised buffer of 6 characters.  `s3.copy(buf, 4)` returns 0, not 4,
and leaves the buffer zero, not `"abcd"`; `s3.copy(buf, 6)` returns 0, not 6,
and leaves the buffer zero, not `"abcdef"`; on the buffer zeroed again,
`s3.copy(buf, 4, 1)` returns 1, not 4, and leaves the string `"e"`, not
`"bcde"`. -/
theorem copy_test_assertions :
    (∃ buf r, (lit "abcdef").copy ⟨[0, 0, 0, 0, 0, 0], 0⟩ 4 0 = .ok (buf, r) ∧ r ≠ 4 ∧
      (⟨buf, 0⟩ : Ptr Nat).c_str_chars ≠ (chars "abcd").dropLast ∧
      ∃ buf2 r2, (lit "abcdef").copy ⟨buf, 0⟩ 6 0 = .ok (buf2, r2) ∧ r2 ≠ 6 ∧
        (⟨buf2, 0⟩ : Ptr Nat).c_str_chars ≠ (chars "abcdef").dropLast) ∧
    (∃ buf r, (lit "abcdef").copy ⟨[0, 0, 0, 0, 0, 0], 0⟩ 4 1 = .ok (buf, r) ∧ r ≠ 4 ∧
      (⟨buf, 0⟩ : Ptr Nat).c_str_chars ≠ (chars "bcde").dropLast) ∧
    (lit "abcdef").copy ⟨[0, 0, 0, 0, 0, 0], 0⟩ 4 0 = .ok ([0, 0, 0, 0, 0, 0], 0) ∧
    (lit "abcdef").copy ⟨[0, 0, 0, 0, 0, 0], 0⟩ 6 0 = .ok ([0, 0, 0, 0, 0, 0], 0) ∧
    (lit "abcdef").copy ⟨[0, 0, 0, 0, 0, 0], 0⟩ 4 1 = .ok ([101, 0, 0, 0, 0, 0], 1) := by
  refine ⟨⟨[0, 0, 0, 0, 0, 0], 0, by decide, by decide, by decide,
    [0, 0, 0, 0, 0, 0], 0, by decide, by decide, by decide⟩,
    ⟨[101, 0, 0, 0, 0, 0], 1, by decide, by decide, by decide⟩, by decide, by decide, by decide⟩

omit [LinearOrder Ch] in
/-- The characters of `substr<pos, n>()`. -/
theorem basic_string_literal.substr_content [Zero Ch] (x : basic_string_literal Ch N)
    (pos n : Nat) (h : pos < N) :
    ∃ r, x.substr pos n h = .ok r ∧ r.content = (x.content.drop pos).take n := by
  have ha : (x.data.add pos).idx + min n (N - pos) ≤ (x.data.add pos).arr.length := by
    simp only [basic_string_literal.data, Ptr.add, x.data_len]
    omega
  obtain ⟨r, hr, hd⟩ := basic_string_literal.ctor_arr_spec (N := min n (N - pos))
    (x.data.add pos) (min n (N - pos)) ha (le_refl _)
  refine ⟨r, hr, ?_⟩
  rw [basic_string_literal.content_of_data r _ _ (Ptr.length_take_mem _ _ ha) hd]
  simp only [basic_string_literal.content, basic_string_literal.data, Ptr.add, Ptr.mem,
    Nat.zero_add, List.drop_take, List.take_take]

/-- Two values of the same characters compare equal with `operator==`. -/
theorem operator_eq_of_content (x : basic_string_literal Ch n1) (y : basic_string_literal Ch n2)
    (h1 : n1 ≤ PTRDIFF_MAX) (h2 : n2 ≤ PTRDIFF_MAX) :
    operator_eq x y = .ok (decide (x.content = y.content)) := by
  by_cases hn : n1 = n2
  · rw [operator_eq, if_pos hn, basic_string_literal.compare_eq x y h1 h2, Result.bind_ok]
    congr 1
    exact decide_eq_decide.mpr (compare_ranges_eq_zero_iff _ _)
  · have hne : x.content ≠ y.content := fun hc => by
      have := congrArg List.length hc
      rw [x.content_length, y.content_length] at this
      exact hn this
    rw [operator_eq, if_neg hn, decide_eq_false hne]

/-- C37: `substr` undoes concatenation.  For a non-empty `a`,
`(a + b).substr<0, a.size()>() == a`, and for a non-empty `b`,
`(a + b).substr<a.size()>() == b`, the count of the second being the default
`npos`. -/
theorem substr_undoes_concatenation [Zero Ch] (a : basic_string_literal Ch n1)
    (b : basic_string_literal Ch n2) (hsz : n1 + n2 ≤ PTRDIFF_MAX) :
    (∀ ha : 0 < n1, ∃ r s, operator_plus a b = .ok r ∧
      r.substr 0 n1 (Nat.lt_of_lt_of_le ha (Nat.le_add_right n1 n2)) = .ok s ∧
      operator_eq s a = .ok true) ∧
    (∀ hb : 0 < n2, ∃ r s, operator_plus a b = .ok r ∧
      r.substr n1 npos (Nat.lt_add_of_pos_right hb) = .ok s ∧
      operator_eq s b = .ok true) := by
  have hx : a.data.idx + a.size ≤ a.data.arr.length := by
    simp [basic_string_literal.data, basic_string_literal.size, a.data_len]
  have hy : b.data.idx + b.size ≤ b.data.arr.length := by
    simp [basic_string_literal.data, basic_string_literal.size, b.data_len]
  obtain ⟨r, hr, hc⟩ := detail_.core_access.mk_lit_cat_content (N := n1 + n2)
    a.data b.data a.size b.size hx hy rfl
  rw [a.take_mem_data, b.take_mem_data] at hc
  have hnp : n2 ≤ npos := by unfold npos; unfold PTRDIFF_MAX at hsz; omega
  refine ⟨fun ha => ?_, fun hb => ?_⟩
  · obtain ⟨s, hs, hsc⟩ := r.substr_content 0 n1 (Nat.lt_of_lt_of_le ha (Nat.le_add_right n1 n2))
    refine ⟨r, s, hr, hs, ?_⟩
    have e : s.content = a.content := by
      rw [hsc, hc, List.drop_zero]
      exact List.take_left' a.content_length
    rw [operator_eq_of_content s a (by omega) (by omega), decide_eq_true e]
  · obtain ⟨s, hs, hsc⟩ := r.substr_content n1 npos (Nat.lt_add_of_pos_right hb)
    refine ⟨r, s, hr, hs, ?_⟩
    have e : s.content = b.content := by
      rw [hsc, hc, List.drop_left' a.content_length]
      exact List.take_of_length_le (by rw [b.content_length]; exact hnp)
    rw [operator_eq_of_content s b (by omega) (by omega), decide_eq_true e]

theorem substr_undoes_concatenation_witness :
    (∀ ha : 0 < 6, ∃ r s, operator_plus (lit "abcdef") (lit "abc") = .ok r ∧
      r.substr 0 6 (Nat.lt_of_lt_of_le ha (Nat.le_add_right 6 3)) = .ok s ∧
      operator_eq s (lit "abcdef") = .ok true) ∧
    (∀ hb : 0 < 3, ∃ r s, operator_plus (lit "abcdef") (lit "abc") = .ok r ∧
      r.substr 6 npos (Nat.lt_add_of_pos_right hb) = .ok s ∧
      operator_eq s (lit "abc") = .ok true) :=
  substr_undoes_concatenation (lit "abcdef") (lit "abc") (by decide)

theorem compare_ranges_pos_iff (l1 l2 : List Ch) :
    compare_ranges l1 l2 > 0 ↔ compare_ranges l2 l1 < 0 := by
  have h := compare_ranges_swap_sign l1 l2
  constructor
  · intro hp
    rw [Int.sign_eq_one_of_pos hp] at h
    have h2 : Int.sign (compare_ranges l2 l1) = -1 := by omega
    exact Int.sign_eq_neg_one_iff_neg.mp h2
  · intro hn
    rw [Int.sign_eq_neg_one_of_neg hn] at h
    have h2 : Int.sign (compare_ranges l1 l2) = 1 := by omega
    exact Int.sign_eq_one_iff_pos.mp h2

theorem operator_lt_of_content (x : basic_string_literal Ch n1) (y : basic_string_literal Ch n2)
    (h1 : n1 ≤ PTRDIFF_MAX) (h2 : n2 ≤ PTRDIFF_MAX) :
    operator_lt x y = .ok (decide (compare_ranges x.content y.content < 0)) := by
  rw [operator_lt, basic_string_literal.compare_eq x y h1 h2, Result.bind_ok]

/-- C39: the relational operators of two values over a standard character
type form a strict total order consistent with `==`, whatever the lengths:
exactly one of `a < b`, `a == b`, `b < a` holds; `a < b` and `b < c` give
`a < c`; `a <= b` is `!(b < a)`, `a > b` is `b < a`, and `a >= b` is
`!(a < b)`.  The order is the lexicographic order of the characters. -/
theorem relational_operators_strict_total_order (a : basic_string_literal Ch n1)
    (b : basic_string_literal Ch n2) (c : basic_string_literal Ch n3)
    (h1 : n1 ≤ PTRDIFF_MAX) (h2 : n2 ≤ PTRDIFF_MAX) (h3 : n3 ≤ PTRDIFF_MAX) :
    ∃ ab ba e : Bool, operator_lt a b = .ok ab ∧ operator_lt b a = .ok ba ∧
      operator_eq a b = .ok e ∧
      ((ab = true ∧ e = false ∧ ba = false) ∨ (ab = false ∧ e = true ∧ ba = false) ∨
        (ab = false ∧ e = false ∧ ba = true)) ∧
      (ab = true → operator_lt b c = .ok true → operator_lt a c = .ok true) ∧
      operator_le a b = .ok (!ba) ∧ operator_gt a b = .ok ba ∧ operator_ge a b = .ok (!ab) ∧
      (ab = true ↔ List.Lex (· < ·) a.content b.content) := by
  have hpos := compare_ranges_pos_iff a.content b.content
  have hzero := compare_ranges_eq_zero_iff a.content b.content
  refine ⟨decide (compare_ranges a.content b.content < 0),
    decide (compare_ranges b.content a.content < 0), decide (a.content = b.content),
    operator_lt_of_content a b h1 h2, operator_lt_of_content b a h2 h1,
    operator_eq_of_content a b h1 h2, ?_, ?_, ?_, ?_, ?_, ?_⟩
  · simp only [decide_eq_true_iff, decide_eq_false_iff_not, ← hzero, ← hpos]
    omega
  · intro hab hbc
    rw [operator_lt_of_content b c h2 h3] at hbc
    rw [operator_lt_of_content a c h1 h3]
    have hab2 := (compare_ranges_neg_iff _ _).mp (of_decide_eq_true hab)
    have hbc2 := (compare_ranges_neg_iff _ _).mp
      (of_decide_eq_true (Result.ok.inj hbc))
    have hac : List.Lex (· < ·) a.content c.content := IsTrans.trans _ _ _ hab2 hbc2
    rw [decide_eq_true ((compare_ranges_neg_iff _ _).mpr hac)]
  · rw [operator_le, basic_string_literal.compare_eq a b h1 h2, Result.bind_ok]
    congr 1
    rw [← decide_not]
    exact decide_eq_decide.mpr (by rw [← hpos]; omega)
  · rw [operator_gt, basic_string_literal.compare_eq a b h1 h2, Result.bind_ok]
    congr 1
    exact decide_eq_decide.mpr hpos
  · rw [operator_ge, basic_string_literal.compare_eq a b h1 h2, Result.bind_ok]
    congr 1
    rw [← decide_not]
    exact decide_eq_decide.mpr (by omega)
  · rw [decide_eq_true_iff]
    exact compare_ranges_neg_iff _ _

theorem relational_operators_strict_total_order_witness :
    ∃ ab ba e : Bool, operator_lt (lit "abc") (lit "abcdef") = .ok ab ∧
      operator_lt (lit "abcdef") (lit "abc") = .ok ba ∧
      operator_eq (lit "abc") (lit "abcdef") = .ok e ∧
      ((ab = true ∧ e = false ∧ ba = false) ∨ (ab = false ∧ e = true ∧ ba = false) ∨
        (ab = false ∧ e = false ∧ ba = true)) ∧
      (ab = true → operator_lt (lit "abcdef") (lit "b") = .ok true →
        operator_lt (lit "abc") (lit "b") = .ok true) ∧
      operator_le (lit "abc") (lit "abcdef") = .ok (!ba) ∧
      operator_gt (lit "abc") (lit "abcdef") = .ok ba ∧
      operator_ge (lit "abc") (lit "abcdef") = .ok (!ab) ∧
      (ab = true ↔ List.Lex (· < ·) (lit "abc").content (lit "abcdef").content) :=
  relational_operators_strict_total_order (lit "abc") (lit "abcdef") (lit "b") (by decide)
    (by decide) (by decide)

omit [LinearOrder Ch] in
theorem smallest_or_npos_unique (P : Nat → Prop) (lo r r2 : Nat)
    (h : smallest_or_npos P lo r) (h2 : smallest_or_npos P lo r2) : r = r2 := by
  rcases h with ⟨e, hn⟩ | ⟨_, hl, hp, hm⟩
  · rcases h2 with ⟨e2, _⟩ | ⟨_, hl2, hp2, _⟩
    · rw [e, e2]
    · exact absurd hp2 (hn r2 hl2)
  · rcases h2 with ⟨_, hn2⟩ | ⟨_, hl2, hp2, hm2⟩
    · exact absurd hp (hn2 r hl)
    · rcases Nat.lt_trichotomy r r2 with hlt | heq | hgt
      · exact absurd hp (hm2 r hl hlt)
      · exact heq
      · exact absurd hp2 (hm r2 hl2 hgt)

omit [LinearOrder Ch] in
theorem greatest_or_npos_unique (P : Nat → Prop) (hi r r2 : Nat)
    (h : greatest_or_npos P hi r) (h2 : greatest_or_npos P hi r2) : r = r2 := by
  rcases h with ⟨e, hn⟩ | ⟨_, hl, hp, hm⟩
  · rcases h2 with ⟨e2, _⟩ | ⟨_, hl2, hp2, _⟩
    · rw [e, e2]
    · exact absurd hp2 (hn r2 hl2)
  · rcases h2 with ⟨_, hn2⟩ | ⟨_, hl2, hp2, hm2⟩
    · exact absurd hp (hn2 r hl)
    · rcases Nat.lt_trichotomy r r2 with hlt | heq | hgt
      · exact absurd hp2 (hm r2 hlt hl2)
      · exact heq
      · exact absurd hp (hm2 r hgt hl)

omit [LinearOrder Ch] in
/-- An occurrence of the needle of one character `c`. -/
theorem basic_string_literal.occurs_at_singleton (x : basic_string_literal Ch N) (c : Ch)
    (i : Nat) : occurs_at x.content [c] i ↔ i < N ∧ x.data_[i]? = some c := by
  constructor
  · intro h
    have hb := occurs_at_bound _ _ _ h
    rw [x.content_length, List.length_singleton] at hb
    have hi : i < N := by omega
    refine ⟨hi, ?_⟩
    have h2 := (x.occurs_at_iff [c] i (by simpa using hb)).mp h
    have hl : i < x.data_.length := by rw [x.data_len]; omega
    rw [List.length_singleton, List.drop_eq_getElem_cons hl, List.take_succ_cons,
      List.take_zero] at h2
    rw [List.getElem?_eq_getElem hl]
    exact congrArg some (List.head_eq_of_cons_eq h2)
  · rintro ⟨hi, hc⟩
    have hl : i < x.data_.length := by rw [x.data_len]; omega
    rw [x.occurs_at_iff [c] i (by simpa using hi), List.length_singleton,
      List.drop_eq_getElem_cons hl, List.take_succ_cons, List.take_zero]
    rw [List.getElem?_eq_getElem hl] at hc
    rw [Option.some.inj hc]

/-- C38: the searches for one character agree with the searches for a
needle of one character.  For a pointer `s` at the character `c` and
`pos <= size()`, `find(c, pos) == find(s, pos, 1)`; for every `pos`,
`rfind(c, pos) == rfind(s, pos, 1)`, for the empty value too.  For
`pos > size()` the first raises the out-of-range condition and the second
returns `npos`. -/
theorem char_search_agrees_with_needle_search (x : basic_string_literal Ch N) (c : Ch)
    (s : Ptr Ch) (pos : Nat) (hN : N ≤ PTRDIFF_MAX) (hs : s.deref = some c) :
    (pos ≤ N → ∃ r, x.find_char c pos = .ok r ∧ x.find_buf s pos 1 = .ok r) ∧
    (∃ r, x.rfind_char c pos = .ok r ∧ x.rfind_buf s pos 1 = .ok r) ∧
    (N < pos → x.find_char c pos = .out_of_range ∧ x.find_buf s pos 1 = .ok npos) := by
  have hlt : s.idx < s.arr.length := by
    by_contra hc
    have : s.deref = none := by
      simp only [Ptr.deref]
      exact List.getElem?_eq_none (by omega)
    rw [this] at hs
    exact Option.noConfusion hs
  have hget : s.arr.get ⟨s.idx, hlt⟩ = c := by
    rw [Ptr.deref_of_lt s hlt] at hs
    exact Option.some.inj hs
  have hv : (⟨s, 1⟩ : detail_.string_view Ch).valid := by
    simp only [detail_.string_view.valid]
    omega
  have hrange : (⟨s, 1⟩ : detail_.string_view Ch).range = [c] := by
    simp only [detail_.string_view.range]
    rw [Ptr.mem_eq_cons s hlt, List.take_succ_cons, List.take_zero, hget]
  have hnp := npos_gt_ptrdiff_max N hN
  have hT : ∀ i, N ≤ i → ¬ occurs_at x.content [c] i := fun i hi h => by
    have := ((x.occurs_at_singleton c i).mp h).1
    omega
  obtain ⟨r2, hr2, hs2, hbig⟩ := x.find__spec ⟨s, 1⟩ hv Nat.one_pos pos hN
  rw [hrange] at hs2
  refine ⟨fun hpos => ?_, ?_, fun hpos => ⟨(find_char_out_of_range_iff x c pos).mpr hpos, ?_⟩⟩
  · obtain ⟨r, hr, hsp⟩ := x.find_char_core c pos hpos
    refine ⟨r, hr, ?_⟩
    have hs1 : smallest_or_npos (occurs_at x.content [c]) pos r := by
      apply smallest_of_scan _ N pos r hN hT
      rcases hsp with ⟨e, hn⟩ | ⟨hl, hr1, hp, hm⟩
      · exact Or.inl ⟨e, fun i h1 h2 h => hn i h1 h2 ((x.occurs_at_singleton c i).mp h).2⟩
      · exact Or.inr ⟨hl, hr1, (x.occurs_at_singleton c r).mpr ⟨hr1, hp⟩,
          fun i h1 h2 h => hm i h1 h2 ((x.occurs_at_singleton c i).mp h).2⟩
    rw [basic_string_literal.find_buf, hr2, smallest_or_npos_unique _ _ _ _ hs1 hs2]
  · obtain ⟨r3, hr3, hs3, hshort, _⟩ := x.rfind__spec ⟨s, 1⟩ hv pos hN
    rw [hrange] at hs3 hshort
    by_cases h0 : N = 0
    · refine ⟨npos, ?_, ?_⟩
      · simp [basic_string_literal.rfind_char, basic_string_literal.size, h0]
      · rw [basic_string_literal.rfind_buf, hr3, hshort (by simp [h0])]
    · have hle : (if N - 1 > pos then pos else N - 1) + 1 ≤ N := by
        split <;> omega
      obtain ⟨r, hr, hsp⟩ := x.rfind_char_loop_spec c _ hle
      have hr1 : x.rfind_char c pos = .ok r := by
        rw [basic_string_literal.rfind_char, if_pos (show x.size > 0 from Nat.pos_of_ne_zero h0)]
        exact hr
      refine ⟨r, hr1, ?_⟩
      have hidx : ∀ i, i ≤ pos → i < N → i < (if N - 1 > pos then pos else N - 1) + 1 := by
        intro i h1 h2
        split <;> omega
      have hidx2 : ∀ i, i < (if N - 1 > pos then pos else N - 1) + 1 → i ≤ pos ∧ i < N := by
        intro i
        split <;> omega
      have hs1 : greatest_or_npos (occurs_at x.content [c]) pos r := by
        rcases hsp with ⟨e, hn⟩ | ⟨hl, hp, hm⟩
        · refine Or.inl ⟨e, fun i h1 h => ?_⟩
          have h2 := (x.occurs_at_singleton c i).mp h
          exact hn i (hidx i h1 h2.1) h2.2
        · have hb := hidx2 r hl
          refine Or.inr ⟨by omega, hb.1, (x.occurs_at_singleton c r).mpr ⟨hb.2, hp⟩,
            fun i h1 h2 h => ?_⟩
          have h3 := (x.occurs_at_singleton c i).mp h
          exact hm i h1 (hidx i h2 h3.1) h3.2
      rw [basic_string_literal.rfind_buf, hr3, greatest_or_npos_unique _ _ _ _ hs1 hs3]
  · rw [basic_string_literal.find_buf, hr2, hbig hpos]

theorem char_search_agrees_with_needle_search_witness :
    (1 ≤ 9 → ∃ r, (lit "abcdefabc").find_char 97 1 = .ok r ∧
      (lit "abcdefabc").find_buf ⟨chars "ax", 0⟩ 1 1 = .ok r) ∧
    (∃ r, (lit "abcdefabc").rfind_char 97 1 = .ok r ∧
      (lit "abcdefabc").rfind_buf ⟨chars "ax", 0⟩ 1 1 = .ok r) ∧
    (9 < 1 → (lit "abcdefabc").find_char 97 1 = .out_of_range ∧
      (lit "abcdefabc").find_buf ⟨chars "ax", 0⟩ 1 1 = .ok npos) :=
  char_search_agrees_with_needle_search (lit "abcdefabc") 97 ⟨chars "ax", 0⟩ 1 (by decide)
    (by decide)

end behaviour

/-! ## The reads of the searches -/

section reads

open detail_

variable {Ch : Type} [LinearOrder Ch] {N : Nat}

omit [LinearOrder Ch] in
theorem reads_in_bounds_nil (N lo m : Nat) : reads_in_bounds N lo m [] :=
  fun _ h => absurd h (List.not_mem_nil _)

omit [LinearOrder Ch] in
theorem reads_in_bounds_cons (N lo m : Nat) (a : Access) (log : List Access)
    (ha : a.in_bounds N lo m) (h : reads_in_bounds N lo m log) :
    reads_in_bounds N lo m (a :: log) := by
  intro b hb
  rcases List.mem_cons.mp hb with e | hb
  · rw [e]; exact ha
  · exact h b hb

theorem traced.compare_value (n : Nat) : ∀ (s1 s2 : Ptr Ch) (log : List Access),
    (traced.compare s1 s2 n log).value = constexpr_std_char_traits.compare s1 s2 n := by
  induction n with
  | zero => intro s1 s2 log; rfl
  | succ n ih =>
    intro s1 s2 log
    rw [traced.compare, constexpr_std_char_traits.compare]
    cases s1.deref with
    | none => rfl
    | some a =>
      cases s2.deref with
      | none => rfl
      | some b =>
        simp only []
        split
        · exact ih _ _ _
        · rfl

theorem traced.compare_bounds (N lo m n : Nat) :
    ∀ (s1 s2 : Ptr Ch) (log : List Access) (r : Int) (out : List Access),
      traced.compare s1 s2 n log = .ok (r, out) → s1.idx + n ≤ N → lo ≤ s2.idx →
      s2.idx + n ≤ lo + m → reads_in_bounds N lo m log → reads_in_bounds N lo m out := by
  induction n with
  | zero =>
    intro s1 s2 log r out h _ _ _ hl
    rw [traced.compare] at h
    cases h
    exact hl
  | succ n ih =>
    intro s1 s2 log r out h h1 h2 h3 hl
    have hl2 : reads_in_bounds N lo m (.needle s2.idx :: .hay s1.idx :: log) :=
      reads_in_bounds_cons _ _ _ _ _ (show lo ≤ s2.idx ∧ s2.idx < lo + m from ⟨h2, by omega⟩)
        (reads_in_bounds_cons _ _ _ _ _ (show s1.idx < N from by omega) hl)
    rw [traced.compare] at h
    cases hd1 : s1.deref with
    | none => rw [hd1] at h; cases h
    | some a =>
      cases hd2 : s2.deref with
      | none => rw [hd1, hd2] at h; cases h
      | some b =>
        rw [hd1, hd2] at h
        simp only [] at h
        split at h
        · exact ih _ _ _ r out h (by simp only [Ptr.add]; omega) (by simp only [Ptr.add]; omega)
            (by simp only [Ptr.add]; omega) hl2
        · cases h
          exact hl2

theorem traced.scan_set_value (n : Nat) : ∀ (p : Ptr Ch) (c : Ch) (log : List Access),
    (traced.scan_set p c n log).value = basic_string_literal.scan_set p c n := by
  induction n with
  | zero => intro p c log; rfl
  | succ n ih =>
    intro p c log
    rw [traced.scan_set, basic_string_literal.scan_set]
    cases p.deref with
    | none => rfl
    | some a =>
      simp only []
      split
      · rfl
      · exact ih _ _ _

theorem traced.scan_set_bounds (N lo m n : Nat) :
    ∀ (p : Ptr Ch) (c : Ch) (log : List Access) (r : Bool) (out : List Access),
      traced.scan_set p c n log = .ok (r, out) → lo ≤ p.idx → p.idx + n ≤ lo + m →
      reads_in_bounds N lo m log → reads_in_bounds N lo m out := by
  induction n with
  | zero =>
    intro p c log r out h _ _ hl
    rw [traced.scan_set] at h
    cases h
    exact hl
  | succ n ih =>
    intro p c log r out h h2 h3 hl
    have hl2 : reads_in_bounds N lo m (.needle p.idx :: log) :=
      reads_in_bounds_cons _ _ _ _ _ (show lo ≤ p.idx ∧ p.idx < lo + m from ⟨h2, by omega⟩) hl
    rw [traced.scan_set] at h
    cases hd : p.deref with
    | none => rw [hd] at h; cases h
    | some a =>
      rw [hd] at h
      simp only [] at h
      split at h
      · cases h
        exact hl2
      · exact ih _ _ _ r out h (by simp only [Ptr.add]; omega) (by simp only [Ptr.add]; omega)
          hl2

theorem traced.traits_find_value (n : Nat) : ∀ (p : Ptr Ch) (c : Ch) (log : List Access),
    (traced.traits_find p c n log).value = constexpr_std_char_traits.find p c n := by
  induction n with
  | zero => intro p c log; rfl
  | succ n ih =>
    intro p c log
    rw [traced.traits_find, constexpr_std_char_traits.find]
    cases p.deref with
    | none => rfl
    | some a =>
      simp only []
      split
      · rfl
      · exact ih _ _ _

theorem traced.traits_find_bounds (N lo m n : Nat) :
    ∀ (p : Ptr Ch) (c : Ch) (log : List Access) (r : Option (Ptr Ch)) (out : List Access),
      traced.traits_find p c n log = .ok (r, out) → p.idx + n ≤ N →
      reads_in_bounds N lo m log → reads_in_bounds N lo m out := by
  induction n with
  | zero =>
    intro p c log r out h _ hl
    rw [traced.traits_find] at h
    cases h
    exact hl
  | succ n ih =>
    intro p c log r out h h1 hl
    have hl2 : reads_in_bounds N lo m (.hay p.idx :: log) :=
      reads_in_bounds_cons _ _ _ _ _ (show p.idx < N from by omega) hl
    rw [traced.traits_find] at h
    cases hd : p.deref with
    | none => rw [hd] at h; cases h
    | some a =>
      rw [hd] at h
      simp only [] at h
      split at h
      · cases h
        exact hl2
      · exact ih _ _ _ r out h (by simp only [Ptr.add]; omega) hl2

omit [LinearOrder Ch] in
theorem Result.value_ok {α β : Type} (t : Result (α × β)) (r : α) (h : t.value = .ok r) :
    ∃ out, t = .ok (r, out) := by
  cases t with
  | ok p =>
    have h2 : Result.ok p.1 = Result.ok r := h
    cases h2
    exact ⟨p.2, rfl⟩
  | out_of_range => cases h
  | undefined => cases h

theorem traced.find_char_value (x : basic_string_literal Ch N) (c : Ch) (pos : Nat) :
    (traced.find_char x c pos).value = x.find_char c pos := by
  rw [traced.find_char, basic_string_literal.find_char]
  by_cases h1 : pos ≤ x.size
  · simp only [h1, if_true, Result.bind_ok]
    by_cases h2 : pos < x.size
    · simp only [h2, if_true]
      have hv := traced.traits_find_value (x.size - pos) (x.data.add pos) c []
      cases hsc : traced.traits_find (x.data.add pos) c (x.size - pos) [] with
      | ok r1 =>
        rw [hsc] at hv
        have hv2 : constexpr_std_char_traits.find (x.data.add pos) c (x.size - pos)
            = .ok r1.1 := hv.symm
        rw [hv2]
        simp only [Result.bind_ok]
        cases r1.1 <;> rfl
      | out_of_range => rw [hsc] at hv; rw [← hv]; rfl
      | undefined => rw [hsc] at hv; rw [← hv]; rfl
    · simp only [h2, if_false]
      rfl
  · simp only [h1, if_false]
    rfl

theorem traced.find_char_bounds (x : basic_string_literal Ch N) (c : Ch) (pos lo m r : Nat)
    (out : List Access) (h : traced.find_char x c pos = .ok (r, out)) :
    reads_in_bounds N lo m out := by
  rw [traced.find_char] at h
  by_cases h1 : pos ≤ x.size
  · simp only [h1, if_true, Result.bind_ok] at h
    by_cases h2 : pos < x.size
    · simp only [h2, if_true] at h
      cases hsc : traced.traits_find (x.data.add pos) c (x.size - pos) [] with
      | ok r1 =>
        have hb := traced.traits_find_bounds N lo m (x.size - pos) (x.data.add pos) c [] r1.1
          r1.2 hsc (by
            simp only [basic_string_literal.data, Ptr.add, basic_string_literal.size] at *
            omega) (reads_in_bounds_nil N lo m)
        rw [hsc] at h
        simp only [Result.bind_ok] at h
        cases hq : r1.1 with
        | none => rw [hq] at h; cases h; exact hb
        | some q => rw [hq] at h; cases h; exact hb
      | out_of_range => rw [hsc] at h; cases h
      | undefined => rw [hsc] at h; cases h
    · simp only [h2, if_false] at h
      cases h
      exact reads_in_bounds_nil N lo m
  · simp only [h1, if_false] at h
    cases h

theorem traced.find_loop_value (x : basic_string_literal Ch N) (str : string_view Ch) (k : Nat) :
    ∀ (pos : Nat) (log : List Access),
      (traced.find_loop x str pos k log).value = x.find_loop str pos k := by
  induction k with
  | zero => intro pos log; rfl
  | succ k ih =>
    intro pos log
    rw [traced.find_loop, basic_string_literal.find_loop]
    cases x.data_[pos]? with
    | none => rfl
    | some a =>
      cases str.s.deref with
      | none => rfl
      | some b =>
        simp only []
        split
        · have hv := traced.compare_value (str.size - 1) (x.data.add (pos + 1)) (str.data.add 1)
            (.needle str.s.idx :: .hay pos :: log)
          cases hsc : traced.compare (x.data.add (pos + 1)) (str.data.add 1) (str.size - 1)
              (.needle str.s.idx :: .hay pos :: log) with
          | ok r1 =>
            rw [hsc] at hv
            have hv2 : constexpr_std_char_traits.compare (x.data.add (pos + 1))
                (str.data.add 1) (str.size - 1) = .ok r1.1 := hv.symm
            rw [hv2]
            simp only []
            split
            · rfl
            · exact ih _ _
          | out_of_range => rw [hsc] at hv; rw [← hv]; rfl
          | undefined => rw [hsc] at hv; rw [← hv]; rfl
        · exact ih _ _

theorem traced.find_loop_bounds (x : basic_string_literal Ch N) (str : string_view Ch)
    (hm : 0 < str.sz) (k : Nat) :
    ∀ (pos : Nat) (log : List Access) (r : Nat) (out : List Access),
      traced.find_loop x str pos k log = .ok (r, out) → (k ≠ 0 → pos + k + str.sz ≤ N + 1) →
      reads_in_bounds N str.s.idx str.sz log → reads_in_bounds N str.s.idx str.sz out := by
  induction k with
  | zero =>
    intro pos log r out h _ hl
    rw [traced.find_loop] at h
    cases h
    exact hl
  | succ k ih =>
    intro pos log r out h hk hl
    have hk2 := hk (Nat.succ_ne_zero k)
    have hl2 : reads_in_bounds N str.s.idx str.sz (.needle str.s.idx :: .hay pos :: log) :=
      reads_in_bounds_cons _ _ _ _ _
        (show str.s.idx ≤ str.s.idx ∧ str.s.idx < str.s.idx + str.sz from ⟨le_refl _, by omega⟩)
        (reads_in_bounds_cons _ _ _ _ _ (show pos < N from by omega) hl)
    rw [traced.find_loop] at h
    cases hd1 : x.data_[pos]? with
    | none => rw [hd1] at h; cases h
    | some a =>
      cases hd2 : str.s.deref with
      | none => rw [hd1, hd2] at h; cases h
      | some b =>
        rw [hd1, hd2] at h
        simp only [] at h
        split at h
        · cases hsc : traced.compare (x.data.add (pos + 1)) (str.data.add 1) (str.size - 1)
              (.needle str.s.idx :: .hay pos :: log) with
          | ok r1 =>
            have hb := traced.compare_bounds N str.s.idx str.sz (str.size - 1)
              (x.data.add (pos + 1)) (str.data.add 1) _ r1.1 r1.2 hsc
              (by
                simp only [basic_string_literal.data, Ptr.add, string_view.size]
                omega)
              (by simp only [string_view.data, Ptr.add]; omega)
              (by simp only [string_view.data, Ptr.add, string_view.size]; omega) hl2
            rw [hsc] at h
            simp only [] at h
            split at h
            · cases h; exact hb
            · exact ih _ _ r out h (fun _ => by omega) hb
          | out_of_range => rw [hsc] at h; cases h
          | undefined => rw [hsc] at h; cases h
        · exact ih _ _ r out h (fun _ => by omega) hl2

theorem traced.find__value (x : basic_string_literal Ch N) (str : string_view Ch) (pos : Nat) :
    (traced.find_ x str pos).value = x.find_ str pos := by
  rw [traced.find_, basic_string_literal.find_]
  split
  · rfl
  · split
    · exact traced.find_loop_value x str _ pos []
    · rfl

theorem traced.find__bounds (x : basic_string_literal Ch N) (str : string_view Ch) (pos r : Nat)
    (out : List Access) (h : traced.find_ x str pos = .ok (r, out)) :
    reads_in_bounds N str.s.idx str.sz out := by
  rw [traced.find_] at h
  split at h
  · cases h; exact reads_in_bounds_nil _ _ _
  · rename_i h0
    split at h
    · rename_i h1
      refine traced.find_loop_bounds x str ?_ _ pos [] r out h ?_ (reads_in_bounds_nil _ _ _)
      · exact Nat.pos_of_ne_zero h0
      · intro hk
        simp only [string_view.size, basic_string_literal.size] at *
        omega
    · cases h; exact reads_in_bounds_nil _ _ _

theorem traced.rfind_char_loop_value (x : basic_string_literal Ch N) (c : Ch) (n : Nat) :
    ∀ log : List Access, (traced.rfind_char_loop x c n log).value = x.rfind_char_loop c n := by
  induction n with
  | zero => intro log; rfl
  | succ n ih =>
    intro log
    rw [traced.rfind_char_loop, basic_string_literal.rfind_char_loop]
    cases x.data_[n]? with
    | none => rfl
    | some a =>
      simp only []
      split
      · rfl
      · exact ih _

theorem traced.rfind_char_loop_bounds (x : basic_string_literal Ch N) (c : Ch) (lo m n : Nat) :
    ∀ (log : List Access) (r : Nat) (out : List Access),
      traced.rfind_char_loop x c n log = .ok (r, out) → n ≤ N →
      reads_in_bounds N lo m log → reads_in_bounds N lo m out := by
  induction n with
  | zero =>
    intro log r out h _ hl
    rw [traced.rfind_char_loop] at h
    cases h
    exact hl
  | succ n ih =>
    intro log r out h hn hl
    have hl2 : reads_in_bounds N lo m (.hay n :: log) :=
      reads_in_bounds_cons _ _ _ _ _ (show n < N from by omega) hl
    rw [traced.rfind_char_loop] at h
    cases hd : x.data_[n]? with
    | none => rw [hd] at h; cases h
    | some a =>
      rw [hd] at h
      simp only [] at h
      split at h
      · cases h; exact hl2
      · exact ih _ r out h (by omega) hl2

theorem traced.rfind_char_value (x : basic_string_literal Ch N) (c : Ch) (pos : Nat) :
    (traced.rfind_char x c pos).value = x.rfind_char c pos := by
  rw [traced.rfind_char, basic_string_literal.rfind_char]
  split
  · exact traced.rfind_char_loop_value x c _ []
  · rfl

theorem traced.rfind_char_bounds (x : basic_string_literal Ch N) (c : Ch) (pos lo m r : Nat)
    (out : List Access) (h : traced.rfind_char x c pos = .ok (r, out)) :
    reads_in_bounds N lo m out := by
  rw [traced.rfind_char] at h
  split at h
  · rename_i h0
    refine traced.rfind_char_loop_bounds x c lo m _ [] r out h ?_ (reads_in_bounds_nil _ _ _)
    simp only [basic_string_literal.size] at *
    split <;> omega
  · cases h; exact reads_in_bounds_nil _ _ _

theorem traced.rfind_loop_value (x : basic_string_literal Ch N) (str : string_view Ch)
    (p : Nat) : ∀ log : List Access,
      (traced.rfind_loop x str p log).value = x.rfind_loop str p := by
  induction p with
  | zero =>
    intro log
    rw [traced.rfind_loop, basic_string_literal.rfind_loop]
    have hv := traced.compare_value str.size (x.data.add 0) str.data log
    cases hsc : traced.compare (x.data.add 0) str.data str.size log with
    | ok r1 =>
      rw [hsc] at hv
      have hv2 : constexpr_std_char_traits.compare (x.data.add 0) str.data str.size
          = .ok r1.1 := hv.symm
      rw [hv2]
      simp only []
      split <;> rfl
    | out_of_range => rw [hsc] at hv; rw [← hv]; rfl
    | undefined => rw [hsc] at hv; rw [← hv]; rfl
  | succ p ih =>
    intro log
    rw [traced.rfind_loop, basic_string_literal.rfind_loop]
    have hv := traced.compare_value str.size (x.data.add (p + 1)) str.data log
    cases hsc : traced.compare (x.data.add (p + 1)) str.data str.size log with
    | ok r1 =>
      rw [hsc] at hv
      have hv2 : constexpr_std_char_traits.compare (x.data.add (p + 1)) str.data str.size
          = .ok r1.1 := hv.symm
      rw [hv2]
      simp only []
      split
      · rfl
      · exact ih _
    | out_of_range => rw [hsc] at hv; rw [← hv]; rfl
    | undefined => rw [hsc] at hv; rw [← hv]; rfl

theorem traced.rfind_loop_bounds (x : basic_string_literal Ch N) (str : string_view Ch)
    (p : Nat) : ∀ (log : List Access) (r : Nat) (out : List Access),
      traced.rfind_loop x str p log = .ok (r, out) → p + str.sz ≤ N →
      reads_in_bounds N str.s.idx str.sz log → reads_in_bounds N str.s.idx str.sz out := by
  induction p with
  | zero =>
    intro log r out h hp hl
    rw [traced.rfind_loop] at h
    cases hsc : traced.compare (x.data.add 0) str.data str.size log with
    | ok r1 =>
      have hb := traced.compare_bounds N str.s.idx str.sz str.size (x.data.add 0) str.data _
        r1.1 r1.2 hsc
        (by simp only [basic_string_literal.data, Ptr.add, string_view.size]; omega)
        (le_refl _) (le_refl _) hl
      rw [hsc] at h
      simp only [] at h
      split at h <;> (cases h; exact hb)
    | out_of_range => rw [hsc] at h; cases h
    | undefined => rw [hsc] at h; cases h
  | succ p ih =>
    intro log r out h hp hl
    rw [traced.rfind_loop] at h
    cases hsc : traced.compare (x.data.add (p + 1)) str.data str.size log with
    | ok r1 =>
      have hb := traced.compare_bounds N str.s.idx str.sz str.size (x.data.add (p + 1))
        str.data _ r1.1 r1.2 hsc
        (by simp only [basic_string_literal.data, Ptr.add, string_view.size]; omega)
        (le_refl _) (le_refl _) hl
      rw [hsc] at h
      simp only [] at h
      split at h
      · cases h; exact hb
      · exact ih _ r out h (by omega) hb
    | out_of_range => rw [hsc] at h; cases h
    | undefined => rw [hsc] at h; cases h

theorem traced.rfind__value (x : basic_string_literal Ch N) (str : string_view Ch) (pos : Nat) :
    (traced.rfind_ x str pos).value = x.rfind_ str pos := by
  rw [traced.rfind_, basic_string_literal.rfind_]
  split
  · exact traced.rfind_loop_value x str _ []
  · rfl

theorem traced.rfind__bounds (x : basic_string_literal Ch N) (str : string_view Ch)
    (pos r : Nat) (out : List Access) (h : traced.rfind_ x str pos = .ok (r, out)) :
    reads_in_bounds N str.s.idx str.sz out := by
  rw [traced.rfind_] at h
  split at h
  · rename_i h0
    refine traced.rfind_loop_bounds x str _ [] r out h ?_ (reads_in_bounds_nil _ _ _)
    simp only [string_view.size, basic_string_literal.size] at *
    omega
  · cases h; exact reads_in_bounds_nil _ _ _

theorem traced.find_first_of_loop_value (x : basic_string_literal Ch N) (str : string_view Ch)
    (k : Nat) : ∀ (pos : Nat) (log : List Access),
      (traced.find_first_of_loop x str pos k log).value = x.find_first_of_loop str pos k := by
  induction k with
  | zero => intro pos log; rfl
  | succ k ih =>
    intro pos log
    rw [traced.find_first_of_loop, basic_string_literal.find_first_of_loop]
    cases x.data_[pos]? with
    | none => rfl
    | some d =>
      simp only []
      have hv := traced.scan_set_value str.size str.data d (.hay pos :: log)
      cases hsc : traced.scan_set str.data d str.size (.hay pos :: log) with
      | ok r1 =>
        rw [hsc] at hv
        have hv2 : basic_string_literal.scan_set str.data d str.size = .ok r1.1 := hv.symm
        rw [hv2]
        simp only []
        split
        · rfl
        · exact ih _ _
      | out_of_range => rw [hsc] at hv; rw [← hv]; rfl
      | undefined => rw [hsc] at hv; rw [← hv]; rfl

theorem traced.find_first_of_loop_bounds (x : basic_string_literal Ch N) (str : string_view Ch)
    (k : Nat) : ∀ (pos : Nat) (log : List Access) (r : Nat) (out : List Access),
      traced.find_first_of_loop x str pos k log = .ok (r, out) → (k ≠ 0 → pos + k ≤ N) →
      reads_in_bounds N str.s.idx str.sz log → reads_in_bounds N str.s.idx str.sz out := by
  induction k with
  | zero =>
    intro pos log r out h _ hl
    rw [traced.find_first_of_loop] at h
    cases h
    exact hl
  | succ k ih =>
    intro pos log r out h hk hl
    have hk2 := hk (Nat.succ_ne_zero k)
    have hl2 : reads_in_bounds N str.s.idx str.sz (.hay pos :: log) :=
      reads_in_bounds_cons _ _ _ _ _ (show pos < N from by omega) hl
    rw [traced.find_first_of_loop] at h
    cases hd : x.data_[pos]? with
    | none => rw [hd] at h; cases h
    | some d =>
      rw [hd] at h
      simp only [] at h
      cases hsc : traced.scan_set str.data d str.size (.hay pos :: log) with
      | ok r1 =>
        have hb := traced.scan_set_bounds N str.s.idx str.sz str.size str.data d _ r1.1 r1.2
          hsc (le_refl _) (le_refl _) hl2
        rw [hsc] at h
        simp only [] at h
        split at h
        · cases h; exact hb
        · exact ih _ _ r out h (fun _ => by omega) hb
      | out_of_range => rw [hsc] at h; cases h
      | undefined => rw [hsc] at h; cases h

theorem traced.find_last_of_loop_value (x : basic_string_literal Ch N) (str : string_view Ch)
    (p : Nat) : ∀ log : List Access,
      (traced.find_last_of_loop x str p log).value = x.find_last_of_loop str p := by
  induction p with
  | zero =>
    intro log
    rw [traced.find_last_of_loop, basic_string_literal.find_last_of_loop]
    cases x.data_[0]? with
    | none => rfl
    | some d =>
      simp only []
      have hv := traced.scan_set_value str.size str.data d (.hay 0 :: log)
      cases hsc : traced.scan_set str.data d str.size (.hay 0 :: log) with
      | ok r1 =>
        rw [hsc] at hv
        have hv2 : basic_string_literal.scan_set str.data d str.size = .ok r1.1 := hv.symm
        rw [hv2]
        simp only []
        split <;> rfl
      | out_of_range => rw [hsc] at hv; rw [← hv]; rfl
      | undefined => rw [hsc] at hv; rw [← hv]; rfl
  | succ p ih =>
    intro log
    rw [traced.find_last_of_loop, basic_string_literal.find_last_of_loop]
    cases x.data_[p + 1]? with
    | none => rfl
    | some d =>
      simp only []
      have hv := traced.scan_set_value str.size str.data d (.hay (p + 1) :: log)
      cases hsc : traced.scan_set str.data d str.size (.hay (p + 1) :: log) with
      | ok r1 =>
        rw [hsc] at hv
        have hv2 : basic_string_literal.scan_set str.data d str.size = .ok r1.1 := hv.symm
        rw [hv2]
        simp only []
        split
        · rfl
        · exact ih _
      | out_of_range => rw [hsc] at hv; rw [← hv]; rfl
      | undefined => rw [hsc] at hv; rw [← hv]; rfl

theorem traced.find_last_of_loop_bounds (x : basic_string_literal Ch N) (str : string_view Ch)
    (p : Nat) : ∀ (log : List Access) (r : Nat) (out : List Access),
      traced.find_last_of_loop x str p log = .ok (r, out) → p < N →
      reads_in_bounds N str.s.idx str.sz log → reads_in_bounds N str.s.idx str.sz out := by
  induction p with
  | zero =>
    intro log r out h hp hl
    have hl2 : reads_in_bounds N str.s.idx str.sz (.hay 0 :: log) :=
      reads_in_bounds_cons _ _ _ _ _ (show 0 < N from hp) hl
    rw [traced.find_last_of_loop] at h
    cases hd : x.data_[0]? with
    | none => rw [hd] at h; cases h
    | some d =>
      rw [hd] at h
      simp only [] at h
      cases hsc : traced.scan_set str.data d str.size (.hay 0 :: log) with
      | ok r1 =>
        have hb := traced.scan_set_bounds N str.s.idx str.sz str.size str.data d _ r1.1 r1.2
          hsc (le_refl _) (le_refl _) hl2
        rw [hsc] at h
        simp only [] at h
        split at h <;> (cases h; exact hb)
      | out_of_range => rw [hsc] at h; cases h
      | undefined => rw [hsc] at h; cases h
  | succ p ih =>
    intro log r out h hp hl
    have hl2 : reads_in_bounds N str.s.idx str.sz (.hay (p + 1) :: log) :=
      reads_in_bounds_cons _ _ _ _ _ (show p + 1 < N from hp) hl
    rw [traced.find_last_of_loop] at h
    cases hd : x.data_[p + 1]? with
    | none => rw [hd] at h; cases h
    | some d =>
      rw [hd] at h
      simp only [] at h
      cases hsc : traced.scan_set str.data d str.size (.hay (p + 1) :: log) with
      | ok r1 =>
        have hb := traced.scan_set_bounds N str.s.idx str.sz str.size str.data d _ r1.1 r1.2
          hsc (le_refl _) (le_refl _) hl2
        rw [hsc] at h
        simp only [] at h
        split at h
        · cases h; exact hb
        · exact ih _ r out h (by omega) hb
      | out_of_range => rw [hsc] at h; cases h
      | undefined => rw [hsc] at h; cases h

theorem traced.find_first_not_of_loop_value (x : basic_string_literal Ch N) (str : string_view Ch)
    (k : Nat) : ∀ (pos : Nat) (log : List Access),
      (traced.find_first_not_of_loop x str pos k log).value = x.find_first_not_of_loop str pos k := by
  induction k with
  | zero => intro pos log; rfl
  | succ k ih =>
    intro pos log
    rw [traced.find_first_not_of_loop, basic_string_literal.find_first_not_of_loop]
    cases x.data_[pos]? with
    | none => rfl
    | some d =>
      simp only []
      have hv := traced.scan_set_value str.size str.data d (.hay pos :: log)
      cases hsc : traced.scan_set str.data d str.size (.hay pos :: log) with
      | ok r1 =>
        rw [hsc] at hv
        have hv2 : basic_string_literal.scan_set str.data d str.size = .ok r1.1 := hv.symm
        rw [hv2]
        simp only []
        split
        · rfl
        · exact ih _ _
      | out_of_range => rw [hsc] at hv; rw [← hv]; rfl
      | undefined => rw [hsc] at hv; rw [← hv]; rfl

theorem traced.find_first_not_of_loop_bounds (x : basic_string_literal Ch N) (str : string_view Ch)
    (k : Nat) : ∀ (pos : Nat) (log : List Access) (r : Nat) (out : List Access),
      traced.find_first_not_of_loop x str pos k log = .ok (r, out) → (k ≠ 0 → pos + k ≤ N) →
      reads_in_bounds N str.s.idx str.sz log → reads_in_bounds N str.s.idx str.sz out := by
  induction k with
  | zero =>
    intro pos log r out h _ hl
    rw [traced.find_first_not_of_loop] at h
    cases h
    exact hl
  | succ k ih =>
    intro pos log r out h hk hl
    have hk2 := hk (Nat.succ_ne_zero k)
    have hl2 : reads_in_bounds N str.s.idx str.sz (.hay pos :: log) :=
      reads_in_bounds_cons _ _ _ _ _ (show pos < N from by omega) hl
    rw [traced.find_first_not_of_loop] at h
    cases hd : x.data_[pos]? with
    | none => rw [hd] at h; cases h
    | some d =>
      rw [hd] at h
      simp only [] at h
      cases hsc : traced.scan_set str.data d str.size (.hay pos :: log) with
      | ok r1 =>
        have hb := traced.scan_set_bounds N str.s.idx str.sz str.size str.data d _ r1.1 r1.2
          hsc (le_refl _) (le_refl _) hl2
        rw [hsc] at h
        simp only [] at h
        split at h
        · cases h; exact hb
        · exact ih _ _ r out h (fun _ => by omega) hb
      | out_of_range => rw [hsc] at h; cases h
      | undefined => rw [hsc] at h; cases h

theorem traced.find_last_not_of_loop_value (x : basic_string_literal Ch N) (str : string_view Ch)
    (p : Nat) : ∀ log : List Access,
      (traced.find_last_not_of_loop x str p log).value = x.find_last_not_of_loop str p := by
  induction p with
  | zero =>
    intro log
    rw [traced.find_last_not_of_loop, basic_string_literal.find_last_not_of_loop]
    cases x.data_[0]? with
    | none => rfl
    | some d =>
      simp only []
      have hv := traced.scan_set_value str.size str.data d (.hay 0 :: log)
      cases hsc : traced.scan_set str.data d str.size (.hay 0 :: log) with
      | ok r1 =>
        rw [hsc] at hv
        have hv2 : basic_string_literal.scan_set str.data d str.size = .ok r1.1 := hv.symm
        rw [hv2]
        simp only []
        split <;> rfl
      | out_of_range => rw [hsc] at hv; rw [← hv]; rfl
      | undefined => rw [hsc] at hv; rw [← hv]; rfl
  | succ p ih =>
    intro log
    rw [traced.find_last_not_of_loop, basic_string_literal.find_last_not_of_loop]
    cases x.data_[p + 1]? with
    | none => rfl
    | some d =>
      simp only []
      have hv := traced.scan_set_value str.size str.data d (.hay (p + 1) :: log)
      cases hsc : traced.scan_set str.data d str.size (.hay (p + 1) :: log) with
      | ok r1 =>
        rw [hsc] at hv
        have hv2 : basic_string_literal.scan_set str.data d str.size = .ok r1.1 := hv.symm
        rw [hv2]
        simp only []
        split
        · rfl
        · exact ih _
      | out_of_range => rw [hsc] at hv; rw [← hv]; rfl
      | undefined => rw [hsc] at hv; rw [← hv]; rfl

theorem traced.find_last_not_of_loop_bounds (x : basic_string_literal Ch N) (str : string_view Ch)
    (p : Nat) : ∀ (log : List Access) (r : Nat) (out : List Access),
      traced.find_last_not_of_loop x str p log = .ok (r, out) → p < N →
      reads_in_bounds N str.s.idx str.sz log → reads_in_bounds N str.s.idx str.sz out := by
  induction p with
  | zero =>
    intro log r out h hp hl
    have hl2 : reads_in_bounds N str.s.idx str.sz (.hay 0 :: log) :=
      reads_in_bounds_cons _ _ _ _ _ (show 0 < N from hp) hl
    rw [traced.find_last_not_of_loop] at h
    cases hd : x.data_[0]? with
    | none => rw [hd] at h; cases h
    | some d =>
      rw [hd] at h
      simp only [] at h
      cases hsc : traced.scan_set str.data d str.size (.hay 0 :: log) with
      | ok r1 =>
        have hb := traced.scan_set_bounds N str.s.idx str.sz str.size str.data d _ r1.1 r1.2
          hsc (le_refl _) (le_refl _) hl2
        rw [hsc] at h
        simp only [] at h
        split at h <;> (cases h; exact hb)
      | out_of_range => rw [hsc] at h; cases h
      | undefined => rw [hsc] at h; cases h
  | succ p ih =>
    intro log r out h hp hl
    have hl2 : reads_in_bounds N str.s.idx str.sz (.hay (p + 1) :: log) :=
      reads_in_bounds_cons _ _ _ _ _ (show p + 1 < N from hp) hl
    rw [traced.find_last_not_of_loop] at h
    cases hd : x.data_[p + 1]? with
    | none => rw [hd] at h; cases h
    | some d =>
      rw [hd] at h
      simp only [] at h
      cases hsc : traced.scan_set str.data d str.size (.hay (p + 1) :: log) with
      | ok r1 =>
        have hb := traced.scan_set_bounds N str.s.idx str.sz str.size str.data d _ r1.1 r1.2
          hsc (le_refl _) (le_refl _) hl2
        rw [hsc] at h
        simp only [] at h
        split at h
        · cases h; exact hb
        · exact ih _ r out h (by omega) hb
      | out_of_range => rw [hsc] at h; cases h
      | undefined => rw [hsc] at h; cases h

theorem traced.find_first_not_of_char_loop_value (x : basic_string_literal Ch N) (c : Ch)
    (k : Nat) : ∀ (pos : Nat) (log : List Access),
      (traced.find_first_not_of_char_loop x c pos k log).value
        = x.find_first_not_of_char_loop c pos k := by
  induction k with
  | zero => intro pos log; rfl
  | succ k ih =>
    intro pos log
    rw [traced.find_first_not_of_char_loop, basic_string_literal.find_first_not_of_char_loop]
    cases x.data_[pos]? with
    | none => rfl
    | some d =>
      simp only []
      split
      · rfl
      · exact ih _ _

theorem traced.find_first_not_of_char_loop_bounds (x : basic_string_literal Ch N) (c : Ch)
    (lo m k : Nat) : ∀ (pos : Nat) (log : List Access) (r : Nat) (out : List Access),
      traced.find_first_not_of_char_loop x c pos k log = .ok (r, out) →
      (k ≠ 0 → pos + k ≤ N) → reads_in_bounds N lo m log → reads_in_bounds N lo m out := by
  induction k with
  | zero =>
    intro pos log r out h _ hl
    rw [traced.find_first_not_of_char_loop] at h
    cases h
    exact hl
  | succ k ih =>
    intro pos log r out h hk hl
    have hk2 := hk (Nat.succ_ne_zero k)
    have hl2 : reads_in_bounds N lo m (.hay pos :: log) :=
      reads_in_bounds_cons _ _ _ _ _ (show pos < N from by omega) hl
    rw [traced.find_first_not_of_char_loop] at h
    cases hd : x.data_[pos]? with
    | none => rw [hd] at h; cases h
    | some d =>
      rw [hd] at h
      simp only [] at h
      split at h
      · cases h; exact hl2
      · exact ih _ _ r out h (fun _ => by omega) hl2

theorem traced.find_last_not_of_char_loop_value (x : basic_string_literal Ch N) (c : Ch)
    (p : Nat) : ∀ log : List Access,
      (traced.find_last_not_of_char_loop x c p log).value
        = x.find_last_not_of_char_loop c p := by
  induction p with
  | zero =>
    intro log
    rw [traced.find_last_not_of_char_loop, basic_string_literal.find_last_not_of_char_loop]
    cases x.data_[0]? with
    | none => rfl
    | some d =>
      simp only []
      split <;> rfl
  | succ p ih =>
    intro log
    rw [traced.find_last_not_of_char_loop, basic_string_literal.find_last_not_of_char_loop]
    cases x.data_[p + 1]? with
    | none => rfl
    | some d =>
      simp only []
      split
      · rfl
      · exact ih _

theorem traced.find_last_not_of_char_loop_bounds (x : basic_string_literal Ch N) (c : Ch)
    (lo m p : Nat) : ∀ (log : List Access) (r : Nat) (out : List Access),
      traced.find_last_not_of_char_loop x c p log = .ok (r, out) → p < N →
      reads_in_bounds N lo m log → reads_in_bounds N lo m out := by
  induction p with
  | zero =>
    intro log r out h hp hl
    have hl2 : reads_in_bounds N lo m (.hay 0 :: log) :=
      reads_in_bounds_cons _ _ _ _ _ (show 0 < N from hp) hl
    rw [traced.find_last_not_of_char_loop] at h
    cases hd : x.data_[0]? with
    | none => rw [hd] at h; cases h
    | some d =>
      rw [hd] at h
      simp only [] at h
      split at h <;> (cases h; exact hl2)
  | succ p ih =>
    intro log r out h hp hl
    have hl2 : reads_in_bounds N lo m (.hay (p + 1) :: log) :=
      reads_in_bounds_cons _ _ _ _ _ (show p + 1 < N from hp) hl
    rw [traced.find_last_not_of_char_loop] at h
    cases hd : x.data_[p + 1]? with
    | none => rw [hd] at h; cases h
    | some d =>
      rw [hd] at h
      simp only [] at h
      split at h
      · cases h; exact hl2
      · exact ih _ r out h (by omega) hl2

omit [LinearOrder Ch] in
theorem backward_start_lt (x : basic_string_literal Ch N) (pos : Nat) (h : x.size ≠ 0) :
    (if x.size - 1 > pos then pos else x.size - 1) < N := by
  simp only [basic_string_literal.size] at *
  split <;> omega

theorem traced.find_first_of__value (x : basic_string_literal Ch N) (str : string_view Ch)
    (pos : Nat) : (traced.find_first_of_ x str pos).value = x.find_first_of_ str pos := by
  rw [traced.find_first_of_, basic_string_literal.find_first_of_]
  split
  · exact traced.find_first_of_loop_value x str _ pos []
  · rfl

theorem traced.find_first_of__bounds (x : basic_string_literal Ch N) (str : string_view Ch)
    (pos r : Nat) (out : List Access) (h : traced.find_first_of_ x str pos = .ok (r, out)) :
    reads_in_bounds N str.s.idx str.sz out := by
  rw [traced.find_first_of_] at h
  split at h
  · refine traced.find_first_of_loop_bounds x str _ pos [] r out h ?_ (reads_in_bounds_nil _ _ _)
    intro hk
    simp only [basic_string_literal.size] at *
    omega
  · cases h; exact reads_in_bounds_nil _ _ _

theorem traced.find_last_of__value (x : basic_string_literal Ch N) (str : string_view Ch)
    (pos : Nat) : (traced.find_last_of_ x str pos).value = x.find_last_of_ str pos := by
  rw [traced.find_last_of_, basic_string_literal.find_last_of_]
  split
  · exact traced.find_last_of_loop_value x str _ []
  · rfl

theorem traced.find_last_of__bounds (x : basic_string_literal Ch N) (str : string_view Ch)
    (pos r : Nat) (out : List Access) (h : traced.find_last_of_ x str pos = .ok (r, out)) :
    reads_in_bounds N str.s.idx str.sz out := by
  rw [traced.find_last_of_] at h
  split at h
  · rename_i h0
    exact traced.find_last_of_loop_bounds x str _ [] r out h (backward_start_lt x pos h0.1)
      (reads_in_bounds_nil _ _ _)
  · cases h; exact reads_in_bounds_nil _ _ _

theorem traced.find_first_not_of__value (x : basic_string_literal Ch N) (str : string_view Ch)
    (pos : Nat) : (traced.find_first_not_of_ x str pos).value = x.find_first_not_of_ str pos :=
  traced.find_first_not_of_loop_value x str _ pos []

theorem traced.find_first_not_of__bounds (x : basic_string_literal Ch N) (str : string_view Ch)
    (pos r : Nat) (out : List Access) (h : traced.find_first_not_of_ x str pos = .ok (r, out)) :
    reads_in_bounds N str.s.idx str.sz out := by
  refine traced.find_first_not_of_loop_bounds x str _ pos [] r out h ?_
    (reads_in_bounds_nil _ _ _)
  intro hk
  simp only [basic_string_literal.size] at *
  omega

theorem traced.find_last_not_of__value (x : basic_string_literal Ch N) (str : string_view Ch)
    (pos : Nat) : (traced.find_last_not_of_ x str pos).value = x.find_last_not_of_ str pos := by
  rw [traced.find_last_not_of_, basic_string_literal.find_last_not_of_]
  split
  · exact traced.find_last_not_of_loop_value x str _ []
  · rfl

theorem traced.find_last_not_of__bounds (x : basic_string_literal Ch N) (str : string_view Ch)
    (pos r : Nat) (out : List Access) (h : traced.find_last_not_of_ x str pos = .ok (r, out)) :
    reads_in_bounds N str.s.idx str.sz out := by
  rw [traced.find_last_not_of_] at h
  split at h
  · rename_i h0
    exact traced.find_last_not_of_loop_bounds x str _ [] r out h (backward_start_lt x pos h0)
      (reads_in_bounds_nil _ _ _)
  · cases h; exact reads_in_bounds_nil _ _ _

theorem traced.find_first_not_of_char_value (x : basic_string_literal Ch N) (c : Ch)
    (pos : Nat) :
    (traced.find_first_not_of_char x c pos).value = x.find_first_not_of_char c pos :=
  traced.find_first_not_of_char_loop_value x c _ pos []

theorem traced.find_first_not_of_char_bounds (x : basic_string_literal Ch N) (c : Ch)
    (pos lo m r : Nat) (out : List Access)
    (h : traced.find_first_not_of_char x c pos = .ok (r, out)) :
    reads_in_bounds N lo m out := by
  refine traced.find_first_not_of_char_loop_bounds x c lo m _ pos [] r out h ?_
    (reads_in_bounds_nil _ _ _)
  intro hk
  simp only [basic_string_literal.size] at *
  omega

theorem traced.find_last_not_of_char_value (x : basic_string_literal Ch N) (c : Ch)
    (pos : Nat) :
    (traced.find_last_not_of_char x c pos).value = x.find_last_not_of_char c pos := by
  rw [traced.find_last_not_of_char, basic_string_literal.find_last_not_of_char]
  split
  · exact traced.find_last_not_of_char_loop_value x c _ []
  · rfl

theorem traced.find_last_not_of_char_bounds (x : basic_string_literal Ch N) (c : Ch)
    (pos lo m r : Nat) (out : List Access)
    (h : traced.find_last_not_of_char x c pos = .ok (r, out)) :
    reads_in_bounds N lo m out := by
  rw [traced.find_last_not_of_char] at h
  split at h
  · rename_i h0
    exact traced.find_last_not_of_char_loop_bounds x c lo m _ [] r out h
      (backward_start_lt x pos h0) (reads_in_bounds_nil _ _ _)
  · cases h; exact reads_in_bounds_nil _ _ _

omit [LinearOrder Ch] in
/-- From the value of the recording operation and its bound to `safe_search`. -/
theorem safe_search_of (N lo m : Nat) (t : Result (Nat × List Access)) (f : Result Nat) (r : Nat)
    (hval : t.value = f) (hf : f = .ok r)
    (hb : ∀ r out, t = .ok (r, out) → reads_in_bounds N lo m out) : safe_search N lo m t f := by
  obtain ⟨out, ht⟩ := Result.value_ok t r (hval.trans hf)
  exact ⟨r, out, ht, hf, hb r out ht⟩

/-- C40: for a value of length `N`, a needle or character set given as a
range of `m` elements inside of its array, and every `pos`, the values `npos`
and `pos > N` included: `find`, `rfind`, `find_first_of`, `find_last_of`,
`find_first_not_of` and `find_last_not_of` return a value, and every element
they read on the way is an element of the value at an index below `N` or one
of the `m` elements of the needle.  The searches for one character read no
needle.  No backward scan reads at a wrapped index, which would not be below
`N`.  `find(c, pos)` with `pos > N` raises the out-of-range condition before
any read. -/
theorem searches_read_in_bounds (x : basic_string_literal Ch N) (v : string_view Ch) (c : Ch)
    (pos : Nat) (hN : N ≤ PTRDIFF_MAX) (hv : v.valid) :
    safe_search N v.s.idx v.sz (traced.find_ x v pos) (x.find_ v pos) ∧
    safe_search N v.s.idx v.sz (traced.rfind_ x v pos) (x.rfind_ v pos) ∧
    safe_search N v.s.idx v.sz (traced.find_first_of_ x v pos) (x.find_first_of_ v pos) ∧
    safe_search N v.s.idx v.sz (traced.find_last_of_ x v pos) (x.find_last_of_ v pos) ∧
    safe_search N v.s.idx v.sz (traced.find_first_not_of_ x v pos)
      (x.find_first_not_of_ v pos) ∧
    safe_search N v.s.idx v.sz (traced.find_last_not_of_ x v pos)
      (x.find_last_not_of_ v pos) ∧
    safe_search N 0 0 (traced.rfind_char x c pos) (x.rfind_char c pos) ∧
    safe_search N 0 0 (traced.find_first_not_of_char x c pos)
      (x.find_first_not_of_char c pos) ∧
    safe_search N 0 0 (traced.find_last_not_of_char x c pos)
      (x.find_last_not_of_char c pos) ∧
    (pos ≤ N → safe_search N 0 0 (traced.find_char x c pos) (x.find_char c pos)) ∧
    (N < pos → traced.find_char x c pos = .out_of_range ∧ x.find_char c pos = .out_of_range) := by
  refine ⟨?_, ?_, ?_, ?_, ?_, ?_, ?_, ?_, ?_, fun hpos => ?_, fun hpos => ?_⟩
  · by_cases hm : v.sz = 0
    · exact safe_search_of _ _ _ _ _ _ (traced.find__value x v pos) (x.find__empty v hm pos)
        (traced.find__bounds x v pos)
    · obtain ⟨r, hr, _⟩ := x.find__spec v hv (Nat.pos_of_ne_zero hm) pos hN
      exact safe_search_of _ _ _ _ _ r (traced.find__value x v pos) hr
        (traced.find__bounds x v pos)
  · obtain ⟨r, hr, _⟩ := x.rfind__spec v hv pos hN
    exact safe_search_of _ _ _ _ _ r (traced.rfind__value x v pos) hr
      (traced.rfind__bounds x v pos)
  · obtain ⟨r, hr, _⟩ := x.find_first_of__spec v hv pos hN
    exact safe_search_of _ _ _ _ _ r (traced.find_first_of__value x v pos) hr
      (traced.find_first_of__bounds x v pos)
  · obtain ⟨r, hr, _⟩ := x.find_last_of__spec v hv pos hN
    exact safe_search_of _ _ _ _ _ r (traced.find_last_of__value x v pos) hr
      (traced.find_last_of__bounds x v pos)
  · obtain ⟨r, hr, _⟩ := x.find_first_not_of__spec v hv pos hN
    exact safe_search_of _ _ _ _ _ r (traced.find_first_not_of__value x v pos) hr
      (traced.find_first_not_of__bounds x v pos)
  · obtain ⟨r, hr, _⟩ := x.find_last_not_of__spec v hv pos hN
    exact safe_search_of _ _ _ _ _ r (traced.find_last_not_of__value x v pos) hr
      (traced.find_last_not_of__bounds x v pos)
  · have hval := traced.rfind_char_value x c pos
    cases hf : x.rfind_char c pos with
    | ok r =>
      exact safe_search_of _ _ _ _ _ r (hval.trans hf) rfl
        (traced.rfind_char_bounds x c pos 0 0)
    | out_of_range =>
      exfalso
      rw [basic_string_literal.rfind_char] at hf
      split at hf
      · rename_i h0
        obtain ⟨r, hr, _⟩ := x.rfind_char_loop_spec c _
          (show (if x.size - 1 > pos then pos else x.size - 1) + 1 ≤ N from by
            simp only [basic_string_literal.size] at *
            split <;> omega)
        rw [hr] at hf
        cases hf
      · cases hf
    | undefined =>
      exfalso
      rw [basic_string_literal.rfind_char] at hf
      split at hf
      · rename_i h0
        obtain ⟨r, hr, _⟩ := x.rfind_char_loop_spec c _
          (show (if x.size - 1 > pos then pos else x.size - 1) + 1 ≤ N from by
            simp only [basic_string_literal.size] at *
            split <;> omega)
        rw [hr] at hf
        cases hf
      · cases hf
  · obtain ⟨r, hr, _⟩ := x.find_first_not_of_char_spec c pos hN
    exact safe_search_of _ _ _ _ _ r (traced.find_first_not_of_char_value x c pos) hr
      (traced.find_first_not_of_char_bounds x c pos 0 0)
  · obtain ⟨r, hr, _⟩ := x.find_last_not_of_char_spec c pos hN
    exact safe_search_of _ _ _ _ _ r (traced.find_last_not_of_char_value x c pos) hr
      (traced.find_last_not_of_char_bounds x c pos 0 0)
  · obtain ⟨r, hr, _⟩ := x.find_char_core c pos hpos
    exact safe_search_of _ _ _ _ _ r (traced.find_char_value x c pos) hr
      (traced.find_char_bounds x c pos 0 0)
  · have h1 : ¬ pos ≤ x.size := by simp only [basic_string_literal.size]; omega
    refine ⟨?_, (find_char_out_of_range_iff x c pos).mpr hpos⟩
    rw [traced.find_char, if_neg h1]
    rfl

theorem searches_read_in_bounds_witness :
    safe_search 9 0 3 (traced.find_ (lit "abcdefabc") ⟨⟨chars "abc", 0⟩, 3⟩ npos)
      ((lit "abcdefabc").find_ ⟨⟨chars "abc", 0⟩, 3⟩ npos) ∧
    safe_search 9 0 3 (traced.rfind_ (lit "abcdefabc") ⟨⟨chars "abc", 0⟩, 3⟩ npos)
      ((lit "abcdefabc").rfind_ ⟨⟨chars "abc", 0⟩, 3⟩ npos) ∧
    safe_search 9 0 3 (traced.find_first_of_ (lit "abcdefabc") ⟨⟨chars "abc", 0⟩, 3⟩ npos)
      ((lit "abcdefabc").find_first_of_ ⟨⟨chars "abc", 0⟩, 3⟩ npos) ∧
    safe_search 9 0 3 (traced.find_last_of_ (lit "abcdefabc") ⟨⟨chars "abc", 0⟩, 3⟩ npos)
      ((lit "abcdefabc").find_last_of_ ⟨⟨chars "abc", 0⟩, 3⟩ npos) ∧
    safe_search 9 0 3 (traced.find_first_not_of_ (lit "abcdefabc") ⟨⟨chars "abc", 0⟩, 3⟩ npos)
      ((lit "abcdefabc").find_first_not_of_ ⟨⟨chars "abc", 0⟩, 3⟩ npos) ∧
    safe_search 9 0 3 (traced.find_last_not_of_ (lit "abcdefabc") ⟨⟨chars "abc", 0⟩, 3⟩ npos)
      ((lit "abcdefabc").find_last_not_of_ ⟨⟨chars "abc", 0⟩, 3⟩ npos) ∧
    safe_search 9 0 0 (traced.rfind_char (lit "abcdefabc") 97 npos)
      ((lit "abcdefabc").rfind_char 97 npos) ∧
    safe_search 9 0 0 (traced.find_first_not_of_char (lit "abcdefabc") 97 npos)
      ((lit "abcdefabc").find_first_not_of_char 97 npos) ∧
    safe_search 9 0 0 (traced.find_last_not_of_char (lit "abcdefabc") 97 npos)
      ((lit "abcdefabc").find_last_not_of_char 97 npos) ∧
    (npos ≤ 9 → safe_search 9 0 0 (traced.find_char (lit "abcdefabc") 97 npos)
      ((lit "abcdefabc").find_char 97 npos)) ∧
    (9 < npos → traced.find_char (lit "abcdefabc") 97 npos = .out_of_range ∧
      (lit "abcdefabc").find_char 97 npos = .out_of_range) :=
  searches_read_in_bounds (lit "abcdefabc") ⟨⟨chars "abc", 0⟩, 3⟩ 97 npos (by decide)
    (by decide)

end reads

end falcon
